import Mathlib

/-!
# Bencode codec of libtransmission (`variant-benc.cc`)

A shallow embedding of the two primitive scanners `tr_bencParseInt` and
`tr_bencParseStr`, of the iterative tree parser `tr_variantParseBenc` and of
the bencode serializer `tr_variantToBufBenc`, followed by theorems about them.

Conventions of the embedding.

* A byte is a natural number (its `uint8_t` value); a buffer window
  `[buf, bufend)` is the list of its bytes.
* A pointer into the window is the offset from `buf`; a pointer variable that
  may be null is an `Option Nat`, `none` being `nullptr`.
* Out-parameters are passed in with the value the caller's variable holds
  before the call and handed back in the result.
* `int64_t` values are integers; the C library conversions report a range
  error where the mathematical value leaves the machine range.
-/

namespace Benc

/-- A window of bytes. -/
abbrev Bytes := List Nat

/-- The bytes of an ASCII literal, used to write inputs readably. -/
def bytes (s : String) : Bytes := s.toList.map Char.toNat

/-- Value of `EILSEQ` in `<cerrno>` (Linux). -/
def EILSEQ : Nat := 84

/-- Value of `ERANGE` in `<cerrno>` (Linux). -/
def ERANGE : Nat := 34

/-- Source: `#define MAX_BENC_STR_LENGTH (128 * 1024 * 1024)`. -/
def MAX_BENC_STR_LENGTH : Nat := 128 * 1024 * 1024

/-- Largest `int64_t`. -/
def INT64_MAX : Int := 9223372036854775807

/-- Smallest `int64_t`. -/
def INT64_MIN : Int := -9223372036854775808

/-- Largest `unsigned long` / `size_t` (LP64). -/
def ULONG_MAX : Nat := 18446744073709551615

/-! ## C library functions used by the scanners -/

/-- C `isdigit` in the "C" locale: the bytes `'0'`..`'9'`. -/
def isdigit (c : Nat) : Bool := decide (48 ≤ c ∧ c ≤ 57)

/-- C `isspace` in the "C" locale: space, `\t`, `\n`, `\v`, `\f`, `\r`. -/
def isspace (c : Nat) : Bool := decide (c = 32 ∨ (9 ≤ c ∧ c ≤ 13))

/-- C `memchr(s, c, n)`: offset of the first byte equal to `c` among the first
`n` bytes of `s`, or `none` (a null pointer) when there is none. -/
def memchr : Bytes → Nat → Nat → Option Nat
  | _, _, 0 => none
  | [], _, _ + 1 => none
  | b :: bs, c, n + 1 => if b = c then some 0 else (memchr bs c n).map (· + 1)

/-- Value denoted by a run of decimal digit bytes, most significant first. -/
def digitsValue (ds : Bytes) : Nat := ds.foldl (fun acc d => acc * 10 + (d - 48)) 0

/-- What a `strtol`-family call leaves behind: the returned value, `*endptr`
as an offset from the start of the text, and `errno` (which the callers clear
before the call). -/
structure StrtoResult where
  val : Int
  endptr : Nat
  errno : Nat
  deriving DecidableEq, Repr

/-- The part of the text a `strtol`-family conversion in base 10 looks at:
the count of leading white-space bytes, whether a minus sign follows, the
count of sign bytes (0 or 1), and the longest run of decimal digits after
them. Reading the end of the list stands for reading a byte that is neither
white space, sign nor digit. -/
structure NumScan where
  ws : Nat
  neg : Bool
  sg : Nat
  ds : Bytes
  deriving DecidableEq, Repr

/-- The subject sequence of a base-10 `strtol`-family conversion of `s`. -/
def scanNumber (s : Bytes) : NumScan :=
  let ws := (s.takeWhile isspace).length
  let s1 := s.drop ws
  let neg : Bool := s1.headD 0 = 45
  let sg : Nat := if s1.headD 0 = 45 ∨ s1.headD 0 = 43 then 1 else 0
  ⟨ws, neg, sg, (s1.drop sg).takeWhile isdigit⟩

/-- ISO C `strtoll(s, &endptr, 10)`, which `evutil_strtoll` forwards to:
skip white space, take an optional sign, then the longest run of decimal
digits. With no digit, no conversion is performed: the result is 0, `endptr`
is the start of the text and `errno` is left alone (ISO C 7.22.1.4; so does
glibc, while some C libraries set `EINVAL` there). A value outside `int64_t`
gives the nearest limit and `errno = ERANGE`. -/
def evutil_strtoll (s : Bytes) : StrtoResult :=
  let sc := scanNumber s
  if sc.ds.length = 0 then ⟨0, 0, 0⟩
  else
    let v : Int := if sc.neg then -(digitsValue sc.ds : Int) else (digitsValue sc.ds : Int)
    if v > INT64_MAX then ⟨INT64_MAX, sc.ws + sc.sg + sc.ds.length, ERANGE⟩
    else if v < INT64_MIN then ⟨INT64_MIN, sc.ws + sc.sg + sc.ds.length, ERANGE⟩
    else ⟨v, sc.ws + sc.sg + sc.ds.length, 0⟩

/-- ISO C `strtoul(s, &endptr, 10)` for a 64-bit `unsigned long`: as
`strtoll`, but the magnitude must fit `unsigned long` (else `ULONG_MAX` and
`errno = ERANGE`) and a minus sign negates in unsigned arithmetic. -/
def strtoul (s : Bytes) : StrtoResult :=
  let sc := scanNumber s
  if sc.ds.length = 0 then ⟨0, 0, 0⟩
  else
    let v := digitsValue sc.ds
    if v > ULONG_MAX then ⟨(ULONG_MAX : Nat), sc.ws + sc.sg + sc.ds.length, ERANGE⟩
    else if sc.neg then
      ⟨(((ULONG_MAX + 1 - v) % (ULONG_MAX + 1) : Nat) : Int), sc.ws + sc.sg + sc.ds.length, 0⟩
    else ⟨(v : Int), sc.ws + sc.sg + sc.ds.length, 0⟩

/-- Decimal digits of `n`, most significant first, as `printf` writes them
for `%zu` and for the magnitude of `%lld`; `fuel` bounds the digit count. -/
def decimalFuel : Nat → Nat → Bytes
  | 0, _ => []
  | fuel + 1, n => if n < 10 then [48 + n] else decimalFuel fuel (n / 10) ++ [48 + n % 10]

/-- Decimal text of a natural number (`printf("%zu")`). -/
def decimal (n : Nat) : Bytes := decimalFuel (n + 1) n

/-- Decimal text of a signed integer (`printf("%" PRId64)`). -/
def printInt (i : Int) : Bytes := if i < 0 then 45 :: decimal i.natAbs else decimal i.natAbs

/-! ## The primitive scanners -/

/-- Return value and out-parameters of `tr_bencParseInt`. -/
structure ParseIntResult where
  err : Nat
  setme_end : Option Nat
  setme_val : Int
  deriving DecidableEq, Repr

/-- Source: `tr_bencParseInt(vbuf, vbufend, setme_end, setme_val)`. `buf` is
the window `[vbuf, vbufend)`; `setme_end` and `setme_val` are the values of
the caller's variables before the call. -/
def tr_bencParseInt (buf : Bytes) (setme_end : Option Nat) (setme_val : Int) : ParseIntResult :=
  if buf.length = 0 then ⟨EILSEQ, setme_end, setme_val⟩
  else if buf.headD 0 ≠ 105 then ⟨EILSEQ, setme_end, setme_val⟩
  else
    let begin_ := buf.drop 1
    match memchr begin_ 101 (buf.length - 1) with
    | none => ⟨EILSEQ, setme_end, setme_val⟩
    | some e =>
      let r := evutil_strtoll begin_
      if r.errno ≠ 0 ∨ r.endptr ≠ e then ⟨EILSEQ, setme_end, setme_val⟩
      else if r.val ≠ 0 ∧ begin_.headD 0 = 48 then ⟨EILSEQ, setme_end, setme_val⟩
      else ⟨0, some (1 + e + 1), r.val⟩

/-- Return value and out-parameters of `tr_bencParseStr`. -/
structure ParseStrResult where
  err : Nat
  setme_end : Option Nat
  setme_str : Option Nat
  setme_strlen : Nat
  deriving DecidableEq, Repr

/-- Source: `tr_bencParseStr(vbuf, vbufend, setme_end, setme_str,
setme_strlen)`. The three out-parameters are written on every path, so the
values they held before the call (the last three arguments) are never
read. -/
def tr_bencParseStr (buf : Bytes) (_setme_end : Option Nat) (_setme_str : Option Nat)
    (_setme_strlen : Nat) : ParseStrResult :=
  if 0 < buf.length ∧ isdigit (buf.headD 0) = true then
    match memchr buf 58 buf.length with
    | some e =>
      let r := strtoul buf
      if r.errno = 0 ∧ r.endptr = e ∧ r.val ≤ (MAX_BENC_STR_LENGTH : Int) then
        let len := r.val.toNat
        let strbegin := e + 1
        let strend := strbegin + len
        if strbegin ≤ strend ∧ strend ≤ buf.length then
          ⟨0, some (e + 1 + len), some (e + 1), len⟩
        else ⟨EILSEQ, none, none, 0⟩
      else ⟨EILSEQ, none, none, 0⟩
    | none => ⟨EILSEQ, none, none, 0⟩
  else ⟨EILSEQ, none, none, 0⟩

/-- The bytes a `std::string_view{ str, str_len }` built from the string
scanner's out-parameters designates inside the window. -/
def stringView (buf : Bytes) (str : Option Nat) (str_len : Nat) : Bytes :=
  (buf.drop (str.getD 0)).take str_len

/-! ## The variant tree -/

/-- Modelled from the spec: a quark is the id the process-wide interner (absent
from the sources at hand) gives a byte sequence; equal sequences get equal ids
and lookup returns the original bytes, so a key is identified with its bytes. -/
abbrev Key := Bytes

/-- Modelled from the spec: `tr_quark_new(sv)` interns the byte view. -/
def tr_quark_new (sv : Bytes) : Key := sv

/-- The tagged value `tr_variant` (declared in `variant.h`): the kinds of
section 3 of the specification. `unset` is type 0; a real carries the bit
pattern of its `double`; a string carries its bytes whatever its storage
mode; a dict keeps its entries in storage order. -/
inductive Variant where
  | unset
  | int (i : Int)
  | bool (b : Bool)
  | real (d : Nat)
  | str (s : Bytes)
  | list (l : List Variant)
  | dict (l : List (Key × Variant))
  deriving Repr

/-- Source use: `tr_variantIsList(v)`. -/
def tr_variantIsList : Variant → Bool
  | .list _ => true
  | _ => false

/-- Source use: `tr_variantIsDict(v)`. -/
def tr_variantIsDict : Variant → Bool
  | .dict _ => true
  | _ => false

/-- Source use: `v->type == 0`. -/
def Variant.isUnset : Variant → Bool
  | .unset => true
  | _ => false

/-- Modelled from the spec: `tr_variantListAdd(list)` appends a slot to the
list ("append returns a pointer to the new slot, which the caller
initializes"); `child` is the value the caller initializes the slot with. -/
def tr_variantListAdd (list : Variant) (child : Variant) : Variant :=
  match list with
  | .list l => .list (l ++ [child])
  | v => v

/-- Modelled from the spec: `tr_variantDictAdd(dict, key)` appends an entry
under `key` to the storage of the dict, whether or not the key is already
there; `child` is the value the caller initializes the entry with. -/
def tr_variantDictAdd (dict : Variant) (key : Key) (child : Variant) : Variant :=
  match dict with
  | .dict l => .dict (l ++ [(key, child)])
  | v => v

/-! ## The tree parser

`tr_variantParseBenc` keeps a stack of pointers to the containers that are
still open. Each such pointer designates the last child of the container
below it on the stack (or `top` itself for the bottom entry), and a container
only receives children while it is the back of the stack. The embedding
therefore keeps, for every open container, the node as built so far together
with the place it occupies in its parent, and writes the node into that place
when the container is popped. -/

/-- The place `get_node` hands out: `top`, a new slot appended to the list at
the back of the stack, or a new entry under `key` appended to the dict at the
back of the stack. -/
inductive Slot where
  | top
  | listChild
  | dictChild (key : Key)
  deriving DecidableEq, Repr

/-- An entry of the stack of open containers. -/
structure Frame where
  node : Variant
  slot : Slot
  deriving Repr

/-- The local variables of `tr_variantParseBenc` and `*top`. `buf` is the
cursor as an offset from `buf_in`; the head of `stack` is the back of the
deque. -/
structure ParseState where
  buf : Nat
  stack : List Frame
  key : Option Key
  top : Variant
  err : Nat
  deriving Repr

/-- Source: `get_node(stack, dict_key, top, err)`. Returns the node (`none` is
`nullptr`) with the new values of `dict_key` and `*err`. -/
def get_node (stack : List Frame) (dict_key : Option Key) (err : Nat) :
    Option Slot × Option Key × Nat :=
  match stack with
  | [] => (some Slot.top, dict_key, err)
  | parent :: _ =>
    if tr_variantIsList parent.node then (some Slot.listChild, dict_key, err)
    else
      match dict_key with
      | some k =>
        if tr_variantIsDict parent.node then (some (Slot.dictChild k), none, err)
        else (none, dict_key, EILSEQ)
      | none => (none, dict_key, EILSEQ)

/-- Writing the value `v` into the place `slot` of the tree under
construction: `tr_variantInitInt(v, val)` and `tr_variantInitStr(v, sv)` on
the node `get_node` returned. -/
def initNode (st : ParseState) (slot : Slot) (v : Variant) : ParseState :=
  match slot with
  | .top => { st with top := v }
  | .listChild =>
    match st.stack with
    | [] => st
    | p :: rest => { st with stack := { p with node := tr_variantListAdd p.node v } :: rest }
  | .dictChild k =>
    match st.stack with
    | [] => st
    | p :: rest => { st with stack := { p with node := tr_variantDictAdd p.node k v } :: rest }

/-- Source pattern `v = get_node(...); if (v != nullptr) { tr_variantInitX(v,
...); }` for a scalar `x`. -/
def placeScalar (st : ParseState) (x : Variant) : ParseState :=
  match get_node st.stack st.key st.err with
  | (some slot, key, err) => initNode { st with key := key, err := err } slot x
  | (none, key, err) => { st with key := key, err := err }

/-- Source pattern `v = get_node(...); if (v != nullptr) { tr_variantInitList(v,
0); stack.push_back(v); }` (likewise for a dict): `empty` is the freshly
initialized container. When the node is `top`, `*top` becomes the container
at once. -/
def openContainer (st : ParseState) (empty : Variant) : ParseState :=
  match get_node st.stack st.key st.err with
  | (some slot, key, err) =>
    let st1 : ParseState := { st with key := key, err := err }
    let st2 : ParseState := match slot with
      | .top => { st1 with top := empty }
      | _ => st1
    { st2 with stack := { node := empty, slot := slot } :: st2.stack }
  | (none, key, err) => { st with key := key, err := err }

/-- Source: `stack.pop_back()`. The closed container, complete now, is
written into the place it was opened at. -/
def pop_back (st : ParseState) : ParseState :=
  match st.stack with
  | [] => st
  | f :: rest => initNode { st with stack := rest } f.slot f.node

/-- Source use: `tr_variantIsDict(stack.back())`, evaluated only on a stack
that is not empty. -/
def backIsDict : List Frame → Bool
  | [] => false
  | back :: _ => tr_variantIsDict back.node

/-- The `if` / `else if` chain on `*buf` in the body of the loop of
`tr_variantParseBenc` (source lines 194 to 278) followed by the closing
`if (std::empty(stack)) break;`, on the window `[buf, bufend)`: the new state,
and whether the loop was left by `break`. -/
def dispatch (window : Bytes) (st : ParseState) : ParseState × Bool :=
  let c := window.headD 0
  if c = 105 then
    let r := tr_bencParseInt window none 0
    if r.err ≠ 0 then ({ st with err := r.err }, true)
    else
      let st1 := placeScalar { st with buf := st.buf + r.setme_end.getD 0 } (.int r.setme_val)
      (st1, st1.stack.isEmpty)
  else if c = 108 then
    let st1 := openContainer { st with buf := st.buf + 1 } (.list [])
    (st1, st1.stack.isEmpty)
  else if c = 100 then
    let st1 := openContainer { st with buf := st.buf + 1 } (.dict [])
    (st1, st1.stack.isEmpty)
  else if c = 101 then
    let st1 : ParseState := { st with buf := st.buf + 1 }
    if st1.stack.isEmpty ∨ st1.key.isSome then ({ st1 with err := EILSEQ }, true)
    else
      let st2 := pop_back st1
      (st2, st2.stack.isEmpty)
  else if isdigit c then
    let r := tr_bencParseStr window none none 0
    if r.err ≠ 0 then ({ st with err := r.err }, true)
    else
      let st1 : ParseState := { st with buf := st.buf + r.setme_end.getD 0 }
      let sv := stringView window r.setme_str r.setme_strlen
      let st2 : ParseState :=
        if st1.key.isNone && !st1.stack.isEmpty && backIsDict st1.stack then
          { st1 with key := some (tr_quark_new sv) }
        else placeScalar st1 (.str sv)
      (st2, st2.stack.isEmpty)
  else
    let st1 : ParseState := { st with buf := st.buf + 1 }
    (st1, st1.stack.isEmpty)

/-- One pass through the body of the `while (buf != bufend)` loop of
`tr_variantParseBenc`: the `buf > bufend` test, the `err != 0` test, then the
chain on `*buf`. -/
def loopBody (input : Bytes) (st0 : ParseState) : ParseState × Bool :=
  let st : ParseState := if st0.buf > input.length then { st0 with err := EILSEQ } else st0
  if st.err ≠ 0 then (st, true)
  else dispatch (input.drop st.buf) st

/-- The `while (buf != bufend)` loop, run for at most `fuel` passes; `none`
when the passes run out before the loop is left. -/
def parseLoop (input : Bytes) : Nat → ParseState → Option ParseState
  | 0, _ => none
  | fuel + 1, st =>
    if st.buf = input.length then some st
    else
      match loopBody input st with
      | (st1, true) => some st1
      | (st1, false) => parseLoop input fuel st1

/-- The state on entry to the loop: `err = 0`, the cursor at `buf_in`, an
empty stack, no pending key, and `*top` unset by `tr_variantInit(top, 0)`. -/
def initState : ParseState := { buf := 0, stack := [], key := none, top := .unset, err := 0 }

/-- Return value, `*top` and the caller's end pointer after
`tr_variantParseBenc`. -/
structure ParseBencResult where
  err : Nat
  top : Variant
  setme_end : Option Nat
  deriving Repr

/-- Source: `tr_variantParseBenc(buf_in, bufend_in, top, setme_end)` called
with non-null `buf_in`, `bufend_in`, `top` and `setme_end`. `input` is the
window, `setme_end` the value of the caller's end pointer before the call
(the end position is an offset from `buf_in`). Every pass of the loop moves
the cursor forward, so `input.length + 1` passes are allowed; `none` would
mean they did not suffice. On failure the tree is freed and `*top` is
unset. -/
def tr_variantParseBenc (input : Bytes) (setme_end : Option Nat) : Option ParseBencResult :=
  match parseLoop input (input.length + 1) initState with
  | none => none
  | some st =>
    let err := if st.err = 0 ∧ (st.top.isUnset ∨ ¬ st.stack.isEmpty) then EILSEQ else st.err
    if err = 0 then some ⟨0, st.top, some st.buf⟩
    else some ⟨err, .unset, setme_end⟩

/-! ## The serializer -/

/-- Source: `saveIntFunc`, `evbuffer_add_printf(evbuf, "i%" PRId64 "e",
val->val.i)`; the result is what is appended to the buffer. -/
def saveIntFunc (i : Int) : Bytes := [105] ++ printInt i ++ [101]

/-- Source: `saveBoolFunc`: `"i1e"` or `"i0e"`. -/
def saveBoolFunc (b : Bool) : Bytes := if b then [105, 49, 101] else [105, 48, 101]

/-- Source: `saveRealFunc`: the text `tr_snprintf(buf, sizeof(buf), "%f",
val->val.d)` produces, preceded by its length and a colon. The formatting of
a `double` is taken as the parameter `fmtReal`. -/
def saveRealFunc (fmtReal : Nat → Bytes) (d : Nat) : Bytes :=
  decimal (fmtReal d).length ++ [58] ++ fmtReal d

/-- Source: `saveStringFunc`: `"%zu:"` with the size of the view, then its
bytes. -/
def saveStringFunc (sv : Bytes) : Bytes := decimal sv.length ++ [58] ++ sv

/-- Source: `saveDictBeginFunc`. -/
def saveDictBeginFunc : Bytes := [100]

/-- Source: `saveListBeginFunc`. -/
def saveListBeginFunc : Bytes := [108]

/-- Source: `saveContainerEndFunc`. -/
def saveContainerEndFunc : Bytes := [101]

/-- Modelled from the spec: byte-lexicographic comparison of two keys ("ascending
by the key's interned byte sequence under byte-lexicographic comparison"):
`true` when `a` sorts strictly before `b`. -/
def keyLt : Bytes → Bytes → Bool
  | [], [] => false
  | [], _ :: _ => true
  | _ :: _, [] => false
  | a :: as, b :: bs => if a < b then true else if b < a then false else keyLt as bs

/-- Modelled from the spec: one insertion of the ordering of dict children by
key: `e` goes in front of the first entry whose key does not sort before its
own. -/
def insertByKey {α : Type} (e : Key × α) : List (Key × α) → List (Key × α)
  | [] => [e]
  | x :: xs => if keyLt x.1 e.1 then x :: insertByKey e xs else e :: x :: xs

/-- Modelled from the spec: the walker's ordering of the children of a dict,
ascending by key. Entries with equal keys keep their storage order here; the
specification leaves their order open (see `AscendingByKey` below). -/
def sortByKey {α : Type} (l : List (Key × α)) : List (Key × α) :=
  l.foldr insertByKey []

/-- What the walker emits for dict children already put in order: for each
the key through the string callback, then what the child emitted. -/
def emitEntries : List (Key × Bytes) → Bytes
  | [] => []
  | (k, b) :: rest => saveStringFunc k ++ b ++ emitEntries rest

mutual
/-- Modelled from the spec: `tr_variantWalk(top, &walk_funcs, buf, true)` of
`variant.cc` (absent from the sources at hand) with the callbacks of
`walk_funcs`: a depth-first traversal that calls the callback of each node's
kind, emits list children in storage order and dict children in ascending
key order, and closes each container with the container-end callback. An
unset node is not serializable and emits nothing. -/
def tr_variantWalk (fmtReal : Nat → Bytes) : Variant → Bytes
  | .unset => []
  | .int i => saveIntFunc i
  | .bool b => saveBoolFunc b
  | .real d => saveRealFunc fmtReal d
  | .str s => saveStringFunc s
  | .list l => saveListBeginFunc ++ walkList fmtReal l ++ saveContainerEndFunc
  | .dict l =>
    saveDictBeginFunc ++ emitEntries (sortByKey (walkDict fmtReal l)) ++ saveContainerEndFunc
/-- What the walker emits for the children of a list, in storage order. -/
def walkList (fmtReal : Nat → Bytes) : List Variant → Bytes
  | [] => []
  | v :: vs => tr_variantWalk fmtReal v ++ walkList fmtReal vs
/-- What the walker emits for each child of a dict, paired with its key, in
storage order. -/
def walkDict (fmtReal : Nat → Bytes) : List (Key × Variant) → List (Key × Bytes)
  | [] => []
  | (k, v) :: rest => (k, tr_variantWalk fmtReal v) :: walkDict fmtReal rest
end

/-- Source: `tr_variantToBufBenc(top, buf)`: the bytes appended to `buf`. -/
def tr_variantToBufBenc (fmtReal : Nat → Bytes) (top : Variant) : Bytes :=
  tr_variantWalk fmtReal top

/-! ## The bencode grammar, stated on trees

The wire format of sections 4.3, 4.6 and 6 of the specification: a value is
an integer `i` decimal `e`, a byte string length `:` bytes, a list `l` values
`e`, or a dict `d` (key string, value)* `e`. -/

mutual
/-- Plain encoding of a tree in storage order, following the grammar of the
specification; only integers, strings, lists and dicts have one. -/
def bencode : Variant → Bytes
  | .int i => [105] ++ printInt i ++ [101]
  | .str s => decimal s.length ++ [58] ++ s
  | .list l => [108] ++ bencodeList l ++ [101]
  | .dict l => [100] ++ bencodeDict l ++ [101]
  | _ => []
/-- Plain encoding of the elements of a list, one after the other. -/
def bencodeList : List Variant → Bytes
  | [] => []
  | v :: vs => bencode v ++ bencodeList vs
/-- Plain encoding of the entries of a dict: each key as a string, followed
by its value. -/
def bencodeDict : List (Key × Variant) → Bytes
  | [] => []
  | (k, v) :: rest => (decimal k.length ++ [58] ++ k) ++ bencode v ++ bencodeDict rest
end

mutual
/-- The predicate `p` holds at every node of the tree. -/
def Variant.allNodes (p : Variant → Bool) : Variant → Bool
  | .list l => p (.list l) && allNodesList p l
  | .dict l => p (.dict l) && allNodesDict p l
  | v => p v
/-- The predicate holds at every node of every element. -/
def allNodesList (p : Variant → Bool) : List Variant → Bool
  | [] => true
  | v :: vs => Variant.allNodes p v && allNodesList p vs
/-- The predicate holds at every node of every value. -/
def allNodesDict (p : Variant → Bool) : List (Key × Variant) → Bool
  | [] => true
  | (_, v) :: rest => Variant.allNodes p v && allNodesDict p rest
end

/-- A node of the bencode grammar: an integer, a string within the length
limit, a list, or a dict whose keys are within the length limit. -/
def bencNode : Variant → Bool
  | .int _ => true
  | .str s => decide (s.length ≤ MAX_BENC_STR_LENGTH)
  | .list _ => true
  | .dict l => l.all (fun kv => decide (kv.1.length ≤ MAX_BENC_STR_LENGTH))
  | _ => false

/-- An integer node holds a value of the signed 64-bit range. -/
def int64Node : Variant → Bool
  | .int i => decide (INT64_MIN ≤ i ∧ i ≤ INT64_MAX)
  | _ => true

/-- The keys of a list of entries are strictly ascending in byte order. -/
def keysAscending {α : Type} : List (Key × α) → Bool
  | [] => true
  | [_] => true
  | a :: b :: rest => keyLt a.1 b.1 && keysAscending (b :: rest)

/-- A dict node stores its keys in strictly ascending byte order. -/
def sortedNode : Variant → Bool
  | .dict l => keysAscending l
  | _ => true

/-- The tree is built only from integers, strings within the length limit,
lists and dicts. -/
def Variant.isBenc (t : Variant) : Bool := t.allNodes bencNode

/-- Every integer of the tree is in the signed 64-bit range. -/
def Variant.intsFit (t : Variant) : Bool := t.allNodes int64Node

/-- Every dict of the tree has strictly ascending keys. -/
def Variant.keysSorted (t : Variant) : Bool := t.allNodes sortedNode

/-- Canonical bencode: `x` is the plain encoding of exactly one value, with
integers of any size written without redundant leading zeros or negative
zero (as `printInt` writes them), every string and key within the length
limit and preceded by its length in decimal without leading zeros, dict keys
in strictly ascending byte order, and nothing after the value. -/
def CanonicalBencode (x : Bytes) : Prop :=
  ∃ t : Variant, t.isBenc = true ∧ t.keysSorted = true ∧ x = bencode t

/-- Canonical bencode whose integers all fit the signed 64-bit range. -/
def CanonicalBencode64 (x : Bytes) : Prop :=
  ∃ t : Variant, t.isBenc = true ∧ t.keysSorted = true ∧ t.intsFit = true ∧ x = bencode t

/-- What `tr_bencParseInt` makes of the bytes `a` between the `i` and the
first `e`: the value, or `none` when it answers `EILSEQ`. -/
def intBody (a : Bytes) : Option Int :=
  let r := evutil_strtoll a
  if r.errno ≠ 0 ∨ r.endptr ≠ a.length then none
  else if r.val ≠ 0 ∧ a.headD 0 = 48 then none
  else some r.val

/-- The loop, started in `st`, gets to the head of the loop in `st2` after a
number of passes, none of which leaves the loop. -/
def Advance (x : Bytes) (st st2 : ParseState) : Prop :=
  ∃ n, ∀ fuel, parseLoop x (n + fuel) st = parseLoop x fuel st2

/-- The parser is inside a container and can take a value: no error so far,
and the innermost open container is a list with no key pending, or a dict
with a key pending. -/
def Ready (st : ParseState) : Prop :=
  st.err = 0 ∧ ∃ f fs, st.stack = f :: fs ∧
    ((∃ l, f.node = .list l ∧ st.key = none) ∨ (∃ l k, f.node = .dict l ∧ st.key = some k))

/-- The elements `l`, encoded one after the other at the cursor inside an
open list, are appended to that list by passes that do not leave the loop. -/
def ListAdv (x : Bytes) (l : List Variant) : Prop :=
  ∀ (st : ParseState) (l0 : List Variant) (sl : Slot) (fs : List Frame) (rest : Bytes),
    st.err = 0 → st.stack = ⟨.list l0, sl⟩ :: fs → st.key = none →
    x.drop st.buf = bencodeList l ++ rest →
    Advance x st
      { st with buf := st.buf + (bencodeList l).length, stack := ⟨.list (l0 ++ l), sl⟩ :: fs }

/-- The entries `l`, encoded one after the other at the cursor inside an
open dict with no key pending, are appended to that dict by passes that do
not leave the loop. -/
def DictAdv (x : Bytes) (l : List (Key × Variant)) : Prop :=
  ∀ (st : ParseState) (l0 : List (Key × Variant)) (sl : Slot) (fs : List Frame) (rest : Bytes),
    st.err = 0 → st.stack = ⟨.dict l0, sl⟩ :: fs → st.key = none →
    x.drop st.buf = bencodeDict l ++ rest →
    Advance x st
      { st with buf := st.buf + (bencodeDict l).length, stack := ⟨.dict (l0 ++ l), sl⟩ :: fs }

/-- The value `u`, encoded at the cursor inside a container that can take
a value, is placed by passes that do not leave the loop. -/
def ValueAdv (x : Bytes) (u : Variant) : Prop :=
  ∀ (st : ParseState) (rest : Bytes), Ready st → x.drop st.buf = bencode u ++ rest →
    Advance x st (placeScalar { st with buf := st.buf + (bencode u).length } u)

mutual
/-- The tree with the entries of every dict put in the order the walker
emits them: ascending by key, equal keys in storage order. -/
def canon : Variant → Variant
  | .list l => .list (canonList l)
  | .dict l => .dict (sortByKey (canonDict l))
  | v => v
/-- Every element of a list put in emission order. -/
def canonList : List Variant → List Variant
  | [] => []
  | v :: vs => canon v :: canonList vs
/-- Every value of a list of entries put in emission order. -/
def canonDict : List (Key × Variant) → List (Key × Variant)
  | [] => []
  | (k, v) :: rest => (k, canon v) :: canonDict rest
end

/-- A tree of the grammar whose integers fit 64 bits. -/
def Good (v : Variant) : Prop := v.allNodes bencNode = true ∧ v.allNodes int64Node = true

/-- What holds of the state of the parser at every point: every open
container and, once set, the top are trees of the grammar with 64-bit
integers, and the pending key and the keys open containers sit under are
within the length limit. -/
def Inv (st : ParseState) : Prop :=
  (∀ f ∈ st.stack, Good f.node ∧ ∀ k, f.slot = Slot.dictChild k → k.length ≤ MAX_BENC_STR_LENGTH) ∧
  (st.top.isUnset = true ∨ Good st.top) ∧
  (∀ k, st.key = some k → k.length ≤ MAX_BENC_STR_LENGTH)

/-- The kinds the parser builds: an integer, a string, a list or a dict. -/
def parsedKind : Variant → Bool
  | .int _ => true
  | .str _ => true
  | .list _ => true
  | .dict _ => true
  | _ => false

/-- The tree of `n + 1` lists nested in one another, the innermost empty. -/
def nestedLists : Nat → Variant
  | 0 => .list []
  | n + 1 => .list [nestedLists n]

/-- The state at the head of the `while (buf != bufend)` loop of
`tr_variantParseBenc` after `n` passes from `st`, none of which leaves the
loop; `none` when the loop is left before. -/
def loopHead (input : Bytes) : Nat → ParseState → Option ParseState
  | 0, st => some st
  | n + 1, st =>
    if st.buf = input.length then none
    else
      match loopBody input st with
      | (st1, false) => loopHead input n st1
      | (_, true) => none

/-! ## Typed lookups and merge

The functions of this section live in `variant.cc`, which is not among the
sources at hand; they are modelled from sections 3, 4.7 and 4.8 of the
specification and from the calls and expectations of `variant-test.cc`. -/

/-- Modelled from the spec: lookup of a key among the entries of a dict,
"lookup returns the first match in storage order". -/
def dictFind : List (Key × Variant) → Key → Option Variant
  | [], _ => none
  | (k, v) :: rest, key => if k = key then some v else dictFind rest key

/-- Modelled from the spec: `tr_variantDictFind(dict, key)` of `variant.cc`:
the child under `key`, first match in storage order; `none` (a null pointer)
when the key is not present or the node is not a dict. -/
def tr_variantDictFind (dict : Variant) (key : Key) : Option Variant :=
  match dict with
  | .dict l => dictFind l key
  | _ => none

/-- Modelled from the spec: `tr_variantGetInt(v, setme)` of `variant.cc`,
section 4.7: "returning success-with-value or a type-mismatch failure"; an
int reads as itself, "bool reads as int 0/1", "real → int is not allowed",
"string → numeric: not performed"; a miss leaves the out-parameter
untouched. The result is the return value and the new `*setme`. -/
def tr_variantGetInt (v : Variant) (setme : Int) : Bool × Int :=
  match v with
  | .int i => (true, i)
  | .bool b => (true, if b then 1 else 0)
  | _ => (false, setme)

/-- Modelled from the spec: `tr_variantGetBool(v, setme)` of `variant.cc`,
section 4.7: a bool reads as itself; "the literal strings `"true"` and
`"false"` decode to true/false respectively; any other string fails"; for an
int the section has "int `0` reads as bool false, any non-zero as true"
under the heading of value-preserving coercions, while the test
`dictFindType` of `variant-test.cc` expects the lookup of the int 1234 as a
bool to fail and `boolAndIntRecast` expects the int 1 to read as true. The
tests being the code at hand, an int reads as a bool when it is one of the
two values a bool reads as, 0 and 1. A miss leaves the out-parameter
untouched. -/
def tr_variantGetBool (v : Variant) (setme : Bool) : Bool × Bool :=
  match v with
  | .bool b => (true, b)
  | .int i => if i = 0 then (true, false) else if i = 1 then (true, true) else (false, setme)
  | .str s =>
    if s = bytes "true" then (true, true)
    else if s = bytes "false" then (true, false)
    else (false, setme)
  | _ => (false, setme)

/-- Modelled from the spec: `tr_variantDictFindInt(dict, key, setme)` of
`variant.cc`: `find_int(key)`, the typed read of the child under `key`;
"accessor misses leave out-parameters untouched". -/
def tr_variantDictFindInt (dict : Variant) (key : Key) (setme : Int) : Bool × Int :=
  match tr_variantDictFind dict key with
  | some v => tr_variantGetInt v setme
  | none => (false, setme)

/-- Modelled from the spec: `tr_variantDictFindBool(dict, key, setme)` of
`variant.cc`: `find_bool(key)`. -/
def tr_variantDictFindBool (dict : Variant) (key : Key) (setme : Bool) : Bool × Bool :=
  match tr_variantDictFind dict key with
  | some v => tr_variantGetBool v setme
  | none => (false, setme)

/-- Modelled from the spec: the entries of a dict with the slot of the first
entry under `key` overwritten with `v` ("the destination slot is freed and
replaced"); nothing changes when the key is not present. -/
def dictReplace : List (Key × Variant) → Key → Variant → List (Key × Variant)
  | [], _, _ => []
  | (k, old) :: rest, key, v =>
    if k = key then (k, v) :: rest else (k, old) :: dictReplace rest key v

mutual
/-- Modelled from the spec: what section 4.8 leaves in a slot of dest that
holds `d` when the value `s` of src goes over it: "Dict over dict:
recursively merge (preserving keys in dest not present in src)"; in every
other case the slot is "freed and replaced" by a deep copy of `s` ("List
over list: dest's list is replaced entirely"). -/
def mergeOver : Variant → Variant → Variant
  | .dict sl, .dict dl => .dict (mergeEntries sl dl)
  | s, _ => s
/-- Modelled from the spec: the entries of dest after the merge of the
entries `sl` of src into the entries `dl`: "for each `(key, value)` in src
(in src's storage order), overwrite `dest[key]` with a deep copy of
`value`"; a key dest does not hold yet is appended to its storage. -/
def mergeEntries : List (Key × Variant) → List (Key × Variant) → List (Key × Variant)
  | [], dl => dl
  | (k, v) :: rest, dl =>
    mergeEntries rest
      (match dictFind dl k with
       | some d => dictReplace dl k (mergeOver v d)
       | none => dl ++ [(k, v)])
end

/-- Modelled from the spec: `tr_variantMergeDicts(dest, src)` of
`variant.cc`, the `merge(dest, src)` of section 4.8; "if `src` or `dest` is
not a dict at the top level, the operation is a no-op". The result is the
new value of `*dest`. -/
def tr_variantMergeDicts (dest src : Variant) : Variant :=
  match dest, src with
  | .dict dl, .dict sl => .dict (mergeEntries sl dl)
  | d, _ => d

/-- Source: the dicts `dest` and `src` built in `TEST_F(VariantTest, merge)`
of `variant-test.cc` with `tr_variantDictAddInt` and `tr_variantDictAddStr`
(scenario 6 of the specification). -/
def mergeTestDest : Variant :=
  [(bytes "i1", Variant.int 1), (bytes "i2", .int 2), (bytes "i4", .int (-35)),
   (bytes "s5", .str (bytes "abc")), (bytes "s6", .str (bytes "def")),
   (bytes "s7", .str (bytes "127.0.0.1"))].foldl
    (fun d e => tr_variantDictAdd d (tr_quark_new e.1) e.2) (.dict [])

/-- Source: the dict `src` of the same test. -/
def mergeTestSrc : Variant :=
  [(bytes "i1", Variant.int 1), (bytes "i2", .int 4), (bytes "i3", .int 3),
   (bytes "s5", .str (bytes "abc")), (bytes "s6", .str (bytes "xyz")),
   (bytes "s8", .str (bytes "ghi"))].foldl
    (fun d e => tr_variantDictAdd d (tr_quark_new e.1) e.2) (.dict [])

/-- Source: the dict `top` built in `TEST_F(VariantTest, boolAndIntRecast)`:
`key1` and `key2` hold the bool false, `key3` and `key4` the int 1. -/
def boolAndIntRecastTop : Variant :=
  [(bytes "key1", Variant.bool false), (bytes "key2", .bool false), (bytes "key3", .int 1),
   (bytes "key4", .int 1)].foldl
    (fun d e => tr_variantDictAdd d (tr_quark_new e.1) e.2) (.dict [])

/-- Source: the dict `top` built in `TEST_F(VariantTest, dictFindType)`: a
bool (true), the int 1234, the real 0.3 (its bit pattern) and a string. -/
def dictFindTypeTop : Variant :=
  [(bytes "this-is-a-bool", Variant.bool true), (bytes "this-is-an-int", .int 1234),
   (bytes "this-is-a-real", .real 4599075939470750515),
   (bytes "this-is-a-string", .str (bytes "this-is-a-string"))].foldl
    (fun d e => tr_variantDictAdd d (tr_quark_new e.1) e.2) (.dict [])

/-! ## The walker with the order of dict children left open

Sections 3 and 4.5 of the specification say of the order in which a dict's
children are emitted only that it is ascending by key. The definitions of
this section take that order as a parameter, to state what holds of the
serializer whatever it does with entries under equal keys. -/

/-- Modelled from the spec: an ordering of dict children that the words of
the specification admit: it emits the entries it is given, "in ascending
lexicographic order by the key's interned byte sequence"; the order of
entries under equal keys is left open. -/
def AscendingByKey (order : List (Key × Bytes) → List (Key × Bytes)) : Prop :=
  ∀ l, (order l).Perm l ∧ (order l).Pairwise (fun x y => keyLt y.1 x.1 = false)

mutual
/-- Modelled from the spec: `tr_variantWalk(top, &walk_funcs, buf, true)` of
`variant.cc` (absent from the sources at hand) as `tr_variantWalk` above,
with the ordering of the children of a dict given by `order`. -/
def tr_variantWalkBy (order : List (Key × Bytes) → List (Key × Bytes)) (fmtReal : Nat → Bytes) :
    Variant → Bytes
  | .unset => []
  | .int i => saveIntFunc i
  | .bool b => saveBoolFunc b
  | .real d => saveRealFunc fmtReal d
  | .str s => saveStringFunc s
  | .list l => saveListBeginFunc ++ walkListBy order fmtReal l ++ saveContainerEndFunc
  | .dict l =>
    saveDictBeginFunc ++ emitEntries (order (walkDictBy order fmtReal l)) ++ saveContainerEndFunc
/-- What that walker emits for the children of a list, in storage order. -/
def walkListBy (order : List (Key × Bytes) → List (Key × Bytes)) (fmtReal : Nat → Bytes) :
    List Variant → Bytes
  | [] => []
  | v :: vs => tr_variantWalkBy order fmtReal v ++ walkListBy order fmtReal vs
/-- What that walker emits for each child of a dict, paired with its key, in
storage order. -/
def walkDictBy (order : List (Key × Bytes) → List (Key × Bytes)) (fmtReal : Nat → Bytes) :
    List (Key × Variant) → List (Key × Bytes)
  | [] => []
  | (k, v) :: rest => (k, tr_variantWalkBy order fmtReal v) :: walkDictBy order fmtReal rest
end

/-- A dict node holds no key twice. -/
def distinctKeysNode : Variant → Bool
  | .dict l => decide (l.map Prod.fst).Nodup
  | _ => true

theorem isdigit_iff (c : Nat) : isdigit c = true ↔ 48 ≤ c ∧ c ≤ 57 := by
  simp [isdigit]

theorem isspace_iff (c : Nat) : isspace c = true ↔ c = 32 ∨ (9 ≤ c ∧ c ≤ 13) := by
  simp [isspace]

theorem digitsValue_nil : digitsValue [] = 0 := rfl

theorem digitsValue_snoc (a : Bytes) (d : Nat) :
    digitsValue (a ++ [d]) = digitsValue a * 10 + (d - 48) := by
  simp [digitsValue, List.foldl_append]

theorem takeWhile_append_stop (p : Nat → Bool) (a : Bytes) (x : Nat) (r : Bytes)
    (ha : ∀ b ∈ a, p b = true) (hx : p x = false) :
    (a ++ x :: r).takeWhile p = a := by
  induction a with
  | nil => simp [List.takeWhile, hx]
  | cons b bs ih =>
    have hb : p b = true := ha b (List.mem_cons_self _ _)
    have hbs : ∀ c ∈ bs, p c = true := fun c hc => ha c (List.mem_cons_of_mem _ hc)
    simp [List.takeWhile, hb, ih hbs]

theorem takeWhile_all (p : Nat → Bool) (a : Bytes) (ha : ∀ b ∈ a, p b = true) :
    a.takeWhile p = a := by
  induction a with
  | nil => rfl
  | cons b bs ih =>
    have hb : p b = true := ha b (List.mem_cons_self _ _)
    have hbs : ∀ c ∈ bs, p c = true := fun c hc => ha c (List.mem_cons_of_mem _ hc)
    simp [List.takeWhile, hb, ih hbs]

/-- A byte that stops the scan of `p` hides everything behind it. -/
theorem takeWhile_append_cut (p : Nat → Bool) (a : Bytes) (x : Nat) (r : Bytes)
    (hx : p x = false) : (a ++ x :: r).takeWhile p = a.takeWhile p := by
  induction a with
  | nil => simp [List.takeWhile, hx]
  | cons b bs ih =>
    cases hb : p b <;> simp [List.takeWhile, hb, ih]

theorem length_takeWhile_le (p : Nat → Bool) (a : Bytes) : (a.takeWhile p).length ≤ a.length := by
  induction a with
  | nil => simp
  | cons b bs ih =>
    cases hb : p b <;> simp [List.takeWhile, hb]
    omega

/-! ### `memchr` -/

theorem memchr_append (a : Bytes) (c : Nat) (r : Bytes) (n : Nat)
    (ha : ∀ b ∈ a, b ≠ c) (hn : a.length < n) :
    memchr (a ++ c :: r) c n = some a.length := by
  induction a generalizing n with
  | nil =>
    cases n with
    | zero => simp at hn
    | succ m => simp [memchr]
  | cons b bs ih =>
    cases n with
    | zero => simp at hn
    | succ m =>
      have hb : b ≠ c := ha b (List.mem_cons_self _ _)
      have hbs : ∀ x ∈ bs, x ≠ c := fun x hx => ha x (List.mem_cons_of_mem _ hx)
      have hm : bs.length < m := by simpa using hn
      simp [memchr, hb, ih m hbs hm]

theorem memchr_some (s : Bytes) (c n e : Nat) (h : memchr s c n = some e) :
    ∃ a r, s = a ++ c :: r ∧ a.length = e ∧ (∀ b ∈ a, b ≠ c) ∧ e < n := by
  induction s generalizing n e with
  | nil => cases n <;> simp [memchr] at h
  | cons b bs ih =>
    cases n with
    | zero => simp [memchr] at h
    | succ m =>
      by_cases hb : b = c
      · simp [memchr, hb] at h
        refine ⟨[], bs, by simp [hb], by simp [h], by simp, by omega⟩
      · simp only [memchr, hb, if_false, Option.map_eq_some'] at h
        obtain ⟨e1, he1, rfl⟩ := h
        obtain ⟨a, r, hs, hl, hne, hlt⟩ := ih m e1 he1
        refine ⟨b :: a, r, by simp [hs], by simp [hl], ?_, by omega⟩
        intro x hx
        rcases List.mem_cons.mp hx with rfl | hx
        · exact hb
        · exact hne x hx

theorem memchr_none (s : Bytes) (c n : Nat) (h : memchr s c n = none) :
    ∀ b ∈ s.take n, b ≠ c := by
  induction s generalizing n with
  | nil => simp
  | cons b bs ih =>
    cases n with
    | zero => simp
    | succ m =>
      by_cases hb : b = c
      · simp [memchr, hb] at h
      · simp only [memchr, hb, if_false, Option.map_eq_none'] at h
        intro x hx
        simp only [List.take_succ_cons, List.mem_cons] at hx
        rcases hx with rfl | hx
        · exact hb
        · exact ih m h x hx

/-! ### The subject sequence of a conversion -/

/-- A byte that is neither white space, sign nor digit ends the scan: what
follows it has no influence. -/
theorem scanNumber_cut (a : Bytes) (x : Nat) (r : Bytes)
    (hsp : isspace x = false) (hdg : isdigit x = false) (hm : x ≠ 45) (hp : x ≠ 43) :
    scanNumber (a ++ x :: r) = scanNumber a := by
  have hw : ((a ++ x :: r).takeWhile isspace) = a.takeWhile isspace :=
    takeWhile_append_cut isspace a x r hsp
  have hle : (a.takeWhile isspace).length ≤ a.length := length_takeWhile_le _ _
  unfold scanNumber
  simp only [hw, List.drop_append_of_le_length hle]
  cases h1 : a.drop (a.takeWhile isspace).length with
  | nil =>
    simp [hm, hp, List.takeWhile, hdg]
  | cons b bs =>
    by_cases hs : b = 45 ∨ b = 43
    · simp [hs, takeWhile_append_cut isdigit bs x r hdg]
    · have hc := takeWhile_append_cut isdigit (b :: bs) x r hdg
      simp only [List.cons_append] at hc
      simp [hs, hc]

theorem scanNumber_digits (a : Bytes) (ha : ∀ b ∈ a, isdigit b = true) :
    scanNumber a = ⟨0, false, 0, a⟩ := by
  cases a with
  | nil => simp [scanNumber]
  | cons b bs =>
    have hb := (isdigit_iff b).mp (ha b (List.mem_cons_self _ _))
    have hsp : isspace b = false := by
      cases h : isspace b
      · rfl
      · have := (isspace_iff b).mp h
        omega
    have h45 : b ≠ 45 := by omega
    have h43 : b ≠ 43 := by omega
    have htw : (b :: bs).takeWhile isdigit = b :: bs := takeWhile_all isdigit _ ha
    simp [scanNumber, List.takeWhile, hsp, h45, h43]
    simpa [List.takeWhile] using htw

theorem scanNumber_minus_digits (a : Bytes) (ha : ∀ b ∈ a, isdigit b = true) :
    scanNumber (45 :: a) = ⟨0, true, 1, a⟩ := by
  have hsp : isspace 45 = false := by decide
  simp [scanNumber, List.takeWhile, hsp, takeWhile_all isdigit a ha]

/-! ### Decimal text -/

theorem decimalFuel_spec (fuel n : Nat) (h : n < fuel) :
    digitsValue (decimalFuel fuel n) = n ∧
    (∀ d ∈ decimalFuel fuel n, isdigit d = true) ∧
    decimalFuel fuel n ≠ [] ∧
    (0 < n → (decimalFuel fuel n).headD 0 ≠ 48) := by
  induction fuel generalizing n with
  | zero => omega
  | succ f ih =>
    by_cases h10 : n < 10
    · simp only [decimalFuel, h10, if_true]
      refine ⟨by simp [digitsValue], ?_, by simp, ?_⟩
      · intro d hd
        simp only [List.mem_singleton] at hd
        subst hd
        exact (isdigit_iff _).mpr (by omega)
      · intro hn
        simp only [List.headD_cons]
        omega
    · have hlt : n / 10 < f := by omega
      obtain ⟨hv, hd, hne, hh⟩ := ih (n / 10) hlt
      simp only [decimalFuel, h10, if_false]
      refine ⟨?_, ?_, by simp, ?_⟩
      · rw [digitsValue_snoc, hv]
        omega
      · intro d hdm
        rcases List.mem_append.mp hdm with hdm | hdm
        · exact hd d hdm
        · simp only [List.mem_singleton] at hdm
          subst hdm
          exact (isdigit_iff _).mpr (by omega)
      · intro _
        have hpos : 0 < n / 10 := by omega
        have := hh hpos
        cases hc : decimalFuel f (n / 10) with
        | nil => exact absurd hc hne
        | cons b bs =>
          rw [hc] at this
          simpa using this

theorem digitsValue_decimal (n : Nat) : digitsValue (decimal n) = n :=
  (decimalFuel_spec (n + 1) n (by omega)).1

theorem decimal_digits (n : Nat) : ∀ d ∈ decimal n, isdigit d = true :=
  (decimalFuel_spec (n + 1) n (by omega)).2.1

theorem decimal_ne_nil (n : Nat) : decimal n ≠ [] :=
  (decimalFuel_spec (n + 1) n (by omega)).2.2.1

theorem decimal_head (n : Nat) (h : 0 < n) : (decimal n).headD 0 ≠ 48 :=
  (decimalFuel_spec (n + 1) n (by omega)).2.2.2 h

theorem decimal_length_pos (n : Nat) : 0 < (decimal n).length :=
  List.length_pos.mpr (decimal_ne_nil n)

/-- The first byte of a decimal text is a digit. -/
theorem decimal_head_digit (n : Nat) : isdigit ((decimal n).headD 0) = true := by
  have hne := decimal_ne_nil n
  have hd := decimal_digits n
  cases hc : decimal n with
  | nil => exact absurd hc hne
  | cons b bs =>
    rw [hc] at hd
    simpa using hd b (List.mem_cons_self _ _)

/-! ## The shape of what the scanners accept -/

theorem evutil_strtoll_cut (a r : Bytes) : evutil_strtoll (a ++ 101 :: r) = evutil_strtoll a := by
  unfold evutil_strtoll
  rw [scanNumber_cut a 101 r (by decide) (by decide) (by decide) (by decide)]

theorem strtoul_cut (a r : Bytes) : strtoul (a ++ 58 :: r) = strtoul a := by
  unfold strtoul
  rw [scanNumber_cut a 58 r (by decide) (by decide) (by decide) (by decide)]

theorem headD_append_e (a r : Bytes) : ((a ++ 101 :: r).headD 0 = 48) ↔ (a.headD 0 = 48) := by
  cases a <;> simp

/-- On a window `i a e r` whose part `a` holds no `e`, the integer scanner
answers by `intBody a` alone. -/
theorem tr_bencParseInt_shape (a r : Bytes) (e0 : Option Nat) (v0 : Int)
    (ha : ∀ b ∈ a, b ≠ 101) :
    tr_bencParseInt (105 :: (a ++ 101 :: r)) e0 v0 =
      match intBody a with
      | some v => ⟨0, some (a.length + 2), v⟩
      | none => ⟨EILSEQ, e0, v0⟩ := by
  have hm : memchr (a ++ 101 :: r) 101 ((105 :: (a ++ 101 :: r)).length - 1) = some a.length :=
    memchr_append a 101 r _ ha (by simp)
  unfold tr_bencParseInt intBody
  simp only [List.length_cons, Nat.succ_ne_zero, if_false, List.headD_cons, ne_eq,
    not_true_eq_false, List.drop_succ_cons, List.drop_zero]
  simp only [List.length_cons] at hm
  rw [hm]
  simp only [evutil_strtoll_cut, headD_append_e]
  by_cases h1 : ¬(evutil_strtoll a).errno = 0 ∨ ¬(evutil_strtoll a).endptr = a.length
  · simp [h1]
  · by_cases h2 : ¬(evutil_strtoll a).val = 0 ∧ a.headD 0 = 48
    · simp only [h1, if_false]
      rw [if_pos h2, if_pos h2]
    · simp only [h1, if_false]
      rw [if_neg h2, if_neg h2]
      congr 2
      omega

/-- Either the integer scanner fails, leaving the out-parameters alone, or the
window has the shape `i a e r` with no `e` inside `a` and `a` accepted. -/
theorem tr_bencParseInt_cases (w : Bytes) (e0 : Option Nat) (v0 : Int) :
    tr_bencParseInt w e0 v0 = ⟨EILSEQ, e0, v0⟩ ∨
    ∃ a r v, w = 105 :: (a ++ 101 :: r) ∧ (∀ b ∈ a, b ≠ 101) ∧ intBody a = some v ∧
      tr_bencParseInt w e0 v0 = ⟨0, some (a.length + 2), v⟩ := by
  cases w with
  | nil => left; simp [tr_bencParseInt]
  | cons c w1 =>
    by_cases hc : c = 105
    · subst hc
      cases hm : memchr w1 101 w1.length with
      | none => left; simp [tr_bencParseInt, hm]
      | some e =>
        obtain ⟨a, r, hs, _, hne, _⟩ := memchr_some w1 101 _ e hm
        subst hs
        have hsh := tr_bencParseInt_shape a r e0 v0 hne
        cases hb : intBody a with
        | none => left; rw [hsh, hb]
        | some v =>
          right
          exact ⟨a, r, v, rfl, hne, hb, by rw [hsh, hb]⟩
    · left; simp [tr_bencParseInt, hc]

theorem scanNumber_head_digit (a : Bytes) (h : isdigit (a.headD 0) = true) :
    scanNumber a = ⟨0, false, 0, a.takeWhile isdigit⟩ := by
  cases a with
  | nil => simp [scanNumber]
  | cons b bs =>
    simp only [List.headD_cons] at h
    have hb := (isdigit_iff b).mp h
    have hsp : isspace b = false := by
      cases h1 : isspace b
      · rfl
      · have := (isspace_iff b).mp h1
        omega
    have h45 : b ≠ 45 := by omega
    have h43 : b ≠ 43 := by omega
    simp [scanNumber, List.takeWhile, hsp, h45, h43, h]

theorem takeWhile_length_eq (p : Nat → Bool) (a : Bytes)
    (h : (a.takeWhile p).length = a.length) : ∀ b ∈ a, p b = true := by
  induction a with
  | nil => simp
  | cons b bs ih =>
    cases hb : p b
    · simp [List.takeWhile, hb] at h
    · simp only [List.takeWhile, hb, List.length_cons, Nat.add_right_cancel_iff] at h
      intro x hx
      rcases List.mem_cons.mp hx with rfl | hx
      · exact hb
      · exact ih h x hx

theorem strtoul_head_digit (a : Bytes) (h : isdigit (a.headD 0) = true)
    (herr : (strtoul a).errno = 0) :
    (strtoul a).endptr = (a.takeWhile isdigit).length ∧
    (strtoul a).val = (digitsValue (a.takeWhile isdigit) : Int) := by
  have hlen : (a.takeWhile isdigit).length ≠ 0 := by
    cases a with
    | nil => simp [isdigit] at h
    | cons b bs =>
      simp only [List.headD_cons] at h
      simp [List.takeWhile, h]
  unfold strtoul at herr ⊢
  rw [scanNumber_head_digit a h] at herr ⊢
  simp only [hlen, if_false] at herr ⊢
  by_cases hbig : digitsValue (a.takeWhile isdigit) > ULONG_MAX
  · simp [hbig, ERANGE] at herr
  · simp [hbig]

/-- On a window `a : r` whose part `a` is a non-empty run of digits, the
string scanner accepts exactly when the length the digits denote is within
the limit and within what is left of the window. -/
theorem tr_bencParseStr_shape (a r : Bytes) (e0 s0 : Option Nat) (l0 : Nat)
    (hne : a ≠ []) (ha : ∀ b ∈ a, isdigit b = true) :
    tr_bencParseStr (a ++ 58 :: r) e0 s0 l0 =
      if digitsValue a ≤ MAX_BENC_STR_LENGTH ∧ digitsValue a ≤ r.length then
        ⟨0, some (a.length + 1 + digitsValue a), some (a.length + 1), digitsValue a⟩
      else ⟨EILSEQ, none, none, 0⟩ := by
  have h58 : ∀ b ∈ a, b ≠ 58 := by
    intro b hb
    have := (isdigit_iff b).mp (ha b hb)
    omega
  have hm : memchr (a ++ 58 :: r) 58 (a ++ 58 :: r).length = some a.length :=
    memchr_append a 58 r _ h58 (by simp)
  have hhead : isdigit ((a ++ 58 :: r).headD 0) = true := by
    cases a with
    | nil => exact absurd rfl hne
    | cons b bs => simpa using ha b (List.mem_cons_self _ _)
  have hlen : 0 < a.length := List.length_pos.mpr hne
  have hst : strtoul a = if digitsValue a > ULONG_MAX then
      ⟨(ULONG_MAX : Nat), a.length, ERANGE⟩ else ⟨(digitsValue a : Int), a.length, 0⟩ := by
    unfold strtoul
    rw [scanNumber_digits a ha]
    have : a.length ≠ 0 := by omega
    simp [this]
  unfold tr_bencParseStr
  simp only [hm, hhead, strtoul_cut]
  rw [hst]
  by_cases hbig : digitsValue a > ULONG_MAX
  · have h1 : ¬ digitsValue a ≤ MAX_BENC_STR_LENGTH := by
      simp only [ULONG_MAX, MAX_BENC_STR_LENGTH] at *
      omega
    simp [hbig, h1, ERANGE]
  · simp only [hbig, if_false, List.length_append, List.length_cons]
    by_cases h1 : digitsValue a ≤ MAX_BENC_STR_LENGTH
    · by_cases h2 : digitsValue a ≤ r.length
      · have h3 : a.length + 1 + digitsValue a ≤ a.length + (r.length + 1) := by omega
        simp [h1, h2, h3]
      · have h3 : ¬ a.length + 1 + digitsValue a ≤ a.length + (r.length + 1) := by omega
        simp [h1, h2, h3]
    · simp [h1]

/-- Either the string scanner fails, or the window has the shape `a : r` with
`a` a non-empty run of digits denoting a length within the limit and within
`r`. -/
theorem tr_bencParseStr_cases (w : Bytes) (e0 s0 : Option Nat) (l0 : Nat) :
    tr_bencParseStr w e0 s0 l0 = ⟨EILSEQ, none, none, 0⟩ ∨
    ∃ a r, w = a ++ 58 :: r ∧ a ≠ [] ∧ (∀ b ∈ a, isdigit b = true) ∧
      digitsValue a ≤ MAX_BENC_STR_LENGTH ∧ digitsValue a ≤ r.length ∧
      tr_bencParseStr w e0 s0 l0 =
        ⟨0, some (a.length + 1 + digitsValue a), some (a.length + 1), digitsValue a⟩ := by
  by_cases hh : 0 < w.length ∧ isdigit (w.headD 0) = true
  · cases hm : memchr w 58 w.length with
    | none => left; simp [tr_bencParseStr, hm]
    | some e =>
      obtain ⟨a, r, hs, hl, hne, _⟩ := memchr_some w 58 _ e hm
      subst hs
      have hane : a ≠ [] := by
        intro h
        subst h
        simp at hh
        exact absurd hh (by decide)
      have hhead : isdigit (a.headD 0) = true := by
        cases a with
        | nil => exact absurd rfl hane
        | cons b bs => simpa using hh.2
      by_cases hall : (a.takeWhile isdigit).length = a.length
      · have hd := takeWhile_length_eq isdigit a hall
        have hsh := tr_bencParseStr_shape a r e0 s0 l0 hane hd
        by_cases hc : digitsValue a ≤ MAX_BENC_STR_LENGTH ∧ digitsValue a ≤ r.length
        · right
          refine ⟨a, r, rfl, hane, hd, hc.1, hc.2, ?_⟩
          rw [hsh, if_pos hc]
        · left
          rw [hsh, if_neg hc]
      · left
        have hcond : ¬ ((strtoul a).errno = 0 ∧ (strtoul a).endptr = e ∧
            (strtoul a).val ≤ (MAX_BENC_STR_LENGTH : Int)) := by
          rintro ⟨h1, h2, _⟩
          have := (strtoul_head_digit a hhead h1).1
          omega
        unfold tr_bencParseStr
        simp only [hm, strtoul_cut, hcond, if_false]
        split_ifs
        all_goals rfl
  · left
    unfold tr_bencParseStr
    rw [if_neg hh]

/-! ## The integer scanner -/

theorem printInt_no_e (n : Int) : ∀ b ∈ printInt n, b ≠ 101 := by
  intro b hb
  unfold printInt at hb
  split_ifs at hb
  · rcases List.mem_cons.mp hb with rfl | hb
    · decide
    · have := (isdigit_iff b).mp (decimal_digits _ b hb)
      omega
  · have := (isdigit_iff b).mp (decimal_digits _ b hb)
    omega

theorem intBody_printInt (n : Int) (hlo : INT64_MIN ≤ n) (hhi : n ≤ INT64_MAX) :
    intBody (printInt n) = some n := by
  have hlen := decimal_length_pos n.natAbs
  have hlen0 : (decimal n.natAbs).length ≠ 0 := by omega
  by_cases hneg : n < 0
  · have habs : -((n.natAbs : Nat) : Int) = n := by omega
    have hst : evutil_strtoll (printInt n) = ⟨n, (printInt n).length, 0⟩ := by
      unfold evutil_strtoll printInt
      simp only [hneg, if_true]
      rw [scanNumber_minus_digits _ (decimal_digits _)]
      simp only [hlen0, if_false, digitsValue_decimal, habs, if_true]
      have h1 : ¬ n > INT64_MAX := by omega
      have h2 : ¬ n < INT64_MIN := by omega
      rw [if_neg h1, if_neg h2]
      simp only [List.length_cons]
      congr 1
      omega
    unfold intBody
    rw [hst]
    have hhead : ¬ (printInt n).headD 0 = 48 := by
      simp [printInt, hneg]
    simp only [ne_eq, not_true_eq_false, or_self, if_false, hhead, and_false]
  · have habs : ((n.natAbs : Nat) : Int) = n := by omega
    have hst : evutil_strtoll (printInt n) = ⟨n, (printInt n).length, 0⟩ := by
      unfold evutil_strtoll printInt
      simp only [hneg, if_false]
      rw [scanNumber_digits _ (decimal_digits _)]
      simp only [hlen0, if_false, digitsValue_decimal, habs, Bool.false_eq_true]
      have h1 : ¬ n > INT64_MAX := by omega
      have h2 : ¬ n < INT64_MIN := by omega
      rw [if_neg h1, if_neg h2]
      simp
    unfold intBody
    rw [hst]
    by_cases h0 : n = 0
    · simp [h0]
    · have hpos : 0 < n.natAbs := by omega
      have hhead : ¬ (printInt n).headD 0 = 48 := by
        have := decimal_head n.natAbs hpos
        unfold printInt
        rw [if_neg hneg]
        exact this
      simp only [ne_eq, not_true_eq_false, or_self, if_false, hhead, and_false]

/-- Claim C5: for every signed 64-bit integer `n`, the integer scanner applied
to the bytes the serializer emits for the integer `n`, followed by any
further bytes `r`, returns 0, sets the value to `n` and sets the end position
just past the `e`. -/
theorem tr_bencParseInt_saveIntFunc (n : Int) (hlo : INT64_MIN ≤ n) (hhi : n ≤ INT64_MAX)
    (r : Bytes) (e0 : Option Nat) (v0 : Int) :
    tr_bencParseInt (saveIntFunc n ++ r) e0 v0 = ⟨0, some (saveIntFunc n).length, n⟩ := by
  have hsh := tr_bencParseInt_shape (printInt n) r e0 v0 (printInt_no_e n)
  rw [intBody_printInt n hlo hhi] at hsh
  have heq : saveIntFunc n ++ r = 105 :: (printInt n ++ 101 :: r) := by
    simp [saveIntFunc]
  rw [heq, hsh]
  simp [saveIntFunc]

theorem tr_bencParseInt_saveIntFunc_witness :
    INT64_MIN ≤ -3 ∧ (-3 : Int) ≤ INT64_MAX ∧
    tr_bencParseInt (saveIntFunc (-3) ++ bytes "4:spam") none 888 =
      ⟨0, some (saveIntFunc (-3)).length, -3⟩ :=
  ⟨by decide, by decide,
   tr_bencParseInt_saveIntFunc (-3) (by decide) (by decide) (bytes "4:spam") none 888⟩

/-- Claim C7: a literal `i d e` whose digit run `d` begins with `0` and
denotes a non-zero value is answered with `EILSEQ` (whatever follows it, and
with the out-parameters left alone), while `i0e` is accepted with value 0. -/
theorem tr_bencParseInt_leading_zero (d r : Bytes) (e0 : Option Nat) (v0 : Int)
    (hd : ∀ b ∈ d, isdigit b = true) (h0 : d.headD 0 = 48) (hv : digitsValue d ≠ 0) :
    tr_bencParseInt (105 :: (d ++ 101 :: r)) e0 v0 = ⟨EILSEQ, e0, v0⟩ ∧
    tr_bencParseInt (bytes "i0e") e0 v0 = ⟨0, some 3, 0⟩ := by
  constructor
  · have hne : ∀ b ∈ d, b ≠ 101 := by
      intro b hb
      have := (isdigit_iff b).mp (hd b hb)
      omega
    have hlen : d.length ≠ 0 := by
      cases d with
      | nil => simp at h0
      | cons b bs => simp
    have hbody : intBody d = none := by
      unfold intBody evutil_strtoll
      rw [scanNumber_digits d hd]
      simp only [hlen, if_false, Bool.false_eq_true]
      by_cases hbig : (digitsValue d : Int) > INT64_MAX
      · simp [hbig, ERANGE]
      · have hsm : ¬ (digitsValue d : Int) < INT64_MIN := by
          simp only [INT64_MIN]
          omega
        have hv2 : ((digitsValue d : Nat) : Int) ≠ 0 := by omega
        rw [if_neg hbig, if_neg hsm]
        simp only [ne_eq, not_true_eq_false, zero_add, or_self, if_false]
        rw [if_pos ⟨hv2, h0⟩]
    rw [tr_bencParseInt_shape d r e0 v0 hne, hbody]
  · have h := tr_bencParseInt_shape [48] [] e0 v0 (by decide)
    have hb : intBody [48] = some 0 := by decide
    rw [hb] at h
    exact h

theorem tr_bencParseInt_leading_zero_witness :
    (∀ b ∈ bytes "04", isdigit b = true) ∧ (bytes "04").headD 0 = 48 ∧
    digitsValue (bytes "04") ≠ 0 ∧
    (tr_bencParseInt (105 :: (bytes "04" ++ 101 :: [])) none 888 = ⟨EILSEQ, none, 888⟩ ∧
     tr_bencParseInt (bytes "i0e") none 888 = ⟨0, some 3, 0⟩) :=
  ⟨by decide, by decide, by decide,
   tr_bencParseInt_leading_zero (bytes "04") [] none 888 (by decide) (by decide) (by decide)⟩

/-- Claim C8, as the code behaves: a minus sign followed by the digit `0` is
not rejected. `i-0e` is accepted with value 0 and `i-04e` with value -4,
where the claim has `EILSEQ` for both. -/
theorem tr_bencParseInt_minus_zero_accepted :
    tr_bencParseInt (bytes "i-0e") none 888 = ⟨0, some 4, 0⟩ ∧
    tr_bencParseInt (bytes "i-04e") none 888 = ⟨0, some 5, -4⟩ := by
  constructor <;> decide

/-- Claim C9, as the code behaves: with an empty digit run and no sign the
conversion reports no error and stops where the `e` was found, so every
window beginning with `ie` is accepted with value 0 and end offset 2, where
the claim has `EILSEQ`; every window beginning with `i-e` is answered with
`EILSEQ`. -/
theorem tr_bencParseInt_empty_digit_run (r : Bytes) (e0 : Option Nat) (v0 : Int) :
    tr_bencParseInt (bytes "ie" ++ r) e0 v0 = ⟨0, some 2, 0⟩ ∧
    tr_bencParseInt (bytes "i-e" ++ r) e0 v0 = ⟨EILSEQ, e0, v0⟩ := by
  constructor
  · have h := tr_bencParseInt_shape [] r e0 v0 (by simp)
    have hb : intBody [] = some 0 := by decide
    rw [hb] at h
    exact h
  · have h := tr_bencParseInt_shape [45] r e0 v0 (by decide)
    have hb : intBody [45] = none := by decide
    rw [hb] at h
    exact h

/-- Claim C10, as the code behaves: bytes that are not digits are accepted
between the `i` and the digits when the C conversion skips them. A plus sign
(`i+5e`) and white space (`i 5e`) are accepted with value 5, and `i 04e` is
accepted with value 4, where the claim has `EILSEQ`; `i6z4e` is answered with
`EILSEQ`. -/
theorem tr_bencParseInt_plus_and_space_accepted :
    tr_bencParseInt (bytes "i+5e") none 888 = ⟨0, some 4, 5⟩ ∧
    tr_bencParseInt (bytes "i 5e") none 888 = ⟨0, some 4, 5⟩ ∧
    tr_bencParseInt (bytes "i 04e") none 888 = ⟨0, some 5, 4⟩ ∧
    tr_bencParseInt (bytes "i6z4e") none 888 = ⟨EILSEQ, none, 888⟩ := by
  refine ⟨?_, ?_, ?_, ?_⟩ <;> decide

/-! ## The string scanner -/

/-- Claim C6: for every byte string `s` of length at most 128 MiB, every
non-empty run of decimal digits `p` denoting that length (leading zeros
allowed) and every suffix `r`, the string scanner applied to `p : s r`
returns 0, yields a view of length `|s|` that starts just past the colon and
equals `s`, and sets the end position just past `s`; `0:` yields a
zero-length view with end offset 2 and `3:boat` yields `boa` with end offset
5. -/
theorem tr_bencParseStr_accepts (s p r : Bytes) (e0 s0 : Option Nat) (l0 : Nat)
    (hs : s.length ≤ MAX_BENC_STR_LENGTH)
    (hne : p ≠ []) (hp : ∀ b ∈ p, isdigit b = true) (hv : digitsValue p = s.length) :
    (tr_bencParseStr (p ++ 58 :: (s ++ r)) e0 s0 l0 =
        ⟨0, some (p.length + 1 + s.length), some (p.length + 1), s.length⟩ ∧
      stringView (p ++ 58 :: (s ++ r)) (some (p.length + 1)) s.length = s) ∧
    (tr_bencParseStr (bytes "0:") e0 s0 l0 = ⟨0, some 2, some 2, 0⟩ ∧
      stringView (bytes "0:") (some 2) 0 = []) ∧
    (tr_bencParseStr (bytes "3:boat") e0 s0 l0 = ⟨0, some 5, some 2, 3⟩ ∧
      stringView (bytes "3:boat") (some 2) 3 = bytes "boa") := by
  refine ⟨⟨?_, ?_⟩, ⟨?_, by decide⟩, ⟨?_, by decide⟩⟩
  · rw [tr_bencParseStr_shape p (s ++ r) e0 s0 l0 hne hp, hv]
    have : s.length ≤ MAX_BENC_STR_LENGTH ∧ s.length ≤ (s ++ r).length := ⟨hs, by simp⟩
    rw [if_pos this]
  · have h1 : (p ++ 58 :: (s ++ r)).drop (p.length + 1) = s ++ r := by
      have : p ++ 58 :: (s ++ r) = (p ++ [58]) ++ (s ++ r) := by simp
      rw [this]
      exact List.drop_left' (by simp)
    simp [stringView, h1]
  · have h := tr_bencParseStr_shape [48] [] e0 s0 l0 (by decide) (by decide)
    exact h
  · have h := tr_bencParseStr_shape [51] (bytes "boat") e0 s0 l0 (by decide) (by decide)
    exact h

theorem tr_bencParseStr_accepts_witness :
    (bytes "boat").length ≤ MAX_BENC_STR_LENGTH ∧ bytes "004" ≠ [] ∧
    (∀ b ∈ bytes "004", isdigit b = true) ∧ digitsValue (bytes "004") = (bytes "boat").length ∧
    tr_bencParseStr (bytes "004" ++ 58 :: (bytes "boat" ++ bytes "i1e")) none none 7 =
      ⟨0, some ((bytes "004").length + 1 + (bytes "boat").length),
        some ((bytes "004").length + 1), (bytes "boat").length⟩ :=
  ⟨by decide, by decide, by decide, by decide,
   (tr_bencParseStr_accepts (bytes "boat") (bytes "004") (bytes "i1e") none none 7
      (by decide) (by decide) (by decide) (by decide)).1.1⟩

/-! ## The order of keys and the sorting of dict children -/

theorem keyLt_irrefl (a : Bytes) : keyLt a a = false := by
  induction a with
  | nil => rfl
  | cons x xs ih => simp [keyLt, ih]

theorem keyLt_asymm (a b : Bytes) (h : keyLt a b = true) : keyLt b a = false := by
  induction a generalizing b with
  | nil => cases b <;> simp [keyLt] at h ⊢
  | cons x xs ih =>
    cases b with
    | nil => simp [keyLt] at h
    | cons y ys =>
      unfold keyLt at h ⊢
      split_ifs at h ⊢
      all_goals first | omega | rfl | exact ih ys h

theorem keyLt_trans (a b c : Bytes) (h1 : keyLt a b = true) (h2 : keyLt b c = true) :
    keyLt a c = true := by
  induction a generalizing b c with
  | nil =>
    cases b with
    | nil => simp [keyLt] at h1
    | cons y ys =>
      cases c with
      | nil => simp [keyLt] at h2
      | cons z zs => rfl
  | cons x xs ih =>
    cases b with
    | nil => simp [keyLt] at h1
    | cons y ys =>
      cases c with
      | nil => simp [keyLt] at h2
      | cons z zs =>
        unfold keyLt at h1 h2 ⊢
        split_ifs at h1 h2 ⊢
        all_goals first | omega | rfl | exact ih ys zs h1 h2

theorem keyLt_connex (a b : Bytes) (h1 : keyLt a b = false) (h2 : keyLt b a = false) :
    a = b := by
  induction a generalizing b with
  | nil => cases b <;> simp [keyLt] at h1 ⊢
  | cons x xs ih =>
    cases b with
    | nil => simp [keyLt] at h2
    | cons y ys =>
      unfold keyLt at h1 h2
      split_ifs at h1 h2
      have hxy : x = y := by omega
      rw [hxy, ih ys h1 h2]

/-- Transitivity of "does not sort after". -/
theorem keyLe_trans (a b c : Bytes) (h1 : keyLt b a = false) (h2 : keyLt c b = false) :
    keyLt c a = false := by
  cases h : keyLt c a
  · rfl
  · cases hab : keyLt a b
    · have : a = b := keyLt_connex a b hab h1
      subst this
      rw [h] at h2
      exact absurd h2 (by simp)
    · have := keyLt_trans c a b h hab
      rw [this] at h2
      exact absurd h2 (by simp)

theorem insertByKey_perm {α : Type} (e : Key × α) (l : List (Key × α)) :
    (insertByKey e l).Perm (e :: l) := by
  induction l with
  | nil => exact List.Perm.refl _
  | cons x xs ih =>
    unfold insertByKey
    split_ifs
    · exact (List.Perm.cons x ih).trans (List.Perm.swap e x xs)
    · exact List.Perm.refl _

theorem sortByKey_cons {α : Type} (e : Key × α) (l : List (Key × α)) :
    sortByKey (e :: l) = insertByKey e (sortByKey l) := rfl

theorem sortByKey_perm {α : Type} (l : List (Key × α)) : (sortByKey l).Perm l := by
  induction l with
  | nil => exact List.Perm.refl _
  | cons x xs ih =>
    rw [sortByKey_cons]
    exact (insertByKey_perm x _).trans (List.Perm.cons x ih)

theorem insertByKey_sorted {α : Type} (e : Key × α) (l : List (Key × α))
    (h : l.Pairwise (fun x y => keyLt y.1 x.1 = false)) :
    (insertByKey e l).Pairwise (fun x y => keyLt y.1 x.1 = false) := by
  induction l with
  | nil => simp [insertByKey]
  | cons x xs ih =>
    have hx := (List.pairwise_cons.mp h).1
    have hxs := (List.pairwise_cons.mp h).2
    unfold insertByKey
    split_ifs with hlt
    · refine List.pairwise_cons.mpr ⟨?_, ih hxs⟩
      intro y hy
      have hy2 := (insertByKey_perm e xs).subset hy
      rcases List.mem_cons.mp hy2 with rfl | hy3
      · exact keyLt_asymm _ _ hlt
      · exact hx y hy3
    · refine List.pairwise_cons.mpr ⟨?_, h⟩
      intro y hy
      rcases List.mem_cons.mp hy with rfl | hy3
      · simpa using hlt
      · exact keyLe_trans e.1 x.1 y.1 (by simpa using hlt) (hx y hy3)

theorem sortByKey_sorted {α : Type} (l : List (Key × α)) :
    (sortByKey l).Pairwise (fun x y => keyLt y.1 x.1 = false) := by
  induction l with
  | nil => simp [sortByKey]
  | cons x xs ih =>
    rw [sortByKey_cons]
    exact insertByKey_sorted x _ ih

/-- Sorting leaves a list alone whose keys are already in non-descending
order. -/
theorem sortByKey_of_sorted {α : Type} (l : List (Key × α))
    (h : l.Pairwise (fun x y => keyLt y.1 x.1 = false)) : sortByKey l = l := by
  induction l with
  | nil => rfl
  | cons x xs ih =>
    have hx := (List.pairwise_cons.mp h).1
    have hxs := (List.pairwise_cons.mp h).2
    rw [sortByKey_cons, ih hxs]
    cases xs with
    | nil => rfl
    | cons y ys =>
      have := hx y (List.mem_cons_self _ _)
      simp [insertByKey, this]

theorem sortByKey_idem {α : Type} (l : List (Key × α)) :
    sortByKey (sortByKey l) = sortByKey l :=
  sortByKey_of_sorted _ (sortByKey_sorted l)

theorem keysAscending_iff {α : Type} (l : List (Key × α)) :
    keysAscending l = true ↔ l.Pairwise (fun x y => keyLt x.1 y.1 = true) := by
  induction l with
  | nil => simp [keysAscending]
  | cons a rest ih =>
    cases rest with
    | nil => simp [keysAscending]
    | cons b rest2 =>
      simp only [keysAscending, Bool.and_eq_true, ih]
      constructor
      · rintro ⟨hab, hp⟩
        refine List.pairwise_cons.mpr ⟨?_, hp⟩
        intro y hy
        rcases List.mem_cons.mp hy with rfl | hy2
        · exact hab
        · exact keyLt_trans _ _ _ hab ((List.pairwise_cons.mp hp).1 y hy2)
      · intro hp
        exact ⟨(List.pairwise_cons.mp hp).1 b (List.mem_cons_self _ _),
          (List.pairwise_cons.mp hp).2⟩

theorem sortByKey_of_ascending {α : Type} (l : List (Key × α)) (h : keysAscending l = true) :
    sortByKey l = l := by
  apply sortByKey_of_sorted
  exact ((keysAscending_iff l).mp h).imp (fun hxy => keyLt_asymm _ _ hxy)

theorem insertByKey_map {α β : Type} (f : α → β) (e : Key × α) (l : List (Key × α)) :
    insertByKey (e.1, f e.2) (l.map (fun kv => (kv.1, f kv.2))) =
      (insertByKey e l).map (fun kv => (kv.1, f kv.2)) := by
  induction l with
  | nil => rfl
  | cons x xs ih =>
    simp only [List.map_cons, insertByKey]
    split_ifs
    · simp [ih]
    · simp

/-- Sorting by key commutes with a transformation of the values. -/
theorem sortByKey_map {α β : Type} (f : α → β) (l : List (Key × α)) :
    sortByKey (l.map (fun kv => (kv.1, f kv.2))) =
      (sortByKey l).map (fun kv => (kv.1, f kv.2)) := by
  induction l with
  | nil => rfl
  | cons x xs ih =>
    rw [List.map_cons, sortByKey_cons, sortByKey_cons, ih, insertByKey_map]

/-- With pairwise distinct keys the sorted order is strictly ascending. -/
theorem sortByKey_ascending {α : Type} (l : List (Key × α)) (hnd : (l.map Prod.fst).Nodup) :
    keysAscending (sortByKey l) = true := by
  rw [keysAscending_iff]
  have hs := sortByKey_sorted l
  have hnd2 : ((sortByKey l).map Prod.fst).Nodup :=
    ((sortByKey_perm l).map Prod.fst).nodup_iff.mpr hnd
  have hne : (sortByKey l).Pairwise (fun x y => x.1 ≠ y.1) := by
    have := List.pairwise_map.mp hnd2
    exact this
  refine (hs.and hne).imp ?_
  rintro x y ⟨hle, hxy⟩
  cases hlt : keyLt x.1 y.1
  · exact absurd (keyLt_connex _ _ hlt hle) hxy
  · rfl

/-- Two lists of entries with the same entries and pairwise distinct keys
sort to the same list. -/
theorem sortByKey_eq_of_perm {α : Type} (l1 l2 : List (Key × α)) (hp : l1.Perm l2)
    (hnd : (l1.map Prod.fst).Nodup) : sortByKey l1 = sortByKey l2 := by
  have hnd2 : (l2.map Prod.fst).Nodup := (hp.map Prod.fst).nodup_iff.mp hnd
  have h1 := (keysAscending_iff _).mp (sortByKey_ascending l1 hnd)
  have h2 := (keysAscending_iff _).mp (sortByKey_ascending l2 hnd2)
  have hperm : (sortByKey l1).Perm (sortByKey l2) :=
    ((sortByKey_perm l1).trans hp).trans (sortByKey_perm l2).symm
  haveI : IsAntisymm (Key × α) (fun x y => keyLt x.1 y.1 = true) :=
    ⟨fun a b hab hba => by
      have := keyLt_asymm _ _ hab
      rw [hba] at this
      exact absurd this (by simp)⟩
  exact List.eq_of_perm_of_sorted hperm h1 h2

/-! ## The parse loop: progress and termination -/

theorem initNode_buf (st : ParseState) (slot : Slot) (v : Variant) :
    (initNode st slot v).buf = st.buf := by
  obtain ⟨buf, stack, key, top, err⟩ := st
  cases slot <;> cases stack <;> rfl

theorem initNode_err (st : ParseState) (slot : Slot) (v : Variant) :
    (initNode st slot v).err = st.err := by
  obtain ⟨buf, stack, key, top, err⟩ := st
  cases slot <;> cases stack <;> rfl

theorem initNode_key (st : ParseState) (slot : Slot) (v : Variant) :
    (initNode st slot v).key = st.key := by
  obtain ⟨buf, stack, key, top, err⟩ := st
  cases slot <;> cases stack <;> rfl

theorem initNode_stack_length (st : ParseState) (slot : Slot) (v : Variant) :
    (initNode st slot v).stack.length = st.stack.length := by
  obtain ⟨buf, stack, key, top, err⟩ := st
  cases slot <;> cases stack <;> rfl

theorem placeScalar_buf (st : ParseState) (x : Variant) : (placeScalar st x).buf = st.buf := by
  unfold placeScalar
  split
  · rw [initNode_buf]
  · rfl

theorem placeScalar_stack_length (st : ParseState) (x : Variant) :
    (placeScalar st x).stack.length = st.stack.length := by
  unfold placeScalar
  split
  · rw [initNode_stack_length]
  · rfl

theorem openContainer_buf (st : ParseState) (x : Variant) : (openContainer st x).buf = st.buf := by
  unfold openContainer
  split
  · rename_i slot key err _
    cases slot <;> rfl
  · rfl

theorem pop_back_buf (st : ParseState) : (pop_back st).buf = st.buf := by
  unfold pop_back
  split
  · rfl
  · rw [initNode_buf]

theorem stringView_shape (a r : Bytes) (n : Nat) :
    stringView (a ++ 58 :: r) (some (a.length + 1)) n = r.take n := by
  have h1 : (a ++ 58 :: r).drop (a.length + 1) = r := by
    have : a ++ 58 :: r = (a ++ [58]) ++ r := by simp
    rw [this]
    exact List.drop_left' (by simp)
  simp [stringView, h1]

/-- The ten ways one pass through the chain on `*buf` can go. -/
theorem dispatch_cases (w : Bytes) (st : ParseState) :
    (w.headD 0 = 105 ∧ dispatch w st = ({ st with err := EILSEQ }, true)) ∨
    (∃ a r v, w = 105 :: (a ++ 101 :: r) ∧ (∀ b ∈ a, b ≠ 101) ∧ intBody a = some v ∧
      dispatch w st = (placeScalar { st with buf := st.buf + (a.length + 2) } (.int v),
        (placeScalar { st with buf := st.buf + (a.length + 2) } (.int v)).stack.isEmpty)) ∨
    (w.headD 0 = 108 ∧
      dispatch w st = (openContainer { st with buf := st.buf + 1 } (.list []),
        (openContainer { st with buf := st.buf + 1 } (.list [])).stack.isEmpty)) ∨
    (w.headD 0 = 100 ∧
      dispatch w st = (openContainer { st with buf := st.buf + 1 } (.dict []),
        (openContainer { st with buf := st.buf + 1 } (.dict [])).stack.isEmpty)) ∨
    (w.headD 0 = 101 ∧ (st.stack = [] ∨ st.key.isSome = true) ∧
      dispatch w st = ({ st with buf := st.buf + 1, err := EILSEQ }, true)) ∨
    (w.headD 0 = 101 ∧ st.stack ≠ [] ∧ st.key = none ∧
      dispatch w st = (pop_back { st with buf := st.buf + 1 },
        (pop_back { st with buf := st.buf + 1 }).stack.isEmpty)) ∨
    (isdigit (w.headD 0) = true ∧ dispatch w st = ({ st with err := EILSEQ }, true)) ∨
    (∃ a r, w = a ++ 58 :: r ∧ a ≠ [] ∧ (∀ b ∈ a, isdigit b = true) ∧
      digitsValue a ≤ MAX_BENC_STR_LENGTH ∧ digitsValue a ≤ r.length ∧
      st.key = none ∧ st.stack ≠ [] ∧ backIsDict st.stack = true ∧
      dispatch w st = ({ st with buf := st.buf + (a.length + 1 + digitsValue a),
                                 key := some (r.take (digitsValue a)) }, false)) ∨
    (∃ a r, w = a ++ 58 :: r ∧ a ≠ [] ∧ (∀ b ∈ a, isdigit b = true) ∧
      digitsValue a ≤ MAX_BENC_STR_LENGTH ∧ digitsValue a ≤ r.length ∧
      ¬ (st.key = none ∧ st.stack ≠ [] ∧ backIsDict st.stack = true) ∧
      dispatch w st =
        (placeScalar { st with buf := st.buf + (a.length + 1 + digitsValue a) }
            (.str (r.take (digitsValue a))),
         (placeScalar { st with buf := st.buf + (a.length + 1 + digitsValue a) }
            (.str (r.take (digitsValue a)))).stack.isEmpty)) ∨
    (w.headD 0 ≠ 105 ∧ w.headD 0 ≠ 108 ∧ w.headD 0 ≠ 100 ∧ w.headD 0 ≠ 101 ∧
      isdigit (w.headD 0) = false ∧
      dispatch w st = ({ st with buf := st.buf + 1 }, st.stack.isEmpty)) := by
  by_cases h1 : w.headD 0 = 105
  · rcases tr_bencParseInt_cases w none 0 with hf | ⟨a, r, v, hwe, hne, hb, hok⟩
    · left
      refine ⟨h1, ?_⟩
      simp only [dispatch, h1, if_true, hf]
      simp [EILSEQ]
    · right; left
      refine ⟨a, r, v, hwe, hne, hb, ?_⟩
      simp only [dispatch, h1, if_true, hok]
      simp
  · by_cases h2 : w.headD 0 = 108
    · right; right; left
      refine ⟨h2, ?_⟩
      simp only [dispatch, h2]
      simp
    · by_cases h3 : w.headD 0 = 100
      · right; right; right; left
        refine ⟨h3, ?_⟩
        simp only [dispatch, h3]
        simp
      · by_cases h4 : w.headD 0 = 101
        · by_cases h5 : st.stack = [] ∨ st.key.isSome = true
          · right; right; right; right; left
            refine ⟨h4, h5, ?_⟩
            simp only [dispatch, h4]
            rcases h5 with h | h
            · simp [h]
            · simp [h]
          · right; right; right; right; right; left
            have hs : st.stack ≠ [] := fun h => h5 (Or.inl h)
            have hk : st.key = none := by
              cases hkk : st.key with
              | none => rfl
              | some k => exact absurd (Or.inr (by simp [hkk])) h5
            refine ⟨h4, hs, hk, ?_⟩
            simp only [dispatch, h4]
            simp [hs, hk]
        · by_cases h6 : isdigit (w.headD 0) = true
          · rcases tr_bencParseStr_cases w none none 0 with
              hf | ⟨a, r, hwe, hane, hd, hmax, hr, hok⟩
            · right; right; right; right; right; right; left
              refine ⟨h6, ?_⟩
              simp only [dispatch, h1, h2, h3, h4, h6, if_true, if_false, hf]
              simp [EILSEQ]
            · have hsv : stringView w (some (a.length + 1)) (digitsValue a) =
                  r.take (digitsValue a) := by
                rw [hwe]
                exact stringView_shape a r _
              by_cases h7 : st.key = none ∧ st.stack ≠ [] ∧ backIsDict st.stack = true
              · right; right; right; right; right; right; right; left
                refine ⟨a, r, hwe, hane, hd, hmax, hr, h7.1, h7.2.1, h7.2.2, ?_⟩
                have hc : (st.key.isNone && !st.stack.isEmpty && backIsDict st.stack) = true := by
                  obtain ⟨hk, hs, hb⟩ := h7
                  cases hst : st.stack with
                  | nil => exact absurd hst hs
                  | cons f fs =>
                    rw [hst] at hb
                    simp [hk, hb]
                simp only [dispatch, h1, h2, h3, h4, h6, if_true, if_false, hok]
                simp [hc, hsv, tr_quark_new, h7.2.1]
              · right; right; right; right; right; right; right; right; left
                refine ⟨a, r, hwe, hane, hd, hmax, hr, h7, ?_⟩
                have hc : (st.key.isNone && !st.stack.isEmpty && backIsDict st.stack) = false := by
                  cases hcc : (st.key.isNone && !st.stack.isEmpty && backIsDict st.stack)
                  · rfl
                  · exfalso
                    apply h7
                    simp only [Bool.and_eq_true, Bool.not_eq_true', Option.isNone_iff_eq_none] at hcc
                    refine ⟨hcc.1.1, ?_, hcc.2⟩
                    intro h
                    simp [h] at hcc
                simp only [dispatch, h1, h2, h3, h4, h6, if_true, if_false, hok]
                simp [hc, hsv]
          · right; right; right; right; right; right; right; right; right
            have h6b : isdigit (w.headD 0) = false := by
              cases h : isdigit (w.headD 0)
              · rfl
              · exact absurd h h6
            refine ⟨h1, h2, h3, h4, h6b, ?_⟩
            simp only [dispatch, h1, h2, h3, h4, h6b, if_false]
            simp

/-- What one pass does to the cursor: it never moves back, never leaves the
window, and moves forward unless the pass ends the loop with an error. -/
theorem dispatch_buf (w : Bytes) (st st1 : ParseState) (b : Bool)
    (h : dispatch w st = (st1, b)) (hw : w ≠ []) :
    st.buf ≤ st1.buf ∧ st1.buf ≤ st.buf + w.length ∧
    ((st1.err = 0 ∨ b = false) → st.buf < st1.buf) := by
  have hlen : 0 < w.length := List.length_pos.mpr hw
  have hE : EILSEQ ≠ 0 := by decide
  rcases dispatch_cases w st with
    ⟨_, hd⟩ | ⟨a, r, v, hwe, _, _, hd⟩ | ⟨_, hd⟩ | ⟨_, hd⟩ | ⟨_, _, hd⟩ | ⟨_, _, _, hd⟩ |
    ⟨_, hd⟩ | ⟨a, r, hwe, _, _, _, hr, _, _, _, hd⟩ | ⟨a, r, hwe, _, _, _, hr, _, hd⟩ |
    ⟨_, _, _, _, _, hd⟩
  all_goals rw [hd] at h
  all_goals obtain ⟨rfl, rfl⟩ := Prod.mk.inj h
  · refine ⟨le_refl _, by simp, ?_⟩
    rintro (hh | hh)
    · exact absurd hh hE
    · simp at hh
  · subst hwe
    simp only [placeScalar_buf, List.length_cons, List.length_append]
    omega
  · simp only [openContainer_buf]
    omega
  · simp only [openContainer_buf]
    omega
  · simp only
    omega
  · simp only [pop_back_buf]
    omega
  · refine ⟨le_refl _, by simp, ?_⟩
    rintro (hh | hh)
    · exact absurd hh hE
    · simp at hh
  · subst hwe
    simp only [List.length_cons, List.length_append]
    omega
  · subst hwe
    simp only [placeScalar_buf, List.length_cons, List.length_append]
    omega
  · simp only
    omega

theorem loopBody_buf (x : Bytes) (st st1 : ParseState) (b : Bool)
    (h : loopBody x st = (st1, b)) (hlt : st.buf < x.length) :
    st.buf ≤ st1.buf ∧ st1.buf ≤ x.length ∧ ((st1.err = 0 ∨ b = false) → st.buf < st1.buf) := by
  unfold loopBody at h
  have hng : ¬ st.buf > x.length := by omega
  simp only [hng, if_false] at h
  split_ifs at h with he
  · obtain ⟨rfl, rfl⟩ := Prod.mk.inj h
    refine ⟨le_refl _, by omega, ?_⟩
    intro hh
    rcases hh with hh | hh
    · exact absurd hh he
    · simp at hh
  · have hw : x.drop st.buf ≠ [] := by
      intro hd
      have := congrArg List.length hd
      simp at this
      omega
    have := dispatch_buf _ st st1 b h hw
    simp only [List.length_drop] at this
    refine ⟨this.1, by omega, this.2.2⟩

/-- The loop is left within `x.length - st.buf + 1` passes. -/
theorem parseLoop_total (x : Bytes) (fuel : Nat) (st : ParseState)
    (hle : st.buf ≤ x.length) (hf : x.length - st.buf < fuel) :
    ∃ r, parseLoop x fuel st = some r := by
  induction fuel generalizing st with
  | zero => omega
  | succ f ih =>
    unfold parseLoop
    by_cases heq : st.buf = x.length
    · exact ⟨st, by simp [heq]⟩
    · simp only [heq, if_false]
      have hlt : st.buf < x.length := by omega
      cases hb : loopBody x st with
      | mk st1 b =>
        have hbuf := loopBody_buf x st st1 b hb hlt
        cases b with
        | true => exact ⟨st1, rfl⟩
        | false =>
          have := hbuf.2.2 (Or.inr rfl)
          exact ih st1 hbuf.2.1 (by omega)

/-- More passes than needed change nothing. -/
theorem parseLoop_mono (x : Bytes) (fuel k : Nat) (st r : ParseState)
    (h : parseLoop x fuel st = some r) : parseLoop x (fuel + k) st = some r := by
  induction fuel generalizing st with
  | zero => simp [parseLoop] at h
  | succ f ih =>
    have : f + 1 + k = (f + k) + 1 := by omega
    rw [this]
    unfold parseLoop at h ⊢
    by_cases heq : st.buf = x.length
    · simpa [heq] using h
    · simp only [heq, if_false] at h ⊢
      cases hb : loopBody x st with
      | mk st1 b =>
        rw [hb] at h
        cases b with
        | true => exact h
        | false => exact ih st1 h

/-- The cursor of the state the loop ends in is not before the cursor it
started at, and is inside the window. -/
theorem parseLoop_buf (x : Bytes) (fuel : Nat) (st r : ParseState)
    (h : parseLoop x fuel st = some r) (hle : st.buf ≤ x.length) :
    st.buf ≤ r.buf ∧ r.buf ≤ x.length := by
  induction fuel generalizing st with
  | zero => simp [parseLoop] at h
  | succ f ih =>
    unfold parseLoop at h
    by_cases heq : st.buf = x.length
    · simp only [heq, if_true, Option.some.injEq] at h
      subst h
      omega
    · simp only [heq, if_false] at h
      have hlt : st.buf < x.length := by omega
      cases hb : loopBody x st with
      | mk st1 b =>
        rw [hb] at h
        have hbuf := loopBody_buf x st st1 b hb hlt
        cases b with
        | true =>
          simp only [Option.some.injEq] at h
          subst h
          omega
        | false =>
          have := ih st1 h hbuf.2.1
          omega

/-! ## One pass on a window of known shape -/

theorem dispatch_int_ok (a r : Bytes) (v : Int) (st : ParseState)
    (hne : ∀ b ∈ a, b ≠ 101) (hb : intBody a = some v) :
    dispatch (105 :: (a ++ 101 :: r)) st =
      (placeScalar { st with buf := st.buf + (a.length + 2) } (.int v),
       (placeScalar { st with buf := st.buf + (a.length + 2) } (.int v)).stack.isEmpty) := by
  have hok := tr_bencParseInt_shape a r none 0 hne
  rw [hb] at hok
  simp only [dispatch, List.headD_cons, if_true, hok]
  simp

theorem dispatch_open_list (w : Bytes) (st : ParseState) (h : w.headD 0 = 108) :
    dispatch w st = (openContainer { st with buf := st.buf + 1 } (.list []),
      (openContainer { st with buf := st.buf + 1 } (.list [])).stack.isEmpty) := by
  simp only [dispatch, h]
  simp

theorem dispatch_open_dict (w : Bytes) (st : ParseState) (h : w.headD 0 = 100) :
    dispatch w st = (openContainer { st with buf := st.buf + 1 } (.dict []),
      (openContainer { st with buf := st.buf + 1 } (.dict [])).stack.isEmpty) := by
  simp only [dispatch, h]
  simp

theorem dispatch_close (w : Bytes) (st : ParseState) (h : w.headD 0 = 101)
    (hs : st.stack ≠ []) (hk : st.key = none) :
    dispatch w st = (pop_back { st with buf := st.buf + 1 },
      (pop_back { st with buf := st.buf + 1 }).stack.isEmpty) := by
  simp only [dispatch, h]
  simp [hs, hk]

theorem dispatch_other (w : Bytes) (st : ParseState)
    (h1 : w.headD 0 ≠ 105) (h2 : w.headD 0 ≠ 108) (h3 : w.headD 0 ≠ 100)
    (h4 : w.headD 0 ≠ 101) (h5 : isdigit (w.headD 0) = false) :
    dispatch w st = ({ st with buf := st.buf + 1 }, st.stack.isEmpty) := by
  simp only [dispatch, h1, h2, h3, h4, h5, if_false]
  simp

theorem headD_digits (a : Bytes) (x : Nat) (r : Bytes) (hane : a ≠ [])
    (hd : ∀ b ∈ a, isdigit b = true) :
    isdigit ((a ++ x :: r).headD 0) = true ∧ (a ++ x :: r).headD 0 ≠ 105 ∧
    (a ++ x :: r).headD 0 ≠ 108 ∧ (a ++ x :: r).headD 0 ≠ 100 ∧ (a ++ x :: r).headD 0 ≠ 101 := by
  cases a with
  | nil => exact absurd rfl hane
  | cons b bs =>
    have hb := hd b (List.mem_cons_self _ _)
    have := (isdigit_iff b).mp hb
    simp only [List.cons_append, List.headD_cons]
    refine ⟨hb, ?_, ?_, ?_, ?_⟩ <;> omega

theorem dispatch_str_key (a r : Bytes) (st : ParseState) (hane : a ≠ [])
    (hd : ∀ b ∈ a, isdigit b = true) (hmax : digitsValue a ≤ MAX_BENC_STR_LENGTH)
    (hr : digitsValue a ≤ r.length)
    (hk : st.key = none) (hs : st.stack ≠ []) (hb : backIsDict st.stack = true) :
    dispatch (a ++ 58 :: r) st =
      ({ st with buf := st.buf + (a.length + 1 + digitsValue a),
                 key := some (r.take (digitsValue a)) }, false) := by
  obtain ⟨h6, h1, h2, h3, h4⟩ := headD_digits a 58 r hane hd
  have hok := tr_bencParseStr_shape a r none none 0 hane hd
  rw [if_pos ⟨hmax, hr⟩] at hok
  have hc : (st.key.isNone && !st.stack.isEmpty && backIsDict st.stack) = true := by
    cases hst : st.stack with
    | nil => exact absurd hst hs
    | cons f fs =>
      rw [hst] at hb
      simp [hk, hb]
  simp only [dispatch, h1, h2, h3, h4, h6, if_true, if_false, hok]
  simp [hc, stringView_shape, tr_quark_new, hs]

theorem dispatch_str_value (a r : Bytes) (st : ParseState) (hane : a ≠ [])
    (hd : ∀ b ∈ a, isdigit b = true) (hmax : digitsValue a ≤ MAX_BENC_STR_LENGTH)
    (hr : digitsValue a ≤ r.length)
    (hc : ¬ (st.key = none ∧ st.stack ≠ [] ∧ backIsDict st.stack = true)) :
    dispatch (a ++ 58 :: r) st =
      (placeScalar { st with buf := st.buf + (a.length + 1 + digitsValue a) }
          (.str (r.take (digitsValue a))),
       (placeScalar { st with buf := st.buf + (a.length + 1 + digitsValue a) }
          (.str (r.take (digitsValue a)))).stack.isEmpty) := by
  obtain ⟨h6, h1, h2, h3, h4⟩ := headD_digits a 58 r hane hd
  have hok := tr_bencParseStr_shape a r none none 0 hane hd
  rw [if_pos ⟨hmax, hr⟩] at hok
  have hcb : (st.key.isNone && !st.stack.isEmpty && backIsDict st.stack) = false := by
    cases hcc : (st.key.isNone && !st.stack.isEmpty && backIsDict st.stack)
    · rfl
    · exfalso
      apply hc
      simp only [Bool.and_eq_true, Bool.not_eq_true', Option.isNone_iff_eq_none] at hcc
      refine ⟨hcc.1.1, ?_, hcc.2⟩
      intro h
      simp [h] at hcc
  simp only [dispatch, h1, h2, h3, h4, h6, if_true, if_false, hok]
  simp [hcb, stringView_shape]

/-! ## Bytes behind the cursor of a successful parse are not looked at -/

theorem eq_append_of_take (w p : Bytes) (h : w.take p.length = p) :
    w = p ++ w.drop p.length := by
  conv_lhs => rw [← List.take_append_drop p.length w, h]

theorem take_shape (a r : Bytes) (x n : Nat) :
    (a ++ x :: r).take (a.length + 1 + n) = a ++ x :: r.take n := by
  have h1 : a ++ x :: r = (a ++ [x]) ++ r := by simp
  have h2 : a.length + 1 + n = (a ++ [x]).length + n := by simp
  rw [h1, h2, List.take_append]
  simp

theorem headD_of_take (w w2 : Bytes) (n : Nat) (hn : 0 < n) (hw : w ≠ [])
    (h : w2.take n = w.take n) : w2.headD 0 = w.headD 0 := by
  cases w with
  | nil => exact absurd rfl hw
  | cons c cs =>
    cases n with
    | zero => omega
    | succ m =>
      cases w2 with
      | nil => simp at h
      | cons d ds =>
        simp only [List.take_succ_cons, List.cons.injEq] at h
        simp [h.1]

/-- A pass that ends without error gives the same result on any window
that agrees with the given one up to the new cursor. -/
theorem dispatch_local (w w2 : Bytes) (st st1 : ParseState) (b : Bool)
    (h : dispatch w st = (st1, b)) (hw : w ≠ []) (herr : st1.err = 0)
    (hag : w2.take (st1.buf - st.buf) = w.take (st1.buf - st.buf)) :
    dispatch w2 st = (st1, b) := by
  have hE : EILSEQ ≠ 0 := by decide
  rcases dispatch_cases w st with
    ⟨_, hd⟩ | ⟨a, r, v, hwe, hne, hb, hd⟩ | ⟨h1, hd⟩ | ⟨h1, hd⟩ | ⟨_, _, hd⟩ | ⟨h1, hs, hk, hd⟩ |
    ⟨_, hd⟩ | ⟨a, r, hwe, hane, hdg, hmax, hr, hk, hs, hbk, hd⟩ |
    ⟨a, r, hwe, hane, hdg, hmax, hr, hc, hd⟩ | ⟨h1, h2, h3, h4, h5, hd⟩
  all_goals rw [hd] at h
  all_goals obtain ⟨rfl, rfl⟩ := Prod.mk.inj h
  · exact absurd herr hE
  · simp only [placeScalar_buf, Nat.add_sub_cancel_left] at hag
    subst hwe
    have ht : (105 :: (a ++ 101 :: r)).take (a.length + 2) = 105 :: (a ++ [101]) := by
      have : (105 :: (a ++ 101 :: r)) = (105 :: (a ++ [101])) ++ r := by simp
      rw [this]
      exact List.take_left' (by simp)
    rw [ht] at hag
    have hl : (105 :: (a ++ [101])).length = a.length + 2 := by simp
    rw [← hl] at hag
    have := eq_append_of_take w2 _ hag
    rw [this]
    have hsh : (105 :: (a ++ [101])) ++ w2.drop (105 :: (a ++ [101])).length =
        105 :: (a ++ 101 :: w2.drop (105 :: (a ++ [101])).length) := by simp
    rw [hsh, dispatch_int_ok a _ v st hne hb]
  · simp only [openContainer_buf, Nat.add_sub_cancel_left] at hag
    have := headD_of_take w w2 1 (by omega) hw hag
    rw [dispatch_open_list w2 st (by rw [this, h1])]
  · simp only [openContainer_buf, Nat.add_sub_cancel_left] at hag
    have := headD_of_take w w2 1 (by omega) hw hag
    rw [dispatch_open_dict w2 st (by rw [this, h1])]
  · exact absurd herr hE
  · simp only [pop_back_buf, Nat.add_sub_cancel_left] at hag
    have := headD_of_take w w2 1 (by omega) hw hag
    rw [dispatch_close w2 st (by rw [this, h1]) hs hk]
  · exact absurd herr hE
  · simp only [Nat.add_sub_cancel_left] at hag
    subst hwe
    have ht := take_shape a r 58 (digitsValue a)
    rw [ht] at hag
    have hl : (a ++ 58 :: r.take (digitsValue a)).length = a.length + 1 + digitsValue a := by
      simp only [List.length_append, List.length_cons, List.length_take, Nat.min_eq_left hr]
      omega
    rw [← hl] at hag
    have := eq_append_of_take w2 _ hag
    rw [this]
    have hsh : (a ++ 58 :: r.take (digitsValue a)) ++
        w2.drop (a ++ 58 :: r.take (digitsValue a)).length =
        a ++ 58 :: (r.take (digitsValue a) ++
          w2.drop (a ++ 58 :: r.take (digitsValue a)).length) := by simp
    rw [hsh, dispatch_str_key a _ st hane hdg hmax (by simp; omega) hk hs hbk]
    congr 2
    simp [List.take_append_eq_append_take, hr]
  · simp only [placeScalar_buf, Nat.add_sub_cancel_left] at hag
    subst hwe
    have ht := take_shape a r 58 (digitsValue a)
    rw [ht] at hag
    have hl : (a ++ 58 :: r.take (digitsValue a)).length = a.length + 1 + digitsValue a := by
      simp only [List.length_append, List.length_cons, List.length_take, Nat.min_eq_left hr]
      omega
    rw [← hl] at hag
    have := eq_append_of_take w2 _ hag
    rw [this]
    have hsh : (a ++ 58 :: r.take (digitsValue a)) ++
        w2.drop (a ++ 58 :: r.take (digitsValue a)).length =
        a ++ 58 :: (r.take (digitsValue a) ++
          w2.drop (a ++ 58 :: r.take (digitsValue a)).length) := by simp
    have htk : (r.take (digitsValue a) ++
          w2.drop (a ++ 58 :: r.take (digitsValue a)).length).take (digitsValue a) =
        r.take (digitsValue a) := by
      simp [List.take_append_eq_append_take, hr]
    rw [hsh, dispatch_str_value a _ st hane hdg hmax (by simp; omega) hc, htk]
  · simp only [Nat.add_sub_cancel_left] at hag
    have := headD_of_take w w2 1 (by omega) hw hag
    rw [dispatch_other w2 st (by rw [this]; exact h1) (by rw [this]; exact h2)
      (by rw [this]; exact h3) (by rw [this]; exact h4) (by rw [this]; exact h5)]

theorem loopBody_eq (x : Bytes) (st : ParseState) (hle : st.buf ≤ x.length) (he : st.err = 0) :
    loopBody x st = dispatch (x.drop st.buf) st := by
  have hng : ¬ st.buf > x.length := by omega
  simp [loopBody, hng, he]

theorem loopBody_err (x : Bytes) (st st1 : ParseState) (b : Bool) (he : st.err ≠ 0)
    (h : loopBody x st = (st1, b)) : st1.err ≠ 0 ∧ b = true := by
  unfold loopBody at h
  by_cases hg : st.buf > x.length
  · simp only [hg, if_true] at h
    have hE : EILSEQ ≠ 0 := by decide
    simp only [ne_eq, hE, not_false_eq_true, if_true] at h
    obtain ⟨rfl, rfl⟩ := Prod.mk.inj h
    exact ⟨hE, rfl⟩
  · simp only [hg, if_false, ne_eq, he, not_false_eq_true, if_true] at h
    obtain ⟨rfl, rfl⟩ := Prod.mk.inj h
    exact ⟨he, rfl⟩

theorem drop_ne_nil (x : Bytes) (k : Nat) (h : k < x.length) : x.drop k ≠ [] := by
  intro hd
  have := congrArg List.length hd
  simp at this
  omega

theorem isEmpty_false {α : Type} (l : List α) (h : l.isEmpty = false) : l ≠ [] := by
  intro hn
  rw [hn] at h
  simp at h

/-- A pass that does not leave the loop leaves a container open. -/
theorem dispatch_continue_stack (w : Bytes) (st st1 : ParseState)
    (h : dispatch w st = (st1, false)) : st1.stack ≠ [] := by
  rcases dispatch_cases w st with
    ⟨_, hd⟩ | ⟨a, r, v, _, _, _, hd⟩ | ⟨_, hd⟩ | ⟨_, hd⟩ | ⟨_, _, hd⟩ | ⟨_, _, _, hd⟩ |
    ⟨_, hd⟩ | ⟨a, r, _, _, _, _, _, _, hs, _, hd⟩ | ⟨a, r, _, _, _, _, _, _, hd⟩ |
    ⟨_, _, _, _, _, hd⟩
  all_goals rw [hd] at h
  all_goals obtain ⟨h1, h2⟩ := Prod.mk.inj h
  · exact Bool.noConfusion h2
  · subst h1
    exact isEmpty_false _ h2
  · subst h1
    exact isEmpty_false _ h2
  · subst h1
    exact isEmpty_false _ h2
  · exact Bool.noConfusion h2
  · subst h1
    exact isEmpty_false _ h2
  · exact Bool.noConfusion h2
  · subst h1
    exact hs
  · subst h1
    exact isEmpty_false _ h2
  · subst h1
    exact isEmpty_false _ h2

theorem parseLoop_err (x : Bytes) (fuel : Nat) (st r : ParseState)
    (h : parseLoop x fuel st = some r) (he : st.err ≠ 0) : r.err ≠ 0 := by
  cases fuel with
  | zero => simp [parseLoop] at h
  | succ f =>
    unfold parseLoop at h
    by_cases heq : st.buf = x.length
    · simp only [heq, if_true, Option.some.injEq] at h
      subst h
      exact he
    · simp only [heq, if_false] at h
      cases hb : loopBody x st with
      | mk st1 b =>
        rw [hb] at h
        obtain ⟨h1, h2⟩ := loopBody_err x st st1 b he hb
        subst h2
        simp only [Option.some.injEq] at h
        subst h
        exact h1

theorem take_drop_agree (x x2 : Bytes) (k m : Nat) (h : x2.take m = x.take m) :
    (x2.drop k).take (m - k) = (x.drop k).take (m - k) := by
  rw [← List.drop_take, ← List.drop_take, h]

theorem take_agree_le (x x2 : Bytes) (k m : Nat) (hk : k ≤ m) (h : x2.take m = x.take m) :
    x2.take k = x.take k := by
  have := congrArg (List.take k) h
  simpa [List.take_take, Nat.min_eq_left hk] using this

/-- A run of the loop that ends in success runs the same way on any input
that agrees with the given one up to the final cursor. -/
theorem parseLoop_local (x x2 : Bytes) (fuel : Nat) (st r : ParseState)
    (h : parseLoop x fuel st = some r) (hr : r.err = 0) (hrs : r.stack = [])
    (hrt : r.top.isUnset = false)
    (hhead : st.stack ≠ [] ∨ st.top.isUnset = true) (hle : st.buf ≤ x.length)
    (hag : x2.take r.buf = x.take r.buf) (hlen : r.buf ≤ x2.length) :
    parseLoop x2 fuel st = some r := by
  induction fuel generalizing st with
  | zero => simp [parseLoop] at h
  | succ f ih =>
    unfold parseLoop at h ⊢
    by_cases heq : st.buf = x.length
    · simp only [heq, if_true, Option.some.injEq] at h
      subst h
      rcases hhead with hh | hh
      · exact absurd hrs hh
      · rw [hh] at hrt
        exact absurd hrt (by simp)
    · simp only [heq, if_false] at h
      have hlt : st.buf < x.length := by omega
      have he : st.err = 0 := by
        by_contra hne
        exact parseLoop_err x (f + 1) st r (by unfold parseLoop; simpa [heq] using h) hne hr
      cases hb : loopBody x st with
      | mk st1 b =>
        rw [hb] at h
        have hbuf := loopBody_buf x st st1 b hb hlt
        rw [loopBody_eq x st hle he] at hb
        have hw := drop_ne_nil x st.buf hlt
        cases b with
        | true =>
          simp only [Option.some.injEq] at h
          subst h
          have hadv := hbuf.2.2 (Or.inl hr)
          have h2 : dispatch (x2.drop st.buf) st = (st1, true) :=
            dispatch_local _ _ st st1 true hb hw hr (take_drop_agree x x2 _ _ hag)
          have hne : st.buf ≠ x2.length := by omega
          simp only [hne, if_false]
          rw [loopBody_eq x2 st (by omega) he, h2]
        | false =>
          simp only at h
          have hadv := hbuf.2.2 (Or.inr rfl)
          have hs1 := dispatch_continue_stack _ st st1 hb
          have he1 : st1.err = 0 := by
            by_contra hne
            exact parseLoop_err x f st1 r h hne hr
          have hb1 := parseLoop_buf x f st1 r h hbuf.2.1
          have hag1 := take_agree_le x x2 st1.buf r.buf hb1.1 hag
          have h2 : dispatch (x2.drop st.buf) st = (st1, false) :=
            dispatch_local _ _ st st1 false hb hw he1 (take_drop_agree x x2 _ _ hag1)
          have hne : st.buf ≠ x2.length := by omega
          simp only [hne, if_false]
          rw [loopBody_eq x2 st (by omega) he, h2]
          exact ih st1 h (Or.inl hs1) hbuf.2.1

/-- What `tr_variantParseBenc` returns, from the state the loop ends in. -/
theorem tr_variantParseBenc_of_loop (x : Bytes) (e0 : Option Nat) (r : ParseState)
    (h : parseLoop x (x.length + 1) initState = some r) :
    tr_variantParseBenc x e0 =
      some (if r.err = 0 ∧ r.top.isUnset = false ∧ r.stack.isEmpty = true then
              ⟨0, r.top, some r.buf⟩
            else ⟨if r.err = 0 then EILSEQ else r.err, .unset, e0⟩) := by
  have hE : EILSEQ ≠ 0 := by decide
  unfold tr_variantParseBenc
  rw [h]
  by_cases he : r.err = 0
  · cases ht : r.top.isUnset
    · cases hs : r.stack.isEmpty
      · simp [he, ht, hs, hE]
      · simp [he, ht, hs]
    · simp [he, ht, hE]
  · simp [he]

/-- The loop always ends within the passes `tr_variantParseBenc` allows. -/
theorem parseLoop_initState (x : Bytes) : ∃ r, parseLoop x (x.length + 1) initState = some r :=
  parseLoop_total x (x.length + 1) initState (by simp [initState]) (by simp [initState])

/-- An accepted input: the loop ended without error, with the top set and
no container open. -/
theorem tr_variantParseBenc_accept (x : Bytes) (e0 : Option Nat) (t : Variant) (e : Nat)
    (h : tr_variantParseBenc x e0 = some ⟨0, t, some e⟩) :
    ∃ r, parseLoop x (x.length + 1) initState = some r ∧ r.err = 0 ∧
      r.top.isUnset = false ∧ r.stack = [] ∧ r.top = t ∧ r.buf = e := by
  obtain ⟨r, hr⟩ := parseLoop_initState x
  rw [tr_variantParseBenc_of_loop x e0 r hr] at h
  refine ⟨r, hr, ?_⟩
  by_cases hc : r.err = 0 ∧ r.top.isUnset = false ∧ r.stack.isEmpty = true
  · rw [if_pos hc] at h
    simp only [Option.some.injEq, ParseBencResult.mk.injEq, true_and] at h
    exact ⟨hc.1, hc.2.1, List.isEmpty_iff.mp hc.2.2, h.1, h.2⟩
  · rw [if_neg hc] at h
    simp only [Option.some.injEq, ParseBencResult.mk.injEq] at h
    have hE : EILSEQ ≠ 0 := by decide
    exfalso
    by_cases he : r.err = 0
    · rw [if_pos he] at h
      exact hE h.1
    · rw [if_neg he] at h
      exact he h.1

/-- The converse: from the state the loop ends in to the result. -/
theorem tr_variantParseBenc_of_success (x : Bytes) (e0 : Option Nat) (fuel : Nat) (r : ParseState)
    (h : parseLoop x fuel initState = some r) (he : r.err = 0) (ht : r.top.isUnset = false)
    (hs : r.stack = []) : tr_variantParseBenc x e0 = some ⟨0, r.top, some r.buf⟩ := by
  obtain ⟨r2, hr2⟩ := parseLoop_initState x
  have h1 := parseLoop_mono x fuel (x.length + 1) initState r h
  have h2 := parseLoop_mono x (x.length + 1) fuel initState r2 hr2
  rw [Nat.add_comm] at h2
  rw [h1] at h2
  simp only [Option.some.injEq] at h2
  subst h2
  rw [tr_variantParseBenc_of_loop x e0 r hr2, if_pos ⟨he, ht, List.isEmpty_iff.mpr hs⟩]

/-- Claim C2: trailing bytes after a complete top-level value are never an
error. When `x` is accepted with tree `t` and end offset `e`, the first `e`
bytes of `x` followed by any bytes `s` are accepted with the same tree and
the same end offset; `leee` yields an empty list with end offset 2. -/
theorem tr_variantParseBenc_trailing (x s : Bytes) (e0 e1 : Option Nat) (t : Variant) (e : Nat)
    (h : tr_variantParseBenc x e0 = some ⟨0, t, some e⟩) :
    tr_variantParseBenc (x.take e ++ s) e1 = some ⟨0, t, some e⟩ ∧
    tr_variantParseBenc (bytes "leee") e1 = some ⟨0, .list [], some 2⟩ := by
  refine ⟨?_, rfl⟩
  obtain ⟨r, hr, he, ht, hs, rfl, rfl⟩ := tr_variantParseBenc_accept x e0 t e h
  have hb := parseLoop_buf x _ initState r hr (by simp [initState])
  have hag : (x.take r.buf ++ s).take r.buf = x.take r.buf := by
    rw [List.take_append_of_le_length (by simp; exact hb.2)]
    simp [List.take_take]
  have hlen : r.buf ≤ (x.take r.buf ++ s).length := by
    simp [Nat.min_eq_left hb.2]
  have := parseLoop_local x (x.take r.buf ++ s) _ initState r hr he hs ht
    (Or.inr rfl) (by simp [initState]) hag hlen
  exact tr_variantParseBenc_of_success _ e1 _ r this he ht hs

theorem tr_variantParseBenc_trailing_witness :
    tr_variantParseBenc (bytes "li1ee") none = some ⟨0, .list [.int 1], some 5⟩ ∧
    tr_variantParseBenc ((bytes "li1ee").take 5 ++ bytes "e4:spam") none =
      some ⟨0, .list [.int 1], some 5⟩ :=
  ⟨rfl, (tr_variantParseBenc_trailing (bytes "li1ee") (bytes "e4:spam") none none
      (.list [.int 1]) 5 rfl).1⟩

/-! ## The parser on the plain encoding of a tree -/

theorem parseLoop_succ (x : Bytes) (fuel : Nat) (st : ParseState) :
    parseLoop x (fuel + 1) st =
      if st.buf = x.length then some st
      else
        match loopBody x st with
        | (st1, true) => some st1
        | (st1, false) => parseLoop x fuel st1 := rfl

theorem lt_of_drop_ne_nil (x : Bytes) (k : Nat) (h : x.drop k ≠ []) : k < x.length := by
  by_contra hn
  exact h (List.drop_eq_nil_of_le (by omega))

theorem Advance.refl (x : Bytes) (st : ParseState) : Advance x st st :=
  ⟨0, fun fuel => by rw [Nat.zero_add]⟩

theorem Advance.trans (x : Bytes) (st1 st2 st3 : ParseState)
    (h1 : Advance x st1 st2) (h2 : Advance x st2 st3) : Advance x st1 st3 := by
  obtain ⟨n1, hn1⟩ := h1
  obtain ⟨n2, hn2⟩ := h2
  refine ⟨n1 + n2, fun fuel => ?_⟩
  rw [Nat.add_assoc, hn1, hn2]

/-- One pass that does not leave the loop. -/
theorem Advance.step (x : Bytes) (st st2 : ParseState) (hw : x.drop st.buf ≠ [])
    (he : st.err = 0) (hd : dispatch (x.drop st.buf) st = (st2, false)) : Advance x st st2 := by
  have hlt := lt_of_drop_ne_nil x st.buf hw
  refine ⟨1, fun fuel => ?_⟩
  rw [Nat.add_comm, parseLoop_succ, if_neg (by omega), loopBody_eq x st (by omega) he, hd]

/-- Passes that do not leave the loop followed by one that does. -/
theorem Advance.finish (x : Bytes) (st st2 r : ParseState) (h : Advance x st st2)
    (hw : x.drop st2.buf ≠ []) (he : st2.err = 0)
    (hd : dispatch (x.drop st2.buf) st2 = (r, true)) :
    ∃ fuel, parseLoop x fuel st = some r := by
  have hlt := lt_of_drop_ne_nil x st2.buf hw
  obtain ⟨n, hn⟩ := h
  refine ⟨n + 1, ?_⟩
  rw [hn, parseLoop_succ, if_neg (by omega), loopBody_eq x st2 (by omega) he, hd]

theorem drop_add (x w : Bytes) (k n : Nat) (h : x.drop k = w) : x.drop (k + n) = w.drop n := by
  rw [← h, List.drop_drop, Nat.add_comm]

theorem drop_append_length (p r : Bytes) (n : Nat) (h : p.length = n) :
    (p ++ r).drop n = r := List.drop_left' h

/-- In a state that can take a value, `get_node` hands out a child slot,
clears the key and reports no error. -/
theorem Ready.get_node (st : ParseState) (h : Ready st) :
    ∃ slot, slot ≠ Slot.top ∧ get_node st.stack st.key st.err = (some slot, none, 0) := by
  obtain ⟨he, f, fs, hs, hc⟩ := h
  rcases hc with ⟨l, hl, hk⟩ | ⟨l, k, hl, hk⟩
  · refine ⟨Slot.listChild, by simp, ?_⟩
    rw [hs, hk, he]
    simp [Benc.get_node, hl, tr_variantIsList]
  · refine ⟨Slot.dictChild k, by simp, ?_⟩
    rw [hs, hk, he]
    simp [Benc.get_node, hl, tr_variantIsList, tr_variantIsDict]

theorem Ready.stack_ne (st : ParseState) (h : Ready st) : st.stack ≠ [] := by
  obtain ⟨_, f, fs, hs, _⟩ := h
  rw [hs]
  simp

/-- No string becomes a key in a state that can take a value. -/
theorem Ready.not_key (st : ParseState) (h : Ready st) :
    ¬ (st.key = none ∧ st.stack ≠ [] ∧ backIsDict st.stack = true) := by
  obtain ⟨_, f, fs, hs, hc⟩ := h
  rintro ⟨hk, _, hb⟩
  rcases hc with ⟨l, hl, _⟩ | ⟨l, k, _, hk2⟩
  · rw [hs] at hb
    simp [backIsDict, hl, tr_variantIsDict] at hb
  · rw [hk] at hk2
    exact absurd hk2 (by simp)

/-- After a value is placed the parser is again inside the same container,
with no key pending. -/
theorem placeScalar_ready (st : ParseState) (u : Variant) (h : Ready st) :
    (placeScalar st u).err = 0 ∧ (placeScalar st u).key = none ∧
    (placeScalar st u).stack ≠ [] := by
  obtain ⟨slot, _, hg⟩ := Ready.get_node st h
  have hne := Ready.stack_ne st h
  unfold placeScalar
  rw [hg]
  simp only
  refine ⟨by rw [initNode_err], by rw [initNode_key], ?_⟩
  intro hn
  have := initNode_stack_length { st with key := none, err := 0 } slot u
  rw [hn] at this
  simp only [List.length_nil] at this
  exact hne (List.length_eq_zero.mp this.symm)

theorem bencode_int (i : Int) : bencode (.int i) = 105 :: (printInt i ++ [101]) := by
  simp [bencode]

theorem bencode_str (t : Bytes) : bencode (.str t) = decimal t.length ++ 58 :: t := by
  simp [bencode]

theorem bencode_list (l : List Variant) : bencode (.list l) = 108 :: (bencodeList l ++ [101]) := by
  simp [bencode]

theorem bencode_dict (l : List (Key × Variant)) :
    bencode (.dict l) = 100 :: (bencodeDict l ++ [101]) := by
  simp [bencode]

theorem bencodeList_cons (v : Variant) (vs : List Variant) :
    bencodeList (v :: vs) = bencode v ++ bencodeList vs := by
  simp [bencodeList]

theorem bencodeDict_cons (k : Key) (v : Variant) (l : List (Key × Variant)) :
    bencodeDict ((k, v) :: l) = decimal k.length ++ 58 :: (k ++ (bencode v ++ bencodeDict l)) := by
  simp [bencodeDict]

theorem placeScalar_of_get_node (st : ParseState) (u : Variant) (slot : Slot)
    (hg : get_node st.stack st.key st.err = (some slot, none, 0)) :
    placeScalar st u = initNode { st with key := none, err := 0 } slot u := by
  unfold placeScalar
  rw [hg]

theorem openContainer_of_get_node (st : ParseState) (e : Variant) (slot : Slot)
    (hg : get_node st.stack st.key st.err = (some slot, none, 0)) (hs : slot ≠ Slot.top) :
    openContainer st e =
      { st with key := none, err := 0, stack := { node := e, slot := slot } :: st.stack } := by
  unfold openContainer
  rw [hg]
  cases slot with
  | top => exact absurd rfl hs
  | listChild => rfl
  | dictChild k => rfl

theorem placeScalar_list (st : ParseState) (u : Variant) (l0 : List Variant) (sl : Slot)
    (fs : List Frame) (he : st.err = 0) (hs : st.stack = ⟨.list l0, sl⟩ :: fs)
    (hk : st.key = none) :
    placeScalar st u = { st with stack := ⟨.list (l0 ++ [u]), sl⟩ :: fs } := by
  obtain ⟨buf, stack, key, top, err⟩ := st
  simp only at he hs hk
  subst he hs hk
  simp [placeScalar, get_node, tr_variantIsList, initNode, tr_variantListAdd]

theorem placeScalar_dict (st : ParseState) (u : Variant) (l0 : List (Key × Variant)) (sl : Slot)
    (fs : List Frame) (k : Key) (he : st.err = 0) (hs : st.stack = ⟨.dict l0, sl⟩ :: fs)
    (hk : st.key = some k) :
    placeScalar st u = { st with key := none, stack := ⟨.dict (l0 ++ [(k, u)]), sl⟩ :: fs } := by
  obtain ⟨buf, stack, key, top, err⟩ := st
  simp only at he hs hk
  subst he hs hk
  simp [placeScalar, get_node, tr_variantIsList, tr_variantIsDict, initNode, tr_variantDictAdd]

theorem Ready.of_list (st : ParseState) (l0 : List Variant) (sl : Slot) (fs : List Frame)
    (he : st.err = 0) (hs : st.stack = ⟨.list l0, sl⟩ :: fs) (hk : st.key = none) : Ready st :=
  ⟨he, ⟨.list l0, sl⟩, fs, hs, Or.inl ⟨l0, rfl, hk⟩⟩

theorem Ready.of_dict (st : ParseState) (l0 : List (Key × Variant)) (sl : Slot) (fs : List Frame)
    (k : Key) (he : st.err = 0) (hs : st.stack = ⟨.dict l0, sl⟩ :: fs) (hk : st.key = some k) :
    Ready st :=
  ⟨he, ⟨.dict l0, sl⟩, fs, hs, Or.inr ⟨l0, k, rfl, hk⟩⟩

/-- An integer inside a container is taken in one pass. -/
theorem value_adv_int (i : Int) (hlo : INT64_MIN ≤ i) (hhi : i ≤ INT64_MAX)
    (x : Bytes) (st : ParseState) (rest : Bytes) (hr : Ready st)
    (hw : x.drop st.buf = bencode (.int i) ++ rest) :
    Advance x st (placeScalar { st with buf := st.buf + (bencode (.int i)).length } (.int i)) := by
  have hw2 : x.drop st.buf = 105 :: (printInt i ++ 101 :: rest) := by
    rw [hw, bencode_int]
    simp
  have hlen : (bencode (.int i)).length = (printInt i).length + 2 := by
    rw [bencode_int]
    simp
  have hd := dispatch_int_ok (printInt i) rest i st (printInt_no_e i) (intBody_printInt i hlo hhi)
  rw [← hw2] at hd
  have hrd := placeScalar_ready { st with buf := st.buf + ((printInt i).length + 2) } (.int i) hr
  have hfl : (placeScalar { st with buf := st.buf + ((printInt i).length + 2) }
      (.int i)).stack.isEmpty = false := by
    cases hc : (placeScalar { st with buf := st.buf + ((printInt i).length + 2) } (.int i)).stack
    · exact absurd hc hrd.2.2
    · rfl
  rw [hfl] at hd
  rw [hlen]
  exact Advance.step x st _ (by rw [hw2]; simp) hr.1 hd

/-- A string inside a list, or as the value of a pending key, is taken in
one pass. -/
theorem value_adv_str (t : Bytes) (ht : t.length ≤ MAX_BENC_STR_LENGTH)
    (x : Bytes) (st : ParseState) (rest : Bytes) (hr : Ready st)
    (hw : x.drop st.buf = bencode (.str t) ++ rest) :
    Advance x st (placeScalar { st with buf := st.buf + (bencode (.str t)).length } (.str t)) := by
  have hw2 : x.drop st.buf = decimal t.length ++ 58 :: (t ++ rest) := by
    rw [hw, bencode_str]
    simp
  have hlen : (bencode (.str t)).length = (decimal t.length).length + 1 + t.length := by
    rw [bencode_str]
    simp
    omega
  have hd := dispatch_str_value (decimal t.length) (t ++ rest) st (decimal_ne_nil _)
    (decimal_digits _) (by rw [digitsValue_decimal]; exact ht)
    (by rw [digitsValue_decimal]; simp) (Ready.not_key st hr)
  rw [← hw2, digitsValue_decimal] at hd
  have htk : (t ++ rest).take t.length = t := List.take_left' rfl
  rw [htk] at hd
  have hrd := placeScalar_ready
    { st with buf := st.buf + ((decimal t.length).length + 1 + t.length) } (.str t) hr
  have hfl : (placeScalar { st with buf := st.buf + ((decimal t.length).length + 1 + t.length) }
      (.str t)).stack.isEmpty = false := by
    cases hc : (placeScalar { st with buf := st.buf + ((decimal t.length).length + 1 + t.length) }
      (.str t)).stack
    · exact absurd hc hrd.2.2
    · rfl
  rw [hfl] at hd
  rw [hlen]
  refine Advance.step x st _ ?_ hr.1 hd
  rw [hw2]
  have := decimal_ne_nil t.length
  simp [this]

theorem pop_back_cons (st : ParseState) (f : Frame) (fs : List Frame) (h : st.stack = f :: fs) :
    pop_back st = initNode { st with stack := fs } f.slot f.node := by
  unfold pop_back
  rw [h]

theorem initNode_stack_ne (st : ParseState) (slot : Slot) (v : Variant) (h : st.stack ≠ []) :
    (initNode st slot v).stack.isEmpty = false := by
  cases hc : (initNode st slot v).stack with
  | nil =>
    have := initNode_stack_length st slot v
    rw [hc] at this
    exact absurd (List.length_eq_zero.mp this.symm) h
  | cons a b => rfl

/-- A container inside a container: opened by one pass, filled by the
passes for its children, closed by one pass. -/
theorem value_adv_container (x : Bytes) (st : ParseState) (rest : Bytes) (hr : Ready st)
    (c : Bytes) (o : Nat) (empty full : Variant)
    (hw : x.drop st.buf = o :: (c ++ 101 :: rest))
    (hopen : ∀ st1 : ParseState, dispatch (o :: (c ++ 101 :: rest)) st1 =
      (openContainer { st1 with buf := st1.buf + 1 } empty,
       (openContainer { st1 with buf := st1.buf + 1 } empty).stack.isEmpty))
    (hfill : ∀ (slot : Slot) (st1 : ParseState), st1.err = 0 → st1.key = none →
      st1.stack = ⟨empty, slot⟩ :: st.stack → st1.buf = st.buf + 1 →
      Advance x st1 { st1 with buf := st1.buf + c.length, stack := ⟨full, slot⟩ :: st.stack }) :
    Advance x st (placeScalar { st with buf := st.buf + (c.length + 2) } full) := by
  obtain ⟨slot, hslot, hg⟩ := Ready.get_node st hr
  have hne := Ready.stack_ne st hr
  -- the opening pass
  have hd1 := hopen st
  rw [openContainer_of_get_node { st with buf := st.buf + 1 } empty slot hg hslot] at hd1
  simp only [List.isEmpty_cons] at hd1
  rw [← hw] at hd1
  have h1 := Advance.step x st _ (by rw [hw]; simp) hr.1 hd1
  -- the children
  have h2 := hfill slot
    { buf := st.buf + 1, stack := ⟨empty, slot⟩ :: st.stack, key := none, top := st.top,
      err := 0 } rfl rfl rfl rfl
  simp only at h2
  -- the closing pass
  have hw3 : x.drop (st.buf + 1 + c.length) = 101 :: rest := by
    have := drop_add x _ st.buf (1 + c.length) hw
    rw [← Nat.add_assoc] at this
    rw [this]
    have h3 : (o :: (c ++ 101 :: rest)) = (o :: c) ++ (101 :: rest) := by simp
    rw [h3]
    exact drop_append_length _ _ _ (by simp; omega)
  have hd3 := dispatch_close (101 :: rest)
    { buf := st.buf + 1 + c.length, stack := ⟨full, slot⟩ :: st.stack, key := none,
      top := st.top, err := 0 } rfl (by simp) rfl
  rw [pop_back_cons _ ⟨full, slot⟩ st.stack rfl] at hd3
  simp only at hd3
  rw [initNode_stack_ne
    { buf := st.buf + 1 + c.length + 1, stack := st.stack, key := none, top := st.top, err := 0 }
    slot full hne] at hd3
  have h3 := Advance.step x
    { buf := st.buf + 1 + c.length, stack := ⟨full, slot⟩ :: st.stack, key := none,
      top := st.top, err := 0 } _ (by simp only; rw [hw3]; simp) rfl
    (by simp only; rw [hw3]; exact hd3)
  have hfin := Advance.trans x _ _ _ h1 (Advance.trans x _ _ _ h2 h3)
  rw [placeScalar_of_get_node { st with buf := st.buf + (c.length + 2) } full slot hg]
  have hb : st.buf + 1 + c.length + 1 = st.buf + (c.length + 2) := by omega
  rw [hb] at hfin
  exact hfin

theorem value_adv_list (x : Bytes) (l : List Variant) (ih : ListAdv x l) :
    ValueAdv x (.list l) := by
  intro st rest hr hw
  have hw2 : x.drop st.buf = 108 :: (bencodeList l ++ 101 :: rest) := by
    rw [hw, bencode_list]
    simp
  have hlen : (bencode (.list l)).length = (bencodeList l).length + 2 := by
    rw [bencode_list]
    simp
  rw [hlen]
  refine value_adv_container x st rest hr (bencodeList l) 108 (.list []) (.list l) hw2
    (fun st1 => dispatch_open_list _ st1 rfl) ?_
  intro slot st1 he hk hs hb
  have hw3 : x.drop st1.buf = bencodeList l ++ 101 :: rest := by
    rw [hb, drop_add x _ st.buf 1 hw2]
    rfl
  have := ih st1 [] slot st.stack (101 :: rest) he hs hk hw3
  simpa using this

theorem value_adv_dict (x : Bytes) (l : List (Key × Variant)) (ih : DictAdv x l) :
    ValueAdv x (.dict l) := by
  intro st rest hr hw
  have hw2 : x.drop st.buf = 100 :: (bencodeDict l ++ 101 :: rest) := by
    rw [hw, bencode_dict]
    simp
  have hlen : (bencode (.dict l)).length = (bencodeDict l).length + 2 := by
    rw [bencode_dict]
    simp
  rw [hlen]
  refine value_adv_container x st rest hr (bencodeDict l) 100 (.dict []) (.dict l) hw2
    (fun st1 => dispatch_open_dict _ st1 rfl) ?_
  intro slot st1 he hk hs hb
  have hw3 : x.drop st1.buf = bencodeDict l ++ 101 :: rest := by
    rw [hb, drop_add x _ st.buf 1 hw2]
    rfl
  have := ih st1 [] slot st.stack (101 :: rest) he hs hk hw3
  simpa using this

theorem list_adv_nil (x : Bytes) : ListAdv x [] := by
  intro st l0 sl fs rest he hs hk hw
  have : ({ st with buf := st.buf + (bencodeList []).length,
                    stack := ⟨.list (l0 ++ []), sl⟩ :: fs } : ParseState) = st := by
    obtain ⟨buf, stack, key, top, err⟩ := st
    simp only at hs
    subst hs
    simp [bencodeList]
  rw [this]
  exact Advance.refl x st

theorem list_adv_cons (x : Bytes) (v : Variant) (vs : List Variant)
    (ihv : ValueAdv x v) (ihvs : ListAdv x vs) : ListAdv x (v :: vs) := by
  intro st l0 sl fs rest he hs hk hw
  rw [bencodeList_cons, List.append_assoc] at hw
  have h1 := ihv st _ (Ready.of_list st l0 sl fs he hs hk) hw
  rw [placeScalar_list { st with buf := st.buf + (bencode v).length } v l0 sl fs he hs hk] at h1
  have hw2 : x.drop (st.buf + (bencode v).length) = bencodeList vs ++ rest := by
    rw [drop_add x _ st.buf _ hw]
    exact drop_append_length _ _ _ rfl
  have h2 := ihvs
    { buf := st.buf + (bencode v).length, stack := ⟨.list (l0 ++ [v]), sl⟩ :: fs,
      key := st.key, top := st.top, err := st.err } (l0 ++ [v]) sl fs rest he rfl hk hw2
  have h3 := Advance.trans x _ _ _ h1 h2
  simp only [List.append_assoc, List.singleton_append] at h3
  have hb : st.buf + (bencode v).length + (bencodeList vs).length =
      st.buf + (bencodeList (v :: vs)).length := by
    rw [bencodeList_cons]
    simp
    omega
  rw [hb] at h3
  exact h3

theorem dict_adv_nil (x : Bytes) : DictAdv x [] := by
  intro st l0 sl fs rest he hs hk hw
  have : ({ st with buf := st.buf + (bencodeDict []).length,
                    stack := ⟨.dict (l0 ++ []), sl⟩ :: fs } : ParseState) = st := by
    obtain ⟨buf, stack, key, top, err⟩ := st
    simp only at hs
    subst hs
    simp [bencodeDict]
  rw [this]
  exact Advance.refl x st

theorem dict_adv_cons (x : Bytes) (k : Key) (v : Variant) (l : List (Key × Variant))
    (hk : k.length ≤ MAX_BENC_STR_LENGTH)
    (ihv : ValueAdv x v) (ihl : DictAdv x l) : DictAdv x ((k, v) :: l) := by
  intro st l0 sl fs rest he hs hkey hw
  rw [bencodeDict_cons] at hw
  have hw1 : x.drop st.buf = decimal k.length ++ 58 :: (k ++ (bencode v ++ (bencodeDict l ++ rest))) := by
    rw [hw]
    simp
  -- the key
  have hd := dispatch_str_key (decimal k.length) (k ++ (bencode v ++ (bencodeDict l ++ rest))) st
    (decimal_ne_nil _) (decimal_digits _) (by rw [digitsValue_decimal]; exact hk)
    (by rw [digitsValue_decimal]; simp) hkey (by rw [hs]; simp)
    (by rw [hs]; simp [backIsDict, tr_variantIsDict])
  rw [← hw1, digitsValue_decimal] at hd
  have htk : (k ++ (bencode v ++ (bencodeDict l ++ rest))).take k.length = k :=
    List.take_left' rfl
  rw [htk] at hd
  have h1 := Advance.step x st _
    (by rw [hw1]; have := decimal_ne_nil k.length; simp [this]) he hd
  -- the value
  have hw2 : x.drop (st.buf + ((decimal k.length).length + 1 + k.length)) =
      bencode v ++ (bencodeDict l ++ rest) := by
    rw [drop_add x _ st.buf _ hw1]
    have h3 : decimal k.length ++ 58 :: (k ++ (bencode v ++ (bencodeDict l ++ rest))) =
        (decimal k.length ++ 58 :: k) ++ (bencode v ++ (bencodeDict l ++ rest)) := by simp
    rw [h3]
    exact drop_append_length _ _ _ (by simp; omega)
  have h2 := ihv
    { buf := st.buf + ((decimal k.length).length + 1 + k.length), stack := st.stack,
      key := some k, top := st.top, err := st.err } _
    (Ready.of_dict _ l0 sl fs k he hs rfl) hw2
  simp only at h2
  rw [placeScalar_dict
    { buf := st.buf + ((decimal k.length).length + 1 + k.length) + (bencode v).length,
      stack := st.stack, key := some k, top := st.top, err := st.err }
    v l0 sl fs k he hs rfl] at h2
  -- the other entries
  have hw3 : x.drop (st.buf + ((decimal k.length).length + 1 + k.length) + (bencode v).length) =
      bencodeDict l ++ rest := by
    rw [drop_add x _ _ _ hw2]
    exact drop_append_length _ _ _ rfl
  have h3 := ihl
    { buf := st.buf + ((decimal k.length).length + 1 + k.length) + (bencode v).length,
      stack := ⟨.dict (l0 ++ [(k, v)]), sl⟩ :: fs, key := none, top := st.top, err := st.err }
    (l0 ++ [(k, v)]) sl fs rest he rfl rfl hw3
  have h4 := Advance.trans x _ _ _ h1 (Advance.trans x _ _ _ h2 h3)
  simp only [List.append_assoc, List.singleton_append] at h4
  have hb : st.buf + ((decimal k.length).length + 1 + k.length) + (bencode v).length +
      (bencodeDict l).length = st.buf + (bencodeDict ((k, v) :: l)).length := by
    rw [bencodeDict_cons]
    simp
    omega
  rw [hb] at h4
  have hst : ({ st with buf := st.buf + (bencodeDict ((k, v) :: l)).length,
                        stack := ⟨.dict (l0 ++ (k, v) :: l), sl⟩ :: fs } : ParseState) =
      { buf := st.buf + (bencodeDict ((k, v) :: l)).length,
        stack := ⟨.dict (l0 ++ (k, v) :: l), sl⟩ :: fs, key := none, top := st.top,
        err := st.err } := by
    rw [← hkey]
  rw [hst]
  exact h4

theorem allNodes_list (p : Variant → Bool) (l : List Variant) :
    Variant.allNodes p (.list l) = (p (.list l) && allNodesList p l) := by
  simp [Variant.allNodes]

theorem allNodes_dict (p : Variant → Bool) (l : List (Key × Variant)) :
    Variant.allNodes p (.dict l) = (p (.dict l) && allNodesDict p l) := by
  simp [Variant.allNodes]

theorem allNodesList_cons (p : Variant → Bool) (v : Variant) (vs : List Variant) :
    allNodesList p (v :: vs) = (Variant.allNodes p v && allNodesList p vs) := by
  simp [allNodesList]

theorem allNodesDict_cons (p : Variant → Bool) (k : Key) (v : Variant)
    (l : List (Key × Variant)) :
    allNodesDict p ((k, v) :: l) = (Variant.allNodes p v && allNodesDict p l) := by
  simp [allNodesDict]

mutual
/-- Every tree of the grammar with 64-bit integers, encoded at the cursor
inside a container that can take a value, is rebuilt in place. -/
theorem valueAdv_of (x : Bytes) : ∀ (u : Variant), u.allNodes bencNode = true →
    u.allNodes int64Node = true → ValueAdv x u
  | .int i, _, hi => by
    intro st rest hr hw
    have h : INT64_MIN ≤ i ∧ i ≤ INT64_MAX := by
      simpa [Variant.allNodes, int64Node] using hi
    exact value_adv_int i h.1 h.2 x st rest hr hw
  | .str t, hb, _ => by
    intro st rest hr hw
    have h : t.length ≤ MAX_BENC_STR_LENGTH := by
      simpa [Variant.allNodes, bencNode] using hb
    exact value_adv_str t h x st rest hr hw
  | .list l, hb, hi => by
    rw [allNodes_list, Bool.and_eq_true] at hb hi
    exact value_adv_list x l (listAdv_of x l hb.2 hi.2)
  | .dict l, hb, hi => by
    rw [allNodes_dict, Bool.and_eq_true] at hb hi
    exact value_adv_dict x l (dictAdv_of x l hb.1 hb.2 hi.2)
  | .unset, hb, _ => by simp [Variant.allNodes, bencNode] at hb
  | .bool _, hb, _ => by simp [Variant.allNodes, bencNode] at hb
  | .real _, hb, _ => by simp [Variant.allNodes, bencNode] at hb
/-- The elements of a list, one after the other. -/
theorem listAdv_of (x : Bytes) : ∀ (l : List Variant), allNodesList bencNode l = true →
    allNodesList int64Node l = true → ListAdv x l
  | [], _, _ => list_adv_nil x
  | v :: vs, hb, hi => by
    rw [allNodesList_cons, Bool.and_eq_true] at hb hi
    exact list_adv_cons x v vs (valueAdv_of x v hb.1 hi.1) (listAdv_of x vs hb.2 hi.2)
/-- The entries of a dict, one after the other. -/
theorem dictAdv_of (x : Bytes) : ∀ (l : List (Key × Variant)),
    bencNode (.dict l) = true → allNodesDict bencNode l = true →
    allNodesDict int64Node l = true → DictAdv x l
  | [], _, _, _ => dict_adv_nil x
  | (k, v) :: l, hk, hb, hi => by
    rw [allNodesDict_cons, Bool.and_eq_true] at hb hi
    have hk2 : k.length ≤ MAX_BENC_STR_LENGTH ∧ bencNode (.dict l) = true := by
      simpa [bencNode] using hk
    exact dict_adv_cons x k v l hk2.1 (valueAdv_of x v hb.1 hi.1)
      (dictAdv_of x l hk2.2 hb.2 hi.2)
end

/-- A container at the top: opened by the first pass, filled by the passes
for its children, closed by a pass that leaves the loop. -/
theorem top_container (x rest : Bytes) (c : Bytes) (o : Nat) (empty full : Variant)
    (hx : x = o :: (c ++ 101 :: rest))
    (hopen : ∀ st1 : ParseState, dispatch (o :: (c ++ 101 :: rest)) st1 =
      (openContainer { st1 with buf := st1.buf + 1 } empty,
       (openContainer { st1 with buf := st1.buf + 1 } empty).stack.isEmpty))
    (hfill : ∀ (st1 : ParseState), st1.err = 0 → st1.key = none →
      st1.stack = [⟨empty, Slot.top⟩] → st1.buf = 1 →
      Advance x st1 { st1 with buf := st1.buf + c.length, stack := [⟨full, Slot.top⟩] }) :
    ∃ fuel, parseLoop x fuel initState =
      some { buf := c.length + 2, stack := [], key := none, top := full, err := 0 } := by
  have hw : x.drop initState.buf = o :: (c ++ 101 :: rest) := by
    rw [hx]
    rfl
  have hd1 := hopen initState
  have ho : openContainer { initState with buf := initState.buf + 1 } empty =
      { buf := 1, stack := [⟨empty, Slot.top⟩], key := none, top := empty, err := 0 } := rfl
  rw [ho] at hd1
  simp only [List.isEmpty_cons] at hd1
  rw [← hw] at hd1
  have h1 := Advance.step x initState _ (by rw [hw]; simp) rfl hd1
  have h2 := hfill
    { buf := 1, stack := [⟨empty, Slot.top⟩], key := none, top := empty, err := 0 }
    rfl rfl rfl rfl
  simp only at h2
  have hw3 : x.drop (1 + c.length) = 101 :: rest := by
    rw [hx]
    have h3 : (o :: (c ++ 101 :: rest)) = (o :: c) ++ (101 :: rest) := by simp
    rw [h3]
    exact drop_append_length _ _ _ (by simp; omega)
  have hd3 := dispatch_close (101 :: rest)
    { buf := 1 + c.length, stack := [⟨full, Slot.top⟩], key := none, top := empty, err := 0 }
    rfl (by simp) rfl
  have hp : pop_back
      { buf := 1 + c.length + 1, stack := [⟨full, Slot.top⟩], key := none, top := empty,
        err := 0 } =
      { buf := 1 + c.length + 1, stack := [], key := none, top := full, err := 0 } := rfl
  simp only at hd3
  rw [hp] at hd3
  simp only [List.isEmpty_nil] at hd3
  have hb : 1 + c.length + 1 = c.length + 2 := by omega
  rw [hb] at hd3
  exact Advance.finish x initState _ _ (Advance.trans x _ _ _ h1 h2)
    (by simp only; rw [hw3]; simp) rfl (by simp only; rw [hw3]; exact hd3)

/-- The parser inverts the plain encoding: a tree of the grammar with 64-bit
integers, encoded and followed by any bytes, is accepted, rebuilt as it was,
and the end offset is the length of the encoding. -/
theorem tr_variantParseBenc_bencode (u : Variant) (hb : u.isBenc = true) (hi : u.intsFit = true)
    (rest : Bytes) (e0 : Option Nat) :
    tr_variantParseBenc (bencode u ++ rest) e0 = some ⟨0, u, some (bencode u).length⟩ := by
  unfold Variant.isBenc at hb
  unfold Variant.intsFit at hi
  cases u with
  | unset => simp [Variant.allNodes, bencNode] at hb
  | bool b => simp [Variant.allNodes, bencNode] at hb
  | real d => simp [Variant.allNodes, bencNode] at hb
  | int i =>
    have h : INT64_MIN ≤ i ∧ i ≤ INT64_MAX := by
      simpa [Variant.allNodes, int64Node] using hi
    have hx : bencode (.int i) ++ rest = 105 :: (printInt i ++ 101 :: rest) := by
      rw [bencode_int]
      simp
    have hd := dispatch_int_ok (printInt i) rest i initState (printInt_no_e i)
      (intBody_printInt i h.1 h.2)
    have hp : placeScalar { initState with buf := initState.buf + ((printInt i).length + 2) }
        (.int i) =
        { buf := (printInt i).length + 2, stack := [], key := none, top := .int i, err := 0 } := by
      simp [placeScalar, get_node, initState, initNode]
    rw [hp] at hd
    simp only [List.isEmpty_nil] at hd
    obtain ⟨fuel, hf⟩ := Advance.finish (bencode (.int i) ++ rest) initState initState _
      (Advance.refl _ _) (by rw [hx]; simp [initState]) rfl
      (by rw [hx]; exact hd)
    have := tr_variantParseBenc_of_success _ e0 fuel _ hf rfl rfl rfl
    rw [this, bencode_int]
    simp
  | str t =>
    have h : t.length ≤ MAX_BENC_STR_LENGTH := by
      simpa [Variant.allNodes, bencNode] using hb
    have hx : bencode (.str t) ++ rest = decimal t.length ++ 58 :: (t ++ rest) := by
      rw [bencode_str]
      simp
    have hd := dispatch_str_value (decimal t.length) (t ++ rest) initState (decimal_ne_nil _)
      (decimal_digits _) (by rw [digitsValue_decimal]; exact h)
      (by rw [digitsValue_decimal]; simp) (by simp [initState])
    rw [digitsValue_decimal] at hd
    have htk : (t ++ rest).take t.length = t := List.take_left' rfl
    rw [htk] at hd
    have hp : placeScalar { initState with
        buf := initState.buf + ((decimal t.length).length + 1 + t.length) } (.str t) =
        { buf := (decimal t.length).length + 1 + t.length, stack := [], key := none,
          top := .str t, err := 0 } := by
      simp [placeScalar, get_node, initState, initNode]
    rw [hp] at hd
    simp only [List.isEmpty_nil] at hd
    obtain ⟨fuel, hf⟩ := Advance.finish (bencode (.str t) ++ rest) initState initState _
      (Advance.refl _ _)
      (by rw [hx]; have := decimal_ne_nil t.length; simp [initState, this]) rfl
      (by rw [hx]; exact hd)
    have := tr_variantParseBenc_of_success _ e0 fuel _ hf rfl rfl rfl
    rw [this, bencode_str]
    simp
    omega
  | list l =>
    rw [allNodes_list, Bool.and_eq_true] at hb hi
    have hx : bencode (.list l) ++ rest = 108 :: (bencodeList l ++ 101 :: rest) := by
      rw [bencode_list]
      simp
    obtain ⟨fuel, hf⟩ := top_container (bencode (.list l) ++ rest) rest (bencodeList l) 108
      (.list []) (.list l) hx (fun st1 => dispatch_open_list _ st1 rfl) (by
        intro st1 he hk hs hb1
        have hw3 : (bencode (.list l) ++ rest).drop st1.buf = bencodeList l ++ 101 :: rest := by
          rw [hb1, hx]
          rfl
        have := listAdv_of _ l hb.2 hi.2 st1 [] Slot.top [] (101 :: rest) he hs hk hw3
        simpa using this)
    have := tr_variantParseBenc_of_success _ e0 fuel _ hf rfl rfl rfl
    rw [this, bencode_list]
    simp
  | dict l =>
    rw [allNodes_dict, Bool.and_eq_true] at hb hi
    have hx : bencode (.dict l) ++ rest = 100 :: (bencodeDict l ++ 101 :: rest) := by
      rw [bencode_dict]
      simp
    obtain ⟨fuel, hf⟩ := top_container (bencode (.dict l) ++ rest) rest (bencodeDict l) 100
      (.dict []) (.dict l) hx (fun st1 => dispatch_open_dict _ st1 rfl) (by
        intro st1 he hk hs hb1
        have hw3 : (bencode (.dict l) ++ rest).drop st1.buf = bencodeDict l ++ 101 :: rest := by
          rw [hb1, hx]
          rfl
        have := dictAdv_of _ l hb.1 hb.2 hi.2 st1 [] Slot.top [] (101 :: rest) he hs hk hw3
        simpa using this)
    have := tr_variantParseBenc_of_success _ e0 fuel _ hf rfl rfl rfl
    rw [this, bencode_dict]
    simp

/-! ## The serializer writes the plain encoding of the sorted tree -/

theorem canonDict_eq_map (l : List (Key × Variant)) :
    canonDict l = l.map (fun kv => (kv.1, canon kv.2)) := by
  induction l with
  | nil => simp [canonDict]
  | cons a rest ih =>
    obtain ⟨k, v⟩ := a
    simp [canonDict, ih]

theorem bencodeDict_eq_emit (l : List (Key × Variant)) :
    bencodeDict l = emitEntries (l.map (fun kv => (kv.1, bencode kv.2))) := by
  induction l with
  | nil => simp [bencodeDict, emitEntries]
  | cons a rest ih =>
    obtain ⟨k, v⟩ := a
    simp [bencodeDict, emitEntries, saveStringFunc, ih]

mutual
/-- On a tree of the grammar the walker emits the plain encoding of the
tree with every dict sorted. -/
theorem tr_variantWalk_eq (fmt : Nat → Bytes) : ∀ (t : Variant), t.allNodes bencNode = true →
    tr_variantWalk fmt t = bencode (canon t)
  | .int i, _ => by simp [tr_variantWalk, canon, bencode, saveIntFunc]
  | .str t, _ => by simp [tr_variantWalk, canon, bencode, saveStringFunc]
  | .list l, hb => by
    rw [allNodes_list, Bool.and_eq_true] at hb
    simp [tr_variantWalk, canon, bencode, saveListBeginFunc, saveContainerEndFunc,
      walkList_eq fmt l hb.2]
  | .dict l, hb => by
    rw [allNodes_dict, Bool.and_eq_true] at hb
    have h1 := walkDict_eq fmt l hb.2
    have h2 := sortByKey_map bencode (canonDict l)
    simp only [tr_variantWalk, canon, bencode, saveDictBeginFunc, saveContainerEndFunc, h1, h2,
      bencodeDict_eq_emit]
  | .unset, hb => by simp [Variant.allNodes, bencNode] at hb
  | .bool _, hb => by simp [Variant.allNodes, bencNode] at hb
  | .real _, hb => by simp [Variant.allNodes, bencNode] at hb
/-- The elements of a list. -/
theorem walkList_eq (fmt : Nat → Bytes) : ∀ (l : List Variant), allNodesList bencNode l = true →
    walkList fmt l = bencodeList (canonList l)
  | [], _ => by simp [walkList, canonList, bencodeList]
  | v :: vs, hb => by
    rw [allNodesList_cons, Bool.and_eq_true] at hb
    simp [walkList, canonList, bencodeList, tr_variantWalk_eq fmt v hb.1, walkList_eq fmt vs hb.2]
/-- The entries of a dict, before they are sorted. -/
theorem walkDict_eq (fmt : Nat → Bytes) : ∀ (l : List (Key × Variant)),
    allNodesDict bencNode l = true →
    walkDict fmt l = (canonDict l).map (fun kv => (kv.1, bencode kv.2))
  | [], _ => by simp [walkDict, canonDict]
  | (k, v) :: rest, hb => by
    rw [allNodesDict_cons, Bool.and_eq_true] at hb
    simp [walkDict, canonDict, tr_variantWalk_eq fmt v hb.1, walkDict_eq fmt rest hb.2]
end

mutual
/-- A tree whose dicts all store their keys in strictly ascending order is
its own sorted form. -/
theorem canon_of_sorted : ∀ (t : Variant), t.allNodes sortedNode = true → canon t = t
  | .int _, _ => by simp [canon]
  | .str _, _ => by simp [canon]
  | .unset, _ => by simp [canon]
  | .bool _, _ => by simp [canon]
  | .real _, _ => by simp [canon]
  | .list l, h => by
    rw [allNodes_list, Bool.and_eq_true] at h
    simp [canon, canonList_of_sorted l h.2]
  | .dict l, h => by
    rw [allNodes_dict, Bool.and_eq_true] at h
    have hk : keysAscending l = true := by simpa [sortedNode] using h.1
    simp [canon, canonDict_of_sorted l h.2, sortByKey_of_ascending l hk]
/-- The elements of a list. -/
theorem canonList_of_sorted : ∀ (l : List Variant), allNodesList sortedNode l = true →
    canonList l = l
  | [], _ => by simp [canonList]
  | v :: vs, h => by
    rw [allNodesList_cons, Bool.and_eq_true] at h
    simp [canonList, canon_of_sorted v h.1, canonList_of_sorted vs h.2]
/-- The values of a list of entries. -/
theorem canonDict_of_sorted : ∀ (l : List (Key × Variant)), allNodesDict sortedNode l = true →
    canonDict l = l
  | [], _ => by simp [canonDict]
  | (k, v) :: rest, h => by
    rw [allNodesDict_cons, Bool.and_eq_true] at h
    simp [canonDict, canon_of_sorted v h.1, canonDict_of_sorted rest h.2]
end

mutual
/-- Sorting a sorted tree changes nothing. -/
theorem canon_idem : ∀ (t : Variant), canon (canon t) = canon t
  | .int _ => by simp [canon]
  | .str _ => by simp [canon]
  | .unset => by simp [canon]
  | .bool _ => by simp [canon]
  | .real _ => by simp [canon]
  | .list l => by simp [canon, canonList_idem l]
  | .dict l => by
    have h1 : canonDict (sortByKey (canonDict l)) = sortByKey (canonDict (canonDict l)) := by
      rw [canonDict_eq_map (sortByKey (canonDict l)), canonDict_eq_map (canonDict l)]
      exact (sortByKey_map canon (canonDict l)).symm
    simp [canon, h1, canonDict_idem l, sortByKey_idem]
/-- The elements of a list. -/
theorem canonList_idem : ∀ (l : List Variant), canonList (canonList l) = canonList l
  | [] => by simp [canonList]
  | v :: vs => by simp [canonList, canon_idem v, canonList_idem vs]
/-- The values of a list of entries. -/
theorem canonDict_idem : ∀ (l : List (Key × Variant)), canonDict (canonDict l) = canonDict l
  | [] => by simp [canonDict]
  | (k, v) :: rest => by simp [canonDict, canon_idem v, canonDict_idem rest]
end

theorem allNodesDict_perm (p : Variant → Bool) (l1 l2 : List (Key × Variant))
    (h : l1.Perm l2) : allNodesDict p l1 = allNodesDict p l2 := by
  induction h with
  | nil => rfl
  | cons a _ ih =>
    obtain ⟨k, v⟩ := a
    simp [allNodesDict, ih]
  | swap a b l =>
    obtain ⟨k, v⟩ := a
    obtain ⟨k2, v2⟩ := b
    simp only [allNodesDict]
    rw [← Bool.and_assoc, ← Bool.and_assoc, Bool.and_comm (Variant.allNodes p v2)]
  | trans _ _ ih1 ih2 => rw [ih1, ih2]

theorem bencNode_dict_perm (l1 l2 : List (Key × Variant))
    (h : (l1.map Prod.fst).Perm (l2.map Prod.fst)) (h1 : bencNode (.dict l1) = true) :
    bencNode (.dict l2) = true := by
  simp only [bencNode, List.all_eq_true, decide_eq_true_eq] at h1 ⊢
  intro kv hkv
  have hm : kv.1 ∈ l2.map Prod.fst := List.mem_map_of_mem _ hkv
  have hm1 : kv.1 ∈ l1.map Prod.fst := h.symm.subset hm
  obtain ⟨kv1, hkv1, he⟩ := List.mem_map.mp hm1
  rw [← he]
  exact h1 kv1 hkv1

theorem map_fst_canonDict (l : List (Key × Variant)) :
    (canonDict l).map Prod.fst = l.map Prod.fst := by
  rw [canonDict_eq_map]
  simp [List.map_map, Function.comp]

mutual
/-- Sorting keeps a tree inside the grammar. -/
theorem canon_bencNode : ∀ (t : Variant), t.allNodes bencNode = true →
    (canon t).allNodes bencNode = true
  | .int _, h => by simpa [canon] using h
  | .str _, h => by simpa [canon] using h
  | .unset, h => by simpa [canon] using h
  | .bool _, h => by simpa [canon] using h
  | .real _, h => by simpa [canon] using h
  | .list l, h => by
    rw [allNodes_list, Bool.and_eq_true] at h
    simp only [canon]
    rw [allNodes_list, Bool.and_eq_true]
    exact ⟨rfl, canonList_bencNode l h.2⟩
  | .dict l, h => by
    rw [allNodes_dict, Bool.and_eq_true] at h
    simp only [canon]
    rw [allNodes_dict, Bool.and_eq_true]
    refine ⟨?_, ?_⟩
    · refine bencNode_dict_perm l _ ?_ h.1
      rw [← map_fst_canonDict l]
      exact ((sortByKey_perm (canonDict l)).map Prod.fst).symm
    · rw [allNodesDict_perm bencNode _ _ (sortByKey_perm (canonDict l))]
      exact canonDict_bencNode l h.2
/-- The elements of a list. -/
theorem canonList_bencNode : ∀ (l : List Variant), allNodesList bencNode l = true →
    allNodesList bencNode (canonList l) = true
  | [], _ => by simp [canonList, allNodesList]
  | v :: vs, h => by
    rw [allNodesList_cons, Bool.and_eq_true] at h
    simp only [canonList]
    rw [allNodesList_cons, Bool.and_eq_true]
    exact ⟨canon_bencNode v h.1, canonList_bencNode vs h.2⟩
/-- The values of a list of entries. -/
theorem canonDict_bencNode : ∀ (l : List (Key × Variant)), allNodesDict bencNode l = true →
    allNodesDict bencNode (canonDict l) = true
  | [], _ => by simp [canonDict, allNodesDict]
  | (k, v) :: rest, h => by
    rw [allNodesDict_cons, Bool.and_eq_true] at h
    simp only [canonDict]
    rw [allNodesDict_cons, Bool.and_eq_true]
    exact ⟨canon_bencNode v h.1, canonDict_bencNode rest h.2⟩
end

mutual
/-- Sorting keeps the integers of a tree. -/
theorem canon_int64Node : ∀ (t : Variant), t.allNodes int64Node = true →
    (canon t).allNodes int64Node = true
  | .int _, h => by simpa [canon] using h
  | .str _, h => by simpa [canon] using h
  | .unset, h => by simpa [canon] using h
  | .bool _, h => by simpa [canon] using h
  | .real _, h => by simpa [canon] using h
  | .list l, h => by
    rw [allNodes_list, Bool.and_eq_true] at h
    simp only [canon]
    rw [allNodes_list, Bool.and_eq_true]
    exact ⟨rfl, canonList_int64Node l h.2⟩
  | .dict l, h => by
    rw [allNodes_dict, Bool.and_eq_true] at h
    simp only [canon]
    rw [allNodes_dict, Bool.and_eq_true]
    refine ⟨rfl, ?_⟩
    rw [allNodesDict_perm int64Node _ _ (sortByKey_perm (canonDict l))]
    exact canonDict_int64Node l h.2
/-- The elements of a list. -/
theorem canonList_int64Node : ∀ (l : List Variant), allNodesList int64Node l = true →
    allNodesList int64Node (canonList l) = true
  | [], _ => by simp [canonList, allNodesList]
  | v :: vs, h => by
    rw [allNodesList_cons, Bool.and_eq_true] at h
    simp only [canonList]
    rw [allNodesList_cons, Bool.and_eq_true]
    exact ⟨canon_int64Node v h.1, canonList_int64Node vs h.2⟩
/-- The values of a list of entries. -/
theorem canonDict_int64Node : ∀ (l : List (Key × Variant)), allNodesDict int64Node l = true →
    allNodesDict int64Node (canonDict l) = true
  | [], _ => by simp [canonDict, allNodesDict]
  | (k, v) :: rest, h => by
    rw [allNodesDict_cons, Bool.and_eq_true] at h
    simp only [canonDict]
    rw [allNodesDict_cons, Bool.and_eq_true]
    exact ⟨canon_int64Node v h.1, canonDict_int64Node rest h.2⟩
end

/-! ## What the parser builds is a tree of the grammar -/

theorem allNodesList_append (p : Variant → Bool) (l m : List Variant) :
    allNodesList p (l ++ m) = (allNodesList p l && allNodesList p m) := by
  induction l with
  | nil => simp [allNodesList]
  | cons v vs ih => simp [allNodesList, ih, Bool.and_assoc]

theorem allNodesDict_append (p : Variant → Bool) (l m : List (Key × Variant)) :
    allNodesDict p (l ++ m) = (allNodesDict p l && allNodesDict p m) := by
  induction l with
  | nil => simp [allNodesDict]
  | cons a rest ih =>
    obtain ⟨k, v⟩ := a
    simp [allNodesDict, ih, Bool.and_assoc]

theorem good_listAdd (p v : Variant) (hp : Good p) (hv : Good v) :
    Good (tr_variantListAdd p v) := by
  cases p with
  | list l =>
    obtain ⟨h1, h2⟩ := hp
    rw [allNodes_list, Bool.and_eq_true] at h1 h2
    refine ⟨?_, ?_⟩
    · simp only [tr_variantListAdd]
      rw [allNodes_list, allNodesList_append, h1.2]
      simp [bencNode, allNodesList, hv.1]
    · simp only [tr_variantListAdd]
      rw [allNodes_list, allNodesList_append, h2.2]
      simp [int64Node, allNodesList, hv.2]
  | unset => exact hp
  | int _ => exact hp
  | bool _ => exact hp
  | real _ => exact hp
  | str _ => exact hp
  | dict _ => exact hp

theorem good_dictAdd (p v : Variant) (k : Key) (hp : Good p) (hv : Good v)
    (hk : k.length ≤ MAX_BENC_STR_LENGTH) : Good (tr_variantDictAdd p k v) := by
  cases p with
  | dict l =>
    obtain ⟨h1, h2⟩ := hp
    rw [allNodes_dict, Bool.and_eq_true] at h1 h2
    refine ⟨?_, ?_⟩
    · simp only [tr_variantDictAdd]
      rw [allNodes_dict, allNodesDict_append, h1.2]
      have hl : bencNode (.dict l) = true := h1.1
      simp only [bencNode] at hl
      simp [bencNode, allNodesDict, hv.1, List.all_append, hl, hk]
    · simp only [tr_variantDictAdd]
      rw [allNodes_dict, allNodesDict_append, h2.2]
      simp [int64Node, allNodesDict, hv.2]
  | unset => exact hp
  | int _ => exact hp
  | bool _ => exact hp
  | real _ => exact hp
  | str _ => exact hp
  | list _ => exact hp

theorem initNode_inv (st : ParseState) (slot : Slot) (v : Variant) (h : Inv st) (hv : Good v)
    (hk : ∀ k, slot = Slot.dictChild k → k.length ≤ MAX_BENC_STR_LENGTH) :
    Inv (initNode st slot v) := by
  obtain ⟨buf, stack, key, top, err⟩ := st
  obtain ⟨hs, ht, hkey⟩ := h
  simp only at hs ht hkey
  cases slot with
  | top => exact ⟨hs, Or.inr hv, hkey⟩
  | listChild =>
    cases stack with
    | nil => exact ⟨hs, ht, hkey⟩
    | cons p rest =>
      refine ⟨?_, ht, hkey⟩
      intro f hf
      simp only [initNode, List.mem_cons] at hf
      rcases hf with rfl | hf
      · exact ⟨good_listAdd _ _ (hs p (List.mem_cons_self _ _)).1 hv,
          (hs p (List.mem_cons_self _ _)).2⟩
      · exact hs f (List.mem_cons_of_mem _ hf)
  | dictChild k =>
    cases stack with
    | nil => exact ⟨hs, ht, hkey⟩
    | cons p rest =>
      refine ⟨?_, ht, hkey⟩
      intro f hf
      simp only [initNode, List.mem_cons] at hf
      rcases hf with rfl | hf
      · exact ⟨good_dictAdd _ _ k (hs p (List.mem_cons_self _ _)).1 hv (hk k rfl),
          (hs p (List.mem_cons_self _ _)).2⟩
      · exact hs f (List.mem_cons_of_mem _ hf)

/-- The slot `get_node` hands out sits under the pending key, and the key
it leaves is the pending one or none. -/
theorem get_node_spec (stack : List Frame) (key : Option Key) (err : Nat) :
    (∀ slot k, (get_node stack key err).1 = some slot → slot = Slot.dictChild k → key = some k) ∧
    ((get_node stack key err).2.1 = key ∨ (get_node stack key err).2.1 = none) := by
  cases stack with
  | nil =>
    refine ⟨?_, Or.inl rfl⟩
    intro slot k h1 h2
    simp only [get_node, Option.some.injEq] at h1
    rw [← h1] at h2
    exact Slot.noConfusion h2
  | cons p rest =>
    by_cases hl : tr_variantIsList p.node = true
    · refine ⟨?_, Or.inl (by simp [get_node, hl])⟩
      intro slot k h1 h2
      simp only [get_node, hl, if_true, Option.some.injEq] at h1
      rw [← h1] at h2
      exact Slot.noConfusion h2
    · cases key with
      | none =>
        refine ⟨?_, Or.inl (by simp [get_node, hl])⟩
        intro slot k h1 _
        simp [get_node, hl] at h1
      | some k0 =>
        by_cases hd : tr_variantIsDict p.node = true
        · refine ⟨?_, Or.inr (by simp [get_node, hl, hd])⟩
          intro slot k h1 h2
          have hl2 : tr_variantIsList p.node = false := by simpa using hl
          simp only [get_node, hl2, hd, if_true, Option.some.injEq] at h1
          simp only [Bool.false_eq_true, if_false, Option.some.injEq] at h1
          rw [← h1] at h2
          simp only [Slot.dictChild.injEq] at h2
          rw [h2]
        · refine ⟨?_, Or.inl (by simp [get_node, hl, hd])⟩
          intro slot k h1 _
          simp [get_node, hl, hd] at h1

theorem inv_with_key (st : ParseState) (key : Option Key) (err n : Nat) (h : Inv st)
    (hk : key = st.key ∨ key = none) : Inv { st with key := key, err := err, buf := n } := by
  obtain ⟨hs, ht, hkey⟩ := h
  refine ⟨hs, ht, ?_⟩
  intro k hk2
  simp only at hk2
  rcases hk with h1 | h1
  · rw [h1] at hk2
    exact hkey k hk2
  · rw [h1] at hk2
    exact absurd hk2 (by simp)

theorem placeScalar_inv (st : ParseState) (u : Variant) (h : Inv st) (hu : Good u) :
    Inv (placeScalar st u) := by
  have hg := get_node_spec st.stack st.key st.err
  unfold placeScalar
  cases hgn : get_node st.stack st.key st.err with
  | mk v rest =>
    obtain ⟨key, err⟩ := rest
    rw [hgn] at hg
    simp only at hg
    have hi := inv_with_key st key err st.buf h (by
      rcases hg.2 with h1 | h1
      · exact Or.inl h1
      · exact Or.inr h1)
    cases v with
    | none => exact hi
    | some slot =>
      refine initNode_inv _ slot u hi hu ?_
      intro k hk
      exact h.2.2 k (hg.1 slot k rfl hk)

theorem openContainer_inv (st : ParseState) (e : Variant) (h : Inv st) (he : Good e) :
    Inv (openContainer st e) := by
  have hg := get_node_spec st.stack st.key st.err
  unfold openContainer
  cases hgn : get_node st.stack st.key st.err with
  | mk v rest =>
    obtain ⟨key, err⟩ := rest
    rw [hgn] at hg
    simp only at hg
    have hi := inv_with_key st key err st.buf h (by
      rcases hg.2 with h1 | h1
      · exact Or.inl h1
      · exact Or.inr h1)
    cases v with
    | none => exact hi
    | some slot =>
      have hkb : ∀ k, slot = Slot.dictChild k → k.length ≤ MAX_BENC_STR_LENGTH :=
        fun k hk => h.2.2 k (hg.1 slot k rfl hk)
      obtain ⟨hs, ht, hkey⟩ := hi
      cases slot with
      | top =>
        refine ⟨?_, Or.inr he, hkey⟩
        intro f hf
        simp only [List.mem_cons] at hf
        rcases hf with rfl | hf
        · exact ⟨he, hkb⟩
        · exact hs f hf
      | listChild =>
        refine ⟨?_, ht, hkey⟩
        intro f hf
        simp only [List.mem_cons] at hf
        rcases hf with rfl | hf
        · exact ⟨he, hkb⟩
        · exact hs f hf
      | dictChild k =>
        refine ⟨?_, ht, hkey⟩
        intro f hf
        simp only [List.mem_cons] at hf
        rcases hf with rfl | hf
        · exact ⟨he, hkb⟩
        · exact hs f hf

theorem pop_back_inv (st : ParseState) (h : Inv st) : Inv (pop_back st) := by
  obtain ⟨buf, stack, key, top, err⟩ := st
  cases stack with
  | nil => exact h
  | cons f rest =>
    obtain ⟨hs, ht, hkey⟩ := h
    simp only at hs ht hkey
    have hf := hs f (List.mem_cons_self _ _)
    refine initNode_inv _ f.slot f.node ⟨?_, ht, hkey⟩ hf.1 hf.2
    intro g hg
    exact hs g (List.mem_cons_of_mem _ hg)

theorem evutil_strtoll_range (a : Bytes) (h : (evutil_strtoll a).errno = 0) :
    INT64_MIN ≤ (evutil_strtoll a).val ∧ (evutil_strtoll a).val ≤ INT64_MAX := by
  have hE : ERANGE ≠ 0 := by decide
  unfold evutil_strtoll at h ⊢
  simp only at h ⊢
  by_cases h1 : (scanNumber a).ds.length = 0
  · simp [h1, INT64_MIN, INT64_MAX]
  · simp only [h1, if_false] at h ⊢
    generalize (if (scanNumber a).neg = true then -(digitsValue (scanNumber a).ds : Int)
      else (digitsValue (scanNumber a).ds : Int)) = v at h ⊢
    by_cases h2 : v > INT64_MAX
    · rw [if_pos h2] at h
      exact absurd h hE
    · rw [if_neg h2] at h ⊢
      by_cases h3 : v < INT64_MIN
      · rw [if_pos h3] at h
        exact absurd h hE
      · rw [if_neg h3]
        simp only
        exact ⟨by omega, by omega⟩

theorem intBody_range (a : Bytes) (v : Int) (h : intBody a = some v) :
    INT64_MIN ≤ v ∧ v ≤ INT64_MAX := by
  unfold intBody at h
  simp only at h
  split_ifs at h with h1 h2
  simp only [Option.some.injEq] at h
  rw [← h]
  have he : (evutil_strtoll a).errno = 0 := by
    by_contra hne
    exact h1 (Or.inl hne)
  exact evutil_strtoll_range a he

theorem good_int (v : Int) (h : INT64_MIN ≤ v ∧ v ≤ INT64_MAX) : Good (.int v) := by
  refine ⟨by simp [Variant.allNodes, bencNode], ?_⟩
  simp [Variant.allNodes, int64Node, h.1, h.2]

theorem good_str (t : Bytes) (h : t.length ≤ MAX_BENC_STR_LENGTH) : Good (.str t) := by
  refine ⟨?_, by simp [Variant.allNodes, int64Node]⟩
  simp [Variant.allNodes, bencNode, h]

theorem good_empty_list : Good (.list []) := ⟨rfl, rfl⟩

theorem good_empty_dict : Good (.dict []) := ⟨rfl, rfl⟩

/-- One pass keeps the state well formed. -/
theorem dispatch_inv (w : Bytes) (st st1 : ParseState) (b : Bool) (h : Inv st)
    (hd : dispatch w st = (st1, b)) : Inv st1 := by
  rcases dispatch_cases w st with
    ⟨_, hc⟩ | ⟨a, r, v, _, _, hb, hc⟩ | ⟨_, hc⟩ | ⟨_, hc⟩ | ⟨_, _, hc⟩ | ⟨_, _, _, hc⟩ |
    ⟨_, hc⟩ | ⟨a, r, _, _, _, hmax, hr, _, _, _, hc⟩ | ⟨a, r, _, _, _, hmax, hr, _, hc⟩ |
    ⟨_, _, _, _, _, hc⟩
  all_goals rw [hc] at hd
  all_goals obtain ⟨rfl, rfl⟩ := Prod.mk.inj hd
  · exact h
  · exact placeScalar_inv _ _ h (good_int v (intBody_range a v hb))
  · exact openContainer_inv _ _ h good_empty_list
  · exact openContainer_inv _ _ h good_empty_dict
  · exact h
  · exact pop_back_inv _ h
  · exact h
  · refine ⟨h.1, h.2.1, ?_⟩
    intro k hk
    simp only [Option.some.injEq] at hk
    rw [← hk, List.length_take]
    omega
  · refine placeScalar_inv _ _ h (good_str _ ?_)
    rw [List.length_take]
    omega
  · exact h

theorem loopBody_inv (x : Bytes) (st st1 : ParseState) (b : Bool) (h : Inv st)
    (hd : loopBody x st = (st1, b)) : Inv st1 := by
  unfold loopBody at hd
  simp only at hd
  split_ifs at hd with h1 h2 h3
  · obtain ⟨rfl, rfl⟩ := Prod.mk.inj hd
    exact h
  · exact dispatch_inv _ { st with err := EILSEQ } _ _ h hd
  · obtain ⟨rfl, rfl⟩ := Prod.mk.inj hd
    exact h
  · exact dispatch_inv _ _ _ _ h hd

theorem parseLoop_inv (x : Bytes) (fuel : Nat) (st r : ParseState) (h : Inv st)
    (hp : parseLoop x fuel st = some r) : Inv r := by
  induction fuel generalizing st with
  | zero => simp [parseLoop] at hp
  | succ f ih =>
    rw [parseLoop_succ] at hp
    split_ifs at hp with heq
    · simp only [Option.some.injEq] at hp
      rw [← hp]
      exact h
    · cases hb : loopBody x st with
      | mk st1 b =>
        rw [hb] at hp
        have hi := loopBody_inv x st st1 b h hb
        cases b with
        | true =>
          simp only [Option.some.injEq] at hp
          rw [← hp]
          exact hi
        | false => exact ih st1 hi hp

theorem inv_initState : Inv initState :=
  ⟨by simp [initState], Or.inl rfl, by simp [initState]⟩

/-- Every accepted input yields a tree of the grammar with 64-bit integers. -/
theorem tr_variantParseBenc_good (x : Bytes) (e0 : Option Nat) (t : Variant) (e : Nat)
    (h : tr_variantParseBenc x e0 = some ⟨0, t, some e⟩) : Good t := by
  obtain ⟨r, hr, _, ht, _, rfl, _⟩ := tr_variantParseBenc_accept x e0 t e h
  have hi := parseLoop_inv x _ initState r inv_initState hr
  rcases hi.2.1 with hu | hg
  · rw [hu] at ht
    exact absurd ht (by simp)
  · exact hg

/-! ## Round trip and canonical form -/

/-- On a tree of the grammar whose dicts store their keys in strictly
ascending order the serializer writes the plain encoding. -/
theorem tr_variantToBufBenc_canonical (fmt : Nat → Bytes) (t : Variant)
    (hb : t.isBenc = true) (hs : t.keysSorted = true) :
    tr_variantToBufBenc fmt t = bencode t := by
  unfold tr_variantToBufBenc
  rw [tr_variantWalk_eq fmt t hb, canon_of_sorted t hs]

/-- Claim C1, amended: for every canonical bencode byte string `x` (exactly
one top-level value, integers without redundant leading zeros or negative
zero and within the signed 64-bit range, dict keys in strictly ascending
byte order, strings and keys within the length limit and preceded by their
length in decimal without leading zeros, no trailing bytes) the parser
succeeds with the end position at the end of `x`, and serializing the
resulting tree yields exactly `x`. -/
theorem tr_variantParseBenc_round_trip (x : Bytes) (fmt : Nat → Bytes) (e0 : Option Nat)
    (h : CanonicalBencode64 x) :
    ∃ t, tr_variantParseBenc x e0 = some ⟨0, t, some x.length⟩ ∧
      tr_variantToBufBenc fmt t = x := by
  obtain ⟨t, hb, hs, hi, rfl⟩ := h
  refine ⟨t, ?_, tr_variantToBufBenc_canonical fmt t hb hs⟩
  have := tr_variantParseBenc_bencode t hb hi [] e0
  simpa using this

theorem tr_variantParseBenc_round_trip_witness :
    CanonicalBencode64 (bytes "d1:ai-3e1:bl0:4:spamee") ∧
    ∃ t, tr_variantParseBenc (bytes "d1:ai-3e1:bl0:4:spamee") none =
        some ⟨0, t, some (bytes "d1:ai-3e1:bl0:4:spamee").length⟩ ∧
      tr_variantToBufBenc (fun _ => []) t = bytes "d1:ai-3e1:bl0:4:spamee" :=
  ⟨⟨.dict [([97], .int (-3)), ([98], .list [.str [], .str [115, 112, 97, 109]])],
      rfl, rfl, by decide, by decide⟩,
   tr_variantParseBenc_round_trip _ _ none
    ⟨.dict [([97], .int (-3)), ([98], .list [.str [], .str [115, 112, 97, 109]])],
      rfl, rfl, by decide, by decide⟩⟩

/-- Claim C1 as stated fails: `i9223372036854775808e` is canonical bencode
in the sense of the claim (one integer, no leading zero, no trailing bytes),
and the parser answers `EILSEQ`, the value being one more than the largest
signed 64-bit integer. It fails also on `04:spam`, one string within the
length limit and nothing after it: the length prefix may carry leading
zeros, the parser accepts the input in full, and the serializer writes
`4:spam`. -/
theorem tr_variantParseBenc_round_trip_counterexample :
    (CanonicalBencode (bytes "i9223372036854775808e") ∧
      tr_variantParseBenc (bytes "i9223372036854775808e") none =
        some ⟨EILSEQ, .unset, none⟩) ∧
    (tr_variantParseBenc (bytes "04:spam") none =
        some ⟨0, .str (bytes "spam"), some (bytes "04:spam").length⟩ ∧
      (∀ fmt, tr_variantToBufBenc fmt (.str (bytes "spam")) = bytes "4:spam") ∧
      bytes "4:spam" ≠ bytes "04:spam") :=
  ⟨⟨⟨.int 9223372036854775808, rfl, rfl, by decide⟩, rfl⟩, rfl, fun _ => rfl, by decide⟩

theorem walkDict_eq_map (fmt : Nat → Bytes) (l : List (Key × Variant)) :
    walkDict fmt l = l.map (fun kv => (kv.1, tr_variantWalk fmt kv.2)) := by
  induction l with
  | nil => simp [walkDict]
  | cons a rest ih =>
    obtain ⟨k, v⟩ := a
    simp [walkDict, ih]

/-- Claim C3, amended: for every dict whose keys are pairwise distinct, the
serializer emits `d`, then the entries with their keys in strictly ascending
byte order, then `e`, so two such dicts holding the same entries in
different storage orders serialize to identical bytes; parsing
`lld1:bi32e1:ai64eeee` and serializing gives `lld1:ai64e1:bi32eeee`. -/
theorem tr_variantToBufBenc_dict_sorted (fmt : Nat → Bytes) (l1 l2 : List (Key × Variant))
    (hp : l1.Perm l2) (hnd : (l1.map Prod.fst).Nodup) :
    (∃ es, tr_variantToBufBenc fmt (.dict l1) =
        saveDictBeginFunc ++ emitEntries es ++ saveContainerEndFunc ∧
      keysAscending es = true ∧ es.Perm (walkDict fmt l1)) ∧
    tr_variantToBufBenc fmt (.dict l1) = tr_variantToBufBenc fmt (.dict l2) ∧
    (tr_variantParseBenc (bytes "lld1:bi32e1:ai64eeee") none =
        some ⟨0, .list [.list [.dict [([98], .int 32), ([97], .int 64)]]], some 20⟩ ∧
      tr_variantToBufBenc fmt (.list [.list [.dict [([98], .int 32), ([97], .int 64)]]]) =
        bytes "lld1:ai64e1:bi32eeee") := by
  have hk : ∀ l : List (Key × Variant), (walkDict fmt l).map Prod.fst = l.map Prod.fst := by
    intro l
    rw [walkDict_eq_map]
    simp [List.map_map, Function.comp]
  have hnd1 : ((walkDict fmt l1).map Prod.fst).Nodup := by
    rw [hk]
    exact hnd
  have hpw : (walkDict fmt l1).Perm (walkDict fmt l2) := by
    rw [walkDict_eq_map, walkDict_eq_map]
    exact hp.map _
  refine ⟨⟨sortByKey (walkDict fmt l1), ?_, sortByKey_ascending _ hnd1, sortByKey_perm _⟩,
    ?_, rfl, rfl⟩
  · simp [tr_variantToBufBenc, tr_variantWalk]
  · simp only [tr_variantToBufBenc, tr_variantWalk]
    rw [sortByKey_eq_of_perm _ _ hpw hnd1]

theorem tr_variantToBufBenc_dict_sorted_witness :
    ([([98], Variant.int 32), ([97], Variant.int 64)] : List (Key × Variant)).Perm
      [([97], Variant.int 64), ([98], Variant.int 32)] ∧
    (([([98], Variant.int 32), ([97], Variant.int 64)] : List (Key × Variant)).map
      Prod.fst).Nodup ∧
    tr_variantToBufBenc (fun _ => []) (.dict [([98], .int 32), ([97], .int 64)]) =
      tr_variantToBufBenc (fun _ => []) (.dict [([97], .int 64), ([98], .int 32)]) :=
  ⟨List.Perm.swap _ _ _, by decide,
   (tr_variantToBufBenc_dict_sorted (fun _ => []) _ _ (List.Perm.swap _ _ _) (by decide)).2.1⟩

/-- Claim C3 as stated fails for a dict with a repeated key, which the
parser builds from `d1:ai1e1:ai2ee`: the emitted keys `a`, `a` are not
strictly ascending, and the two storage orders of the same two entries
serialize to different bytes. -/
theorem tr_variantToBufBenc_dict_sorted_counterexample :
    tr_variantParseBenc (bytes "d1:ai1e1:ai2ee") none =
      some ⟨0, .dict [([97], .int 1), ([97], .int 2)], some 14⟩ ∧
    ([([97], Variant.int 1), ([97], Variant.int 2)] : List (Key × Variant)).Perm
      [([97], Variant.int 2), ([97], Variant.int 1)] ∧
    tr_variantToBufBenc (fun _ => []) (.dict [([97], .int 1), ([97], .int 2)]) =
      bytes "d1:ai1e1:ai2ee" ∧
    tr_variantToBufBenc (fun _ => []) (.dict [([97], .int 2), ([97], .int 1)]) =
      bytes "d1:ai2e1:ai1ee" ∧
    keysAscending (sortByKey (walkDict (fun _ => [])
      [([97], Variant.int 1), ([97], Variant.int 2)])) = false :=
  ⟨rfl, List.Perm.swap _ _ _, by decide, by decide, by decide⟩

/-! ## Idempotence does not depend on the order of equal keys -/

theorem ascendingByKey_sortByKey : AscendingByKey (sortByKey (α := Bytes)) :=
  fun l => ⟨sortByKey_perm l, sortByKey_sorted l⟩

/-- On entries with pairwise distinct keys every ordering ascending by key
is the same. -/
theorem order_eq_sortByKey (order : List (Key × Bytes) → List (Key × Bytes))
    (ho : AscendingByKey order) (l : List (Key × Bytes)) (hnd : (l.map Prod.fst).Nodup) :
    order l = sortByKey l := by
  have hp := (ho l).1
  have hnd2 : ((order l).map Prod.fst).Nodup := (hp.map Prod.fst).nodup_iff.mpr hnd
  rw [← sortByKey_of_sorted (order l) (ho l).2]
  exact sortByKey_eq_of_perm (order l) l hp hnd2

theorem walkDictBy_eq_map (order : List (Key × Bytes) → List (Key × Bytes)) (fmt : Nat → Bytes)
    (l : List (Key × Variant)) :
    walkDictBy order fmt l = l.map (fun kv => (kv.1, tr_variantWalkBy order fmt kv.2)) := by
  induction l with
  | nil => simp [walkDictBy]
  | cons a rest ih =>
    obtain ⟨k, v⟩ := a
    simp [walkDictBy, ih]

mutual
/-- On a tree none of whose dicts holds a key twice, the walker emits the
same bytes whatever ordering ascending by key it uses. -/
theorem tr_variantWalkBy_eq (order : List (Key × Bytes) → List (Key × Bytes))
    (ho : AscendingByKey order) (fmt : Nat → Bytes) :
    ∀ (t : Variant), t.allNodes distinctKeysNode = true →
      tr_variantWalkBy order fmt t = tr_variantWalk fmt t
  | .int _, _ => by simp [tr_variantWalkBy, tr_variantWalk]
  | .str _, _ => by simp [tr_variantWalkBy, tr_variantWalk]
  | .unset, _ => by simp [tr_variantWalkBy, tr_variantWalk]
  | .bool _, _ => by simp [tr_variantWalkBy, tr_variantWalk]
  | .real _, _ => by simp [tr_variantWalkBy, tr_variantWalk]
  | .list l, h => by
    rw [allNodes_list, Bool.and_eq_true] at h
    simp [tr_variantWalkBy, tr_variantWalk, walkListBy_eq order ho fmt l h.2]
  | .dict l, h => by
    rw [allNodes_dict, Bool.and_eq_true] at h
    have hnd : (l.map Prod.fst).Nodup := by simpa [distinctKeysNode] using h.1
    have hw := walkDictBy_eq order ho fmt l h.2
    have hk : ((walkDict fmt l).map Prod.fst).Nodup := by
      rw [walkDict_eq_map]
      simpa [List.map_map, Function.comp] using hnd
    simp only [tr_variantWalkBy, tr_variantWalk]
    rw [hw, order_eq_sortByKey order ho _ hk]
/-- The elements of a list. -/
theorem walkListBy_eq (order : List (Key × Bytes) → List (Key × Bytes))
    (ho : AscendingByKey order) (fmt : Nat → Bytes) :
    ∀ (l : List Variant), allNodesList distinctKeysNode l = true →
      walkListBy order fmt l = walkList fmt l
  | [], _ => by simp [walkListBy, walkList]
  | v :: vs, h => by
    rw [allNodesList_cons, Bool.and_eq_true] at h
    simp [walkListBy, walkList, tr_variantWalkBy_eq order ho fmt v h.1,
      walkListBy_eq order ho fmt vs h.2]
/-- The entries of a dict, before they are put in order. -/
theorem walkDictBy_eq (order : List (Key × Bytes) → List (Key × Bytes))
    (ho : AscendingByKey order) (fmt : Nat → Bytes) :
    ∀ (l : List (Key × Variant)), allNodesDict distinctKeysNode l = true →
      walkDictBy order fmt l = walkDict fmt l
  | [], _ => by simp [walkDictBy, walkDict]
  | (k, v) :: rest, h => by
    rw [allNodesDict_cons, Bool.and_eq_true] at h
    simp [walkDictBy, walkDict, tr_variantWalkBy_eq order ho fmt v h.1,
      walkDictBy_eq order ho fmt rest h.2]
end

mutual
/-- With the stable ordering by key the walker with the ordering as a
parameter is the walker `tr_variantWalk`. -/
theorem tr_variantWalkBy_sortByKey (fmt : Nat → Bytes) :
    ∀ (t : Variant), tr_variantWalkBy sortByKey fmt t = tr_variantWalk fmt t
  | .int _ => by simp [tr_variantWalkBy, tr_variantWalk]
  | .str _ => by simp [tr_variantWalkBy, tr_variantWalk]
  | .unset => by simp [tr_variantWalkBy, tr_variantWalk]
  | .bool _ => by simp [tr_variantWalkBy, tr_variantWalk]
  | .real _ => by simp [tr_variantWalkBy, tr_variantWalk]
  | .list l => by simp [tr_variantWalkBy, tr_variantWalk, walkListBy_sortByKey fmt l]
  | .dict l => by simp [tr_variantWalkBy, tr_variantWalk, walkDictBy_sortByKey fmt l]
/-- The elements of a list. -/
theorem walkListBy_sortByKey (fmt : Nat → Bytes) :
    ∀ (l : List Variant), walkListBy sortByKey fmt l = walkList fmt l
  | [] => by simp [walkListBy, walkList]
  | v :: vs => by
    simp [walkListBy, walkList, tr_variantWalkBy_sortByKey fmt v, walkListBy_sortByKey fmt vs]
/-- The entries of a dict, before they are put in order. -/
theorem walkDictBy_sortByKey (fmt : Nat → Bytes) :
    ∀ (l : List (Key × Variant)), walkDictBy sortByKey fmt l = walkDict fmt l
  | [] => by simp [walkDictBy, walkDict]
  | (k, v) :: rest => by
    simp [walkDictBy, walkDict, tr_variantWalkBy_sortByKey fmt v,
      walkDictBy_sortByKey fmt rest]
end

mutual
/-- Sorting the dicts of a tree by key keeps their keys pairwise distinct. -/
theorem canon_distinct : ∀ (t : Variant), t.allNodes distinctKeysNode = true →
    (canon t).allNodes distinctKeysNode = true
  | .int _, h => by simpa [canon] using h
  | .str _, h => by simpa [canon] using h
  | .unset, h => by simpa [canon] using h
  | .bool _, h => by simpa [canon] using h
  | .real _, h => by simpa [canon] using h
  | .list l, h => by
    rw [allNodes_list, Bool.and_eq_true] at h
    simp only [canon]
    rw [allNodes_list, Bool.and_eq_true]
    exact ⟨rfl, canonList_distinct l h.2⟩
  | .dict l, h => by
    rw [allNodes_dict, Bool.and_eq_true] at h
    have hnd : (l.map Prod.fst).Nodup := by simpa [distinctKeysNode] using h.1
    simp only [canon]
    rw [allNodes_dict, Bool.and_eq_true]
    refine ⟨?_, ?_⟩
    · have hp := (sortByKey_perm (canonDict l)).map Prod.fst
      rw [map_fst_canonDict] at hp
      simpa [distinctKeysNode] using hp.nodup_iff.mpr hnd
    · rw [allNodesDict_perm distinctKeysNode _ _ (sortByKey_perm (canonDict l))]
      exact canonDict_distinct l h.2
/-- The elements of a list. -/
theorem canonList_distinct : ∀ (l : List Variant), allNodesList distinctKeysNode l = true →
    allNodesList distinctKeysNode (canonList l) = true
  | [], _ => by simp [canonList, allNodesList]
  | v :: vs, h => by
    rw [allNodesList_cons, Bool.and_eq_true] at h
    simp only [canonList]
    rw [allNodesList_cons, Bool.and_eq_true]
    exact ⟨canon_distinct v h.1, canonList_distinct vs h.2⟩
/-- The values of a list of entries. -/
theorem canonDict_distinct : ∀ (l : List (Key × Variant)),
    allNodesDict distinctKeysNode l = true →
    allNodesDict distinctKeysNode (canonDict l) = true
  | [], _ => by simp [canonDict, allNodesDict]
  | (k, v) :: rest, h => by
    rw [allNodesDict_cons, Bool.and_eq_true] at h
    simp only [canonDict]
    rw [allNodesDict_cons, Bool.and_eq_true]
    exact ⟨canon_distinct v h.1, canonDict_distinct rest h.2⟩
end

theorem memchr_of_not_mem (s : Bytes) (c n : Nat) (h : ∀ b ∈ s, b ≠ c) : memchr s c n = none := by
  induction s generalizing n with
  | nil => cases n <;> rfl
  | cons b bs ih =>
    cases n with
    | zero => rfl
    | succ m =>
      have hb : b ≠ c := h b (List.mem_cons_self _ _)
      have hbs : ∀ x ∈ bs, x ≠ c := fun x hx => h x (List.mem_cons_of_mem _ hx)
      simp [memchr, hb, ih m hbs]

/-- The value a conversion that reports no error returns is the value the
sign and the digit run denote. -/
theorem evutil_strtoll_exact (a : Bytes) (h : (evutil_strtoll a).errno = 0) :
    (evutil_strtoll a).val =
      if (scanNumber a).neg = true then -(digitsValue (scanNumber a).ds : Int)
      else (digitsValue (scanNumber a).ds : Int) := by
  have hE : ERANGE ≠ 0 := by decide
  unfold evutil_strtoll at h ⊢
  simp only at h ⊢
  by_cases h1 : (scanNumber a).ds.length = 0
  · have h2 : (scanNumber a).ds = [] := List.length_eq_zero.mp h1
    simp [h1, h2, digitsValue]
  · simp only [h1, if_false] at h ⊢
    generalize (if (scanNumber a).neg = true then -(digitsValue (scanNumber a).ds : Int)
      else (digitsValue (scanNumber a).ds : Int)) = v at h ⊢
    by_cases h2 : v > INT64_MAX
    · rw [if_pos h2] at h
      exact absurd h hE
    · rw [if_neg h2] at h ⊢
      by_cases h3 : v < INT64_MIN
      · rw [if_pos h3] at h
        exact absurd h hE
      · rw [if_neg h3]

theorem intBody_exact (a : Bytes) (v : Int) (h : intBody a = some v) :
    v = (if (scanNumber a).neg = true then -(digitsValue (scanNumber a).ds : Int)
         else (digitsValue (scanNumber a).ds : Int)) := by
  unfold intBody at h
  simp only at h
  split_ifs at h with h1 h2
  simp only [Option.some.injEq] at h
  rw [← h]
  have he : (evutil_strtoll a).errno = 0 := by
    by_contra hne
    exact h1 (Or.inl hne)
  exact evutil_strtoll_exact a he

/-- A digit run, with or without a minus sign, whose value leaves the signed
64-bit range is not accepted. -/
theorem intBody_out_of_range (d : Bytes) (neg : Bool) (hd : ∀ b ∈ d, isdigit b = true)
    (hne : d ≠ [])
    (hv : if neg = true then (9223372036854775808 : Nat) < digitsValue d
          else (9223372036854775807 : Nat) < digitsValue d) :
    intBody ((if neg = true then [45] else []) ++ d) = none := by
  have hlen : d.length ≠ 0 := fun h => hne (List.length_eq_zero.mp h)
  have hE : ERANGE ≠ 0 := by decide
  cases neg with
  | true =>
    simp only [if_true] at hv
    have hlt : -(digitsValue d : Int) < INT64_MIN := by
      simp only [INT64_MIN]
      omega
    have hng : ¬ -(digitsValue d : Int) > INT64_MAX := by
      simp only [INT64_MAX]
      omega
    unfold intBody evutil_strtoll
    simp only [if_true, List.singleton_append]
    rw [scanNumber_minus_digits d hd]
    simp only [hlen, if_false, if_true]
    rw [if_neg hng, if_pos hlt]
    simp [hE]
  | false =>
    simp only [Bool.false_eq_true, if_false] at hv
    have hgt : (digitsValue d : Int) > INT64_MAX := by
      simp only [INT64_MAX]
      omega
    unfold intBody evutil_strtoll
    simp only [Bool.false_eq_true, if_false, List.nil_append]
    rw [scanNumber_digits d hd]
    simp only [hlen, if_false, Bool.false_eq_true]
    rw [if_pos hgt]
    simp [hE]

/-- Claim C11: a literal `i d e` or `i - d e` whose digit run `d` denotes a
value outside the signed 64-bit range is answered with `EILSEQ`, whatever
follows it and with the out-parameters left alone; and whenever the scanner
returns 0 the value it sets is exactly the value the sign and the digit run
denote, never a wrapped or clamped one. -/
theorem tr_bencParseInt_out_of_range (d r : Bytes) (neg : Bool) (e0 : Option Nat) (v0 : Int)
    (hd : ∀ b ∈ d, isdigit b = true) (hne : d ≠ [])
    (hv : if neg = true then (9223372036854775808 : Nat) < digitsValue d
          else (9223372036854775807 : Nat) < digitsValue d) :
    tr_bencParseInt (105 :: (((if neg = true then [45] else []) ++ d) ++ 101 :: r)) e0 v0 =
      ⟨EILSEQ, e0, v0⟩ ∧
    (∀ (w : Bytes) (e1 : Option Nat) (v1 : Int), (tr_bencParseInt w e1 v1).err = 0 →
      ∃ a s, w = 105 :: (a ++ 101 :: s) ∧ (∀ b ∈ a, b ≠ 101) ∧
        (tr_bencParseInt w e1 v1).setme_val =
          (if (scanNumber a).neg = true then -(digitsValue (scanNumber a).ds : Int)
           else (digitsValue (scanNumber a).ds : Int)) ∧
        INT64_MIN ≤ (tr_bencParseInt w e1 v1).setme_val ∧
        (tr_bencParseInt w e1 v1).setme_val ≤ INT64_MAX) := by
  constructor
  · have hno : ∀ b ∈ (if neg = true then [45] else []) ++ d, b ≠ 101 := by
      intro b hb
      rcases List.mem_append.mp hb with h1 | h1
      · cases neg
        · simp at h1
        · simp only [if_true, List.mem_singleton] at h1
          omega
      · have := (isdigit_iff b).mp (hd b h1)
        omega
    rw [tr_bencParseInt_shape _ r e0 v0 hno, intBody_out_of_range d neg hd hne hv]
  · intro w e1 v1 herr
    rcases tr_bencParseInt_cases w e1 v1 with hf | ⟨a, s, v, hw, hno, hb, hok⟩
    · rw [hf] at herr
      have hE : EILSEQ ≠ 0 := by decide
      exact absurd herr hE
    · refine ⟨a, s, hw, hno, ?_⟩
      rw [hok]
      exact ⟨intBody_exact a v hb, intBody_range a v hb⟩

theorem tr_bencParseInt_out_of_range_witness :
    (∀ b ∈ bytes "9223372036854775809", isdigit b = true) ∧ bytes "9223372036854775809" ≠ [] ∧
    (if true = true then (9223372036854775808 : Nat) < digitsValue (bytes "9223372036854775809")
     else (9223372036854775807 : Nat) < digitsValue (bytes "9223372036854775809")) ∧
    tr_bencParseInt
      (105 :: (((if true = true then [45] else []) ++ bytes "9223372036854775809") ++
        101 :: bytes "i1e")) none 888 = ⟨EILSEQ, none, 888⟩ :=
  ⟨by decide, by decide, by decide,
   (tr_bencParseInt_out_of_range (bytes "9223372036854775809") (bytes "i1e") true none 888
     (by decide) (by decide) (by decide)).1⟩

/-- Claim C12: the integer scanner answers `EILSEQ`, leaving the
out-parameters alone, whenever the window is empty, does not begin with `i`,
or holds no `e` after its first byte (`""` and `i64` among them). -/
theorem tr_bencParseInt_malformed (w : Bytes) (e0 : Option Nat) (v0 : Int)
    (h : w = [] ∨ w.headD 0 ≠ 105 ∨ ∀ b ∈ w.drop 1, b ≠ 101) :
    tr_bencParseInt w e0 v0 = ⟨EILSEQ, e0, v0⟩ ∧
    tr_bencParseInt (bytes "") e0 v0 = ⟨EILSEQ, e0, v0⟩ ∧
    tr_bencParseInt (bytes "i64") e0 v0 = ⟨EILSEQ, e0, v0⟩ := by
  have hgen : ∀ w : Bytes, (w = [] ∨ w.headD 0 ≠ 105 ∨ ∀ b ∈ w.drop 1, b ≠ 101) →
      tr_bencParseInt w e0 v0 = ⟨EILSEQ, e0, v0⟩ := by
    intro w h
    rcases h with h | h | h
    · subst h
      simp [tr_bencParseInt]
    · cases w with
      | nil => simp [tr_bencParseInt]
      | cons c cs =>
        simp only [List.headD_cons] at h
        simp [tr_bencParseInt, h]
    · cases w with
      | nil => simp [tr_bencParseInt]
      | cons c cs =>
        simp only [List.drop_succ_cons, List.drop_zero] at h
        have hm := memchr_of_not_mem cs 101 cs.length h
        by_cases hc : c = 105
        · simp [tr_bencParseInt, hc, hm]
        · simp [tr_bencParseInt, hc]
  exact ⟨hgen w h, hgen _ (Or.inl rfl), hgen _ (Or.inr (Or.inr (by decide)))⟩

theorem tr_bencParseInt_malformed_witness :
    (bytes "i64 " = [] ∨ (bytes "i64 ").headD 0 ≠ 105 ∨ ∀ b ∈ (bytes "i64 ").drop 1, b ≠ 101) ∧
    tr_bencParseInt (bytes "i64 ") none 888 = ⟨EILSEQ, none, 888⟩ :=
  ⟨Or.inr (Or.inr (by decide)),
   (tr_bencParseInt_malformed (bytes "i64 ") none 888 (Or.inr (Or.inr (by decide)))).1⟩

/-- Claim C13: whenever the integer scanner fails, the end position and the
value of the caller keep the values they had before the call; with the value
pre-set to 888 and the end to null, `i64`, `""` and `i6z4e` leave 888 and
null. -/
theorem tr_bencParseInt_failure_frame (w : Bytes) (e0 : Option Nat) (v0 : Int)
    (h : (tr_bencParseInt w e0 v0).err ≠ 0) :
    ((tr_bencParseInt w e0 v0).setme_end = e0 ∧ (tr_bencParseInt w e0 v0).setme_val = v0) ∧
    tr_bencParseInt (bytes "i64") none 888 = ⟨EILSEQ, none, 888⟩ ∧
    tr_bencParseInt (bytes "") none 888 = ⟨EILSEQ, none, 888⟩ ∧
    tr_bencParseInt (bytes "i6z4e") none 888 = ⟨EILSEQ, none, 888⟩ := by
  refine ⟨?_, by decide, by decide, by decide⟩
  rcases tr_bencParseInt_cases w e0 v0 with hf | ⟨a, s, v, _, _, _, hok⟩
  · rw [hf]
    exact ⟨rfl, rfl⟩
  · rw [hok] at h
    exact absurd rfl h

theorem tr_bencParseInt_failure_frame_witness :
    (tr_bencParseInt (bytes "i04e") (some 7) 42).err ≠ 0 ∧
    (tr_bencParseInt (bytes "i04e") (some 7) 42).setme_end = some 7 ∧
    (tr_bencParseInt (bytes "i04e") (some 7) 42).setme_val = 42 :=
  ⟨by decide, (tr_bencParseInt_failure_frame (bytes "i04e") (some 7) 42 (by decide)).1⟩

/-- Claim C14: the string scanner answers `EILSEQ` whenever the length its
digits declare exceeds the number of bytes left in the window after the
colon; so for `4:boat` with the window cut one byte short, and for `1:`. -/
theorem tr_bencParseStr_past_window (p r : Bytes) (e0 s0 : Option Nat) (l0 : Nat)
    (hne : p ≠ []) (hp : ∀ b ∈ p, isdigit b = true) (h : r.length < digitsValue p) :
    tr_bencParseStr (p ++ 58 :: r) e0 s0 l0 = ⟨EILSEQ, none, none, 0⟩ ∧
    tr_bencParseStr ((bytes "4:boat").take 5) e0 s0 l0 = ⟨EILSEQ, none, none, 0⟩ ∧
    tr_bencParseStr (bytes "1:") e0 s0 l0 = ⟨EILSEQ, none, none, 0⟩ := by
  have hgen : ∀ p r : Bytes, p ≠ [] → (∀ b ∈ p, isdigit b = true) → r.length < digitsValue p →
      tr_bencParseStr (p ++ 58 :: r) e0 s0 l0 = ⟨EILSEQ, none, none, 0⟩ := by
    intro p r hne hp h
    rw [tr_bencParseStr_shape p r e0 s0 l0 hne hp]
    have : ¬ (digitsValue p ≤ MAX_BENC_STR_LENGTH ∧ digitsValue p ≤ r.length) := by
      intro hc
      omega
    rw [if_neg this]
  exact ⟨hgen p r hne hp h, hgen [52] (bytes "boa") (by decide) (by decide) (by decide),
    hgen [49] [] (by decide) (by decide) (by decide)⟩

theorem tr_bencParseStr_past_window_witness :
    bytes "10" ≠ [] ∧ (∀ b ∈ bytes "10", isdigit b = true) ∧
    (bytes "boat").length < digitsValue (bytes "10") ∧
    tr_bencParseStr (bytes "10" ++ 58 :: bytes "boat") none none 0 =
      ⟨EILSEQ, none, none, 0⟩ :=
  ⟨by decide, by decide, by decide,
   (tr_bencParseStr_past_window (bytes "10") (bytes "boat") none none 0
     (by decide) (by decide) (by decide)).1⟩

/-- Claim C15: the string scanner answers `EILSEQ` whenever its digits denote
a number larger than 128 MiB (134217728), however many bytes the window
holds; so for the length `SIZE_MAX - 2`, whose addition to the string start
would wrap around. -/
theorem tr_bencParseStr_over_limit (p r : Bytes) (e0 s0 : Option Nat) (l0 : Nat)
    (hne : p ≠ []) (hp : ∀ b ∈ p, isdigit b = true) (h : 134217728 < digitsValue p) :
    tr_bencParseStr (p ++ 58 :: r) e0 s0 l0 = ⟨EILSEQ, none, none, 0⟩ ∧
    MAX_BENC_STR_LENGTH = 134217728 ∧
    tr_bencParseStr (bytes "18446744073709551613:boat") e0 s0 l0 =
      ⟨EILSEQ, none, none, 0⟩ := by
  have hgen : ∀ p r : Bytes, p ≠ [] → (∀ b ∈ p, isdigit b = true) → 134217728 < digitsValue p →
      tr_bencParseStr (p ++ 58 :: r) e0 s0 l0 = ⟨EILSEQ, none, none, 0⟩ := by
    intro p r hne hp h
    rw [tr_bencParseStr_shape p r e0 s0 l0 hne hp]
    have : ¬ (digitsValue p ≤ MAX_BENC_STR_LENGTH ∧ digitsValue p ≤ r.length) := by
      intro hc
      have := hc.1
      simp only [MAX_BENC_STR_LENGTH] at this
      omega
    rw [if_neg this]
  exact ⟨hgen p r hne hp h, rfl,
    hgen (bytes "18446744073709551613") (bytes "boat") (by decide) (by decide) (by decide)⟩

theorem tr_bencParseStr_over_limit_witness :
    bytes "134217729" ≠ [] ∧ (∀ b ∈ bytes "134217729", isdigit b = true) ∧
    134217728 < digitsValue (bytes "134217729") ∧
    tr_bencParseStr (bytes "134217729" ++ 58 :: bytes "boat") none none 0 =
      ⟨EILSEQ, none, none, 0⟩ :=
  ⟨by decide, by decide, by decide,
   (tr_bencParseStr_over_limit (bytes "134217729") (bytes "boat") none none 0
     (by decide) (by decide) (by decide)).1⟩

/-- Claim C16: whenever the string scanner fails it returns `EILSEQ` and sets
the end pointer and the string pointer to null and the length to 0, whatever
they held before the call. -/
theorem tr_bencParseStr_failure_outputs (w : Bytes) (e0 s0 : Option Nat) (l0 : Nat)
    (h : (tr_bencParseStr w e0 s0 l0).err ≠ 0) :
    tr_bencParseStr w e0 s0 l0 = ⟨EILSEQ, none, none, 0⟩ := by
  rcases tr_bencParseStr_cases w e0 s0 l0 with hf | ⟨a, r, _, _, _, _, _, hok⟩
  · exact hf
  · rw [hok] at h
    exact absurd rfl h

theorem tr_bencParseStr_failure_outputs_witness :
    (tr_bencParseStr (bytes "4boat") (some 3) (some 1) 9).err ≠ 0 ∧
    tr_bencParseStr (bytes "4boat") (some 3) (some 1) 9 = ⟨EILSEQ, none, none, 0⟩ :=
  ⟨by decide, tr_bencParseStr_failure_outputs (bytes "4boat") (some 3) (some 1) 9 (by decide)⟩

/-! ## The tree parser: rejection -/

theorem get_node_err (stack : List Frame) (key : Option Key) (err : Nat) :
    (get_node stack key err).2.2 = err ∨ (get_node stack key err).2.2 = EILSEQ := by
  cases stack with
  | nil => exact Or.inl rfl
  | cons p rest =>
    by_cases hl : tr_variantIsList p.node = true
    · left
      simp [get_node, hl]
    · cases key with
      | none =>
        right
        simp [get_node, hl]
      | some k =>
        by_cases hd : tr_variantIsDict p.node = true
        · left
          simp [get_node, hl, hd]
        · right
          simp [get_node, hl, hd]

theorem placeScalar_err (st : ParseState) (u : Variant) :
    (placeScalar st u).err = st.err ∨ (placeScalar st u).err = EILSEQ := by
  have hg := get_node_err st.stack st.key st.err
  unfold placeScalar
  cases hgn : get_node st.stack st.key st.err with
  | mk v rest =>
    obtain ⟨key, err⟩ := rest
    rw [hgn] at hg
    simp only at hg
    cases v with
    | none => exact hg
    | some slot =>
      simp only [initNode_err]
      exact hg

theorem openContainer_err (st : ParseState) (e : Variant) :
    (openContainer st e).err = st.err ∨ (openContainer st e).err = EILSEQ := by
  have hg := get_node_err st.stack st.key st.err
  unfold openContainer
  cases hgn : get_node st.stack st.key st.err with
  | mk v rest =>
    obtain ⟨key, err⟩ := rest
    rw [hgn] at hg
    simp only at hg
    cases v with
    | none => exact hg
    | some slot =>
      cases slot <;> exact hg

theorem pop_back_err (st : ParseState) : (pop_back st).err = st.err := by
  unfold pop_back
  split
  · rfl
  · rw [initNode_err]

/-- A pass leaves the error code alone or sets it to `EILSEQ`. -/
theorem dispatch_err (w : Bytes) (st st1 : ParseState) (b : Bool)
    (hd : dispatch w st = (st1, b)) : st1.err = st.err ∨ st1.err = EILSEQ := by
  rcases dispatch_cases w st with
    ⟨_, hc⟩ | ⟨a, r, v, _, _, _, hc⟩ | ⟨_, hc⟩ | ⟨_, hc⟩ | ⟨_, _, hc⟩ | ⟨_, _, _, hc⟩ |
    ⟨_, hc⟩ | ⟨a, r, _, _, _, _, _, _, _, _, hc⟩ | ⟨a, r, _, _, _, _, _, _, hc⟩ |
    ⟨_, _, _, _, _, hc⟩
  all_goals rw [hc] at hd
  all_goals obtain ⟨rfl, rfl⟩ := Prod.mk.inj hd
  · exact Or.inr rfl
  · exact placeScalar_err _ _
  · exact openContainer_err _ _
  · exact openContainer_err _ _
  · exact Or.inr rfl
  · exact Or.inl (pop_back_err _)
  · exact Or.inr rfl
  · exact Or.inl rfl
  · exact placeScalar_err _ _
  · exact Or.inl rfl

/-- Once `EILSEQ` is set the loop ends with it. -/
theorem parseLoop_eilseq (x : Bytes) (fuel : Nat) (st r : ParseState)
    (h : parseLoop x fuel st = some r) (he : st.err = EILSEQ) : r.err = EILSEQ := by
  have hE : EILSEQ ≠ 0 := by decide
  cases fuel with
  | zero => simp [parseLoop] at h
  | succ f =>
    rw [parseLoop_succ] at h
    by_cases heq : st.buf = x.length
    · simp only [heq, if_true, Option.some.injEq] at h
      subst h
      exact he
    · simp only [heq, if_false] at h
      have hb : loopBody x st =
          (if st.buf > x.length then { st with err := EILSEQ } else st, true) := by
        unfold loopBody
        by_cases hg : st.buf > x.length
        · simp [hg, hE]
        · simp [hg, he, hE]
      rw [hb] at h
      simp only [Option.some.injEq] at h
      subst h
      split_ifs
      · rfl
      · exact he

/-- The error code is 0 or `EILSEQ` throughout. -/
theorem parseLoop_err_values (x : Bytes) (fuel : Nat) (st r : ParseState)
    (h : parseLoop x fuel st = some r) (he : st.err = 0 ∨ st.err = EILSEQ) :
    r.err = 0 ∨ r.err = EILSEQ := by
  induction fuel generalizing st with
  | zero => simp [parseLoop] at h
  | succ f ih =>
    rcases he with he | he
    · rw [parseLoop_succ] at h
      by_cases heq : st.buf = x.length
      · simp only [heq, if_true, Option.some.injEq] at h
        subst h
        exact Or.inl he
      · simp only [heq, if_false] at h
        by_cases hg : st.buf > x.length
        · have hE : EILSEQ ≠ 0 := by decide
          have hb : loopBody x st = ({ st with err := EILSEQ }, true) := by
            unfold loopBody
            simp [hg, hE]
          rw [hb] at h
          simp only [Option.some.injEq] at h
          subst h
          exact Or.inr rfl
        · rw [loopBody_eq x st (by omega) he] at h
          cases hd : dispatch (x.drop st.buf) st with
          | mk st1 b =>
            rw [hd] at h
            have h1 := dispatch_err _ st st1 b hd
            rw [he] at h1
            cases b with
            | true =>
              simp only [Option.some.injEq] at h
              subst h
              exact h1
            | false => exact ih st1 h h1
    · exact Or.inr (parseLoop_eilseq x (f + 1) st r h he)

/-- After a pass that sets `EILSEQ` the loop ends with `EILSEQ`. -/
theorem parseLoop_after_eilseq (x : Bytes) (fuel : Nat) (st st1 r : ParseState) (b : Bool)
    (hw : x.drop st.buf ≠ []) (he : st.err = 0)
    (hd : dispatch (x.drop st.buf) st = (st1, b)) (he1 : st1.err = EILSEQ)
    (h : parseLoop x fuel st = some r) : r.err = EILSEQ := by
  have hlt := lt_of_drop_ne_nil x st.buf hw
  cases fuel with
  | zero => simp [parseLoop] at h
  | succ f =>
    rw [parseLoop_succ, if_neg (by omega), loopBody_eq x st (by omega) he, hd] at h
    cases b with
    | true =>
      simp only [Option.some.injEq] at h
      subst h
      exact he1
    | false => exact parseLoop_eilseq x f st1 r h he1

/-- What `tr_variantParseBenc` returns, from the state the loop ends in
after any number of passes. -/
theorem tr_variantParseBenc_of_fuel (x : Bytes) (e0 : Option Nat) (fuel : Nat) (r : ParseState)
    (h : parseLoop x fuel initState = some r) :
    tr_variantParseBenc x e0 =
      some (if r.err = 0 ∧ r.top.isUnset = false ∧ r.stack.isEmpty = true then
              ⟨0, r.top, some r.buf⟩
            else ⟨if r.err = 0 then EILSEQ else r.err, .unset, e0⟩) := by
  obtain ⟨r2, hr2⟩ := parseLoop_initState x
  have h1 := parseLoop_mono x fuel (x.length + 1) initState r h
  have h2 := parseLoop_mono x (x.length + 1) fuel initState r2 hr2
  rw [Nat.add_comm] at h2
  rw [h1] at h2
  simp only [Option.some.injEq] at h2
  subst h2
  exact tr_variantParseBenc_of_loop x e0 r hr2

/-- A run that reaches a state from which the loop ends with `EILSEQ` makes
the parser return `EILSEQ`, with the top unset and the end position of the
caller not written. -/
theorem tr_variantParseBenc_eilseq_of_reach (x : Bytes) (e0 : Option Nat) (st : ParseState)
    (hreach : Advance x initState st) (hle : st.buf ≤ x.length)
    (hend : ∀ fuel r, parseLoop x fuel st = some r → r.err = EILSEQ) :
    tr_variantParseBenc x e0 = some ⟨EILSEQ, .unset, e0⟩ := by
  have hE : EILSEQ ≠ 0 := by decide
  obtain ⟨n, hn⟩ := hreach
  obtain ⟨r, hr⟩ := parseLoop_total x (x.length - st.buf + 1) st hle (by omega)
  have hre := hend _ r hr
  have h := hn (x.length - st.buf + 1)
  rw [hr] at h
  rw [tr_variantParseBenc_of_fuel x e0 _ r h]
  have hc : ¬ (r.err = 0 ∧ r.top.isUnset = false ∧ r.stack.isEmpty = true) := by
    intro hc
    rw [hre] at hc
    exact hE hc.1
  rw [if_neg hc, if_neg (by rw [hre]; exact hE), hre]

/-- Claim C17: whenever the loop of the parser ends with a list or dict
still open, as it does when the bytes run out before the container is
closed, the parser returns `EILSEQ` (top unset, end position not written).
So it is for `l` followed by the encodings of any values and nothing more,
for `l1:a1:b1:c` and for `lllee`. -/
theorem tr_variantParseBenc_unterminated (x : Bytes) (e0 : Option Nat) (r : ParseState)
    (h : parseLoop x (x.length + 1) initState = some r) (hs : r.stack ≠ []) :
    tr_variantParseBenc x e0 = some ⟨EILSEQ, .unset, e0⟩ ∧
    (∀ l : List Variant, allNodesList bencNode l = true → allNodesList int64Node l = true →
      tr_variantParseBenc (108 :: bencodeList l) e0 = some ⟨EILSEQ, .unset, e0⟩) ∧
    tr_variantParseBenc (bytes "l1:a1:b1:c") e0 = some ⟨EILSEQ, .unset, e0⟩ ∧
    tr_variantParseBenc (bytes "lllee") e0 = some ⟨EILSEQ, .unset, e0⟩ := by
  have hE : EILSEQ ≠ 0 := by decide
  have hgen : ∀ (x : Bytes) (fuel : Nat) (r : ParseState),
      parseLoop x fuel initState = some r → r.stack ≠ [] →
      (r.err = 0 ∨ r.err = EILSEQ) →
      tr_variantParseBenc x e0 = some ⟨EILSEQ, .unset, e0⟩ := by
    intro x fuel r h hs herr
    rw [tr_variantParseBenc_of_fuel x e0 fuel r h]
    have hc : ¬ (r.err = 0 ∧ r.top.isUnset = false ∧ r.stack.isEmpty = true) := by
      intro hc
      exact hs (List.isEmpty_iff.mp hc.2.2)
    rw [if_neg hc]
    rcases herr with h0 | h1
    · rw [if_pos h0]
    · rw [if_neg (by rw [h1]; exact hE), h1]
  refine ⟨hgen x _ r h hs (parseLoop_err_values x _ initState r h (Or.inl rfl)), ?_, rfl, rfl⟩
  intro l hb hi
  have hw : (108 :: bencodeList l).drop initState.buf = 108 :: bencodeList l := rfl
  have hd1 : dispatch (108 :: bencodeList l) initState =
      ({ buf := 1, stack := [⟨.list [], Slot.top⟩], key := none, top := .list [], err := 0 },
       false) := by
    rw [dispatch_open_list (108 :: bencodeList l) initState rfl]
    rfl
  rw [← hw] at hd1
  have h1 := Advance.step (108 :: bencodeList l) initState _ (by rw [hw]; simp) rfl hd1
  have h2 := listAdv_of (108 :: bencodeList l) l hb hi
    { buf := 1, stack := [⟨.list [], Slot.top⟩], key := none, top := .list [], err := 0 }
    [] Slot.top [] [] rfl rfl rfl (by simp)
  simp only [List.nil_append] at h2
  obtain ⟨n, hn⟩ := Advance.trans _ _ _ _ h1 h2
  have h4 : parseLoop (108 :: bencodeList l) (0 + 1)
      { buf := 1 + (bencodeList l).length, stack := [⟨.list l, Slot.top⟩], key := none,
        top := .list [], err := 0 } =
      some { buf := 1 + (bencodeList l).length, stack := [⟨.list l, Slot.top⟩], key := none,
             top := .list [], err := 0 } := by
    rw [parseLoop_succ, if_pos (by simp only [List.length_cons]; omega)]
  have h3 := (hn (0 + 1)).trans h4
  exact hgen _ _ _ h3 (by simp) (Or.inl rfl)

theorem tr_variantParseBenc_unterminated_witness :
    parseLoop (bytes "d1:ali1e") ((bytes "d1:ali1e").length + 1) initState =
      some { buf := 8, stack := [⟨.list [.int 1], Slot.dictChild [97]⟩, ⟨.dict [], Slot.top⟩],
             key := none, top := .dict [], err := 0 } ∧
    tr_variantParseBenc (bytes "d1:ali1e") none = some ⟨EILSEQ, .unset, none⟩ :=
  ⟨rfl, (tr_variantParseBenc_unterminated (bytes "d1:ali1e") none
    { buf := 8, stack := [⟨.list [.int 1], Slot.dictChild [97]⟩, ⟨.dict [], Slot.top⟩],
      key := none, top := .dict [], err := 0 } rfl (by simp)).1⟩

theorem dispatch_int_fail (w : Bytes) (st : ParseState) (h : w.headD 0 = 105)
    (hf : tr_bencParseInt w none 0 = ⟨EILSEQ, none, 0⟩) :
    dispatch w st = ({ st with err := EILSEQ }, true) := by
  simp only [dispatch, h, if_true, hf]
  simp [EILSEQ]

theorem dispatch_close_err (w : Bytes) (st : ParseState) (h : w.headD 0 = 101)
    (hc : st.stack = [] ∨ st.key.isSome = true) :
    dispatch w st = ({ st with buf := st.buf + 1, err := EILSEQ }, true) := by
  simp only [dispatch, h]
  rcases hc with hc | hc
  · simp [hc]
  · simp [hc]

/-- In an open dict with no key pending `get_node` hands out nothing and
reports `EILSEQ`. -/
theorem get_node_key_position (l : List (Key × Variant)) (sl : Slot) (fs : List Frame)
    (err : Nat) : get_node (⟨.dict l, sl⟩ :: fs) none err = (none, none, EILSEQ) := by
  simp [get_node, tr_variantIsList]

theorem placeScalar_key_position (st : ParseState) (u : Variant) (l : List (Key × Variant))
    (sl : Slot) (fs : List Frame) (hs : st.stack = ⟨.dict l, sl⟩ :: fs) (hk : st.key = none) :
    (placeScalar st u).err = EILSEQ := by
  unfold placeScalar
  rw [hs, hk, get_node_key_position]

theorem openContainer_key_position (st : ParseState) (e : Variant) (l : List (Key × Variant))
    (sl : Slot) (fs : List Frame) (hs : st.stack = ⟨.dict l, sl⟩ :: fs) (hk : st.key = none) :
    (openContainer st e).err = EILSEQ := by
  unfold openContainer
  rw [hs, hk, get_node_key_position]

/-- Claim C18: when the parser, inside an open dict with no key pending, comes
to a token that starts with `i`, `l` or `d`, it returns `EILSEQ` for the
whole input (top unset, end position not written): only a byte string is
taken as a key. So it is for `di1ee`, `dlee` and `ddee`. -/
theorem tr_variantParseBenc_key_not_string (x : Bytes) (e0 : Option Nat) (st : ParseState)
    (l : List (Key × Variant)) (sl : Slot) (fs : List Frame) (c : Nat) (w : Bytes)
    (hreach : Advance x initState st) (he : st.err = 0)
    (hs : st.stack = ⟨.dict l, sl⟩ :: fs) (hk : st.key = none)
    (hw : x.drop st.buf = c :: w) (hc : c = 105 ∨ c = 108 ∨ c = 100) :
    tr_variantParseBenc x e0 = some ⟨EILSEQ, .unset, e0⟩ ∧
    tr_variantParseBenc (bytes "di1ee") e0 = some ⟨EILSEQ, .unset, e0⟩ ∧
    tr_variantParseBenc (bytes "dlee") e0 = some ⟨EILSEQ, .unset, e0⟩ ∧
    tr_variantParseBenc (bytes "ddee") e0 = some ⟨EILSEQ, .unset, e0⟩ := by
  refine ⟨?_, rfl, rfl, rfl⟩
  have hne : x.drop st.buf ≠ [] := by
    rw [hw]
    simp
  have hlt := lt_of_drop_ne_nil x st.buf hne
  have hd : ∃ st1 b, dispatch (x.drop st.buf) st = (st1, b) ∧ st1.err = EILSEQ := by
    rw [hw]
    rcases hc with hc | hc | hc
    · subst hc
      rcases tr_bencParseInt_cases (105 :: w) none 0 with hf | ⟨a, r, v, hwe, hno, hb, _⟩
      · exact ⟨_, _, dispatch_int_fail _ st rfl hf, rfl⟩
      · rw [hwe]
        exact ⟨_, _, dispatch_int_ok a r v st hno hb,
          placeScalar_key_position _ _ l sl fs hs hk⟩
    · subst hc
      exact ⟨_, _, dispatch_open_list _ st rfl, openContainer_key_position _ _ l sl fs hs hk⟩
    · subst hc
      exact ⟨_, _, dispatch_open_dict _ st rfl, openContainer_key_position _ _ l sl fs hs hk⟩
  obtain ⟨st1, b, hd1, he1⟩ := hd
  exact tr_variantParseBenc_eilseq_of_reach x e0 st hreach (by omega)
    (fun fuel r hr => parseLoop_after_eilseq x fuel st st1 r b hne he hd1 he1 hr)

theorem tr_variantParseBenc_key_not_string_witness :
    Advance (bytes "d1:ai1eli2eee") initState
      { buf := 7, stack := [⟨.dict [([97], .int 1)], Slot.top⟩], key := none, top := .dict [],
        err := 0 } ∧
    (bytes "d1:ai1eli2eee").drop 7 = 108 :: bytes "i2eee" ∧
    tr_variantParseBenc (bytes "d1:ai1eli2eee") none = some ⟨EILSEQ, .unset, none⟩ :=
  ⟨Advance.trans _ _ _ _
      (Advance.step (bytes "d1:ai1eli2eee") initState
        { buf := 1, stack := [⟨.dict [], Slot.top⟩], key := none, top := .dict [], err := 0 }
        (by decide) rfl rfl)
      (Advance.trans _ _ _ _
        (Advance.step (bytes "d1:ai1eli2eee")
          { buf := 1, stack := [⟨.dict [], Slot.top⟩], key := none, top := .dict [], err := 0 }
          { buf := 4, stack := [⟨.dict [], Slot.top⟩], key := some [97], top := .dict [],
            err := 0 }
          (by decide) rfl rfl)
        (Advance.step (bytes "d1:ai1eli2eee")
          { buf := 4, stack := [⟨.dict [], Slot.top⟩], key := some [97], top := .dict [],
            err := 0 }
          { buf := 7, stack := [⟨.dict [([97], .int 1)], Slot.top⟩], key := none,
            top := .dict [], err := 0 }
          (by decide) rfl rfl)),
   rfl,
   (tr_variantParseBenc_key_not_string (bytes "d1:ai1eli2eee") none
      { buf := 7, stack := [⟨.dict [([97], .int 1)], Slot.top⟩], key := none, top := .dict [],
        err := 0 }
      [([97], .int 1)] Slot.top [] 108 (bytes "i2eee")
      (Advance.trans _ _ _ _
        (Advance.step (bytes "d1:ai1eli2eee") initState
          { buf := 1, stack := [⟨.dict [], Slot.top⟩], key := none, top := .dict [], err := 0 }
          (by decide) rfl rfl)
        (Advance.trans _ _ _ _
          (Advance.step (bytes "d1:ai1eli2eee")
            { buf := 1, stack := [⟨.dict [], Slot.top⟩], key := none, top := .dict [],
              err := 0 }
            { buf := 4, stack := [⟨.dict [], Slot.top⟩], key := some [97], top := .dict [],
              err := 0 }
            (by decide) rfl rfl)
          (Advance.step (bytes "d1:ai1eli2eee")
            { buf := 4, stack := [⟨.dict [], Slot.top⟩], key := some [97], top := .dict [],
              err := 0 }
            { buf := 7, stack := [⟨.dict [([97], .int 1)], Slot.top⟩], key := none,
              top := .dict [], err := 0 }
            (by decide) rfl rfl)))
      rfl rfl rfl rfl (Or.inr (Or.inl rfl))).1⟩

/-- Claim C19: when the parser comes to an `e` while a key is pending without
a value, it returns `EILSEQ` for the whole input (top unset, end position
not written); so it is for `d1:ai0e1:be`, a dict with an odd number of
children. -/
theorem tr_variantParseBenc_key_without_value (x : Bytes) (e0 : Option Nat) (st : ParseState)
    (k : Key) (w : Bytes)
    (hreach : Advance x initState st) (he : st.err = 0) (hk : st.key = some k)
    (hw : x.drop st.buf = 101 :: w) :
    tr_variantParseBenc x e0 = some ⟨EILSEQ, .unset, e0⟩ ∧
    tr_variantParseBenc (bytes "d1:ai0e1:be") e0 = some ⟨EILSEQ, .unset, e0⟩ := by
  refine ⟨?_, rfl⟩
  have hne : x.drop st.buf ≠ [] := by
    rw [hw]
    simp
  have hlt := lt_of_drop_ne_nil x st.buf hne
  have hd1 : dispatch (x.drop st.buf) st = ({ st with buf := st.buf + 1, err := EILSEQ }, true) := by
    rw [hw]
    exact dispatch_close_err _ st rfl (Or.inr (by rw [hk]; rfl))
  exact tr_variantParseBenc_eilseq_of_reach x e0 st hreach (by omega)
    (fun fuel r hr => parseLoop_after_eilseq x fuel st _ r true hne he hd1 rfl hr)

theorem tr_variantParseBenc_key_without_value_witness :
    Advance (bytes "d1:ae") initState
      { buf := 4, stack := [⟨.dict [], Slot.top⟩], key := some [97], top := .dict [],
        err := 0 } ∧
    (bytes "d1:ae").drop 4 = 101 :: [] ∧
    tr_variantParseBenc (bytes "d1:ae") none = some ⟨EILSEQ, .unset, none⟩ :=
  ⟨Advance.trans _ _ _ _
      (Advance.step (bytes "d1:ae") initState
        { buf := 1, stack := [⟨.dict [], Slot.top⟩], key := none, top := .dict [], err := 0 }
        (by decide) rfl rfl)
      (Advance.step (bytes "d1:ae")
        { buf := 1, stack := [⟨.dict [], Slot.top⟩], key := none, top := .dict [], err := 0 }
        { buf := 4, stack := [⟨.dict [], Slot.top⟩], key := some [97], top := .dict [],
          err := 0 }
        (by decide) rfl rfl),
   rfl,
   (tr_variantParseBenc_key_without_value (bytes "d1:ae") none
      { buf := 4, stack := [⟨.dict [], Slot.top⟩], key := some [97], top := .dict [],
        err := 0 }
      [97] []
      (Advance.trans _ _ _ _
        (Advance.step (bytes "d1:ae") initState
          { buf := 1, stack := [⟨.dict [], Slot.top⟩], key := none, top := .dict [], err := 0 }
          (by decide) rfl rfl)
        (Advance.step (bytes "d1:ae")
          { buf := 1, stack := [⟨.dict [], Slot.top⟩], key := none, top := .dict [], err := 0 }
          { buf := 4, stack := [⟨.dict [], Slot.top⟩], key := some [97], top := .dict [],
            err := 0 }
          (by decide) rfl rfl))
      rfl rfl rfl).1⟩

/-- Claim C20: the parser returns `EILSEQ` (top unset, end position not
written) when the input is empty or when its first byte is not `i`, `l`, `d`
or a decimal digit: no value is placed at the top, and a stray byte ahead of
a value is not skipped. So it is for `""`, `" "`, a leading `e`, and
`?i1e`. -/
theorem tr_variantParseBenc_no_top_value (x : Bytes) (e0 : Option Nat)
    (h : x = [] ∨ (x.headD 0 ≠ 105 ∧ x.headD 0 ≠ 108 ∧ x.headD 0 ≠ 100 ∧
      isdigit (x.headD 0) = false)) :
    tr_variantParseBenc x e0 = some ⟨EILSEQ, .unset, e0⟩ ∧
    tr_variantParseBenc (bytes "") e0 = some ⟨EILSEQ, .unset, e0⟩ ∧
    tr_variantParseBenc (bytes " ") e0 = some ⟨EILSEQ, .unset, e0⟩ ∧
    tr_variantParseBenc (bytes "e") e0 = some ⟨EILSEQ, .unset, e0⟩ ∧
    tr_variantParseBenc (bytes "?i1e") e0 = some ⟨EILSEQ, .unset, e0⟩ := by
  refine ⟨?_, rfl, rfl, rfl, rfl⟩
  rcases h with h | ⟨h1, h2, h3, h5⟩
  · subst h
    rfl
  · cases x with
    | nil => rfl
    | cons c w =>
      have hw : (c :: w).drop initState.buf = c :: w := rfl
      by_cases h4 : (c :: w).headD 0 = 101
      · have hd := dispatch_close_err (c :: w) initState h4 (Or.inl rfl)
        have hp : parseLoop (c :: w) (0 + 1) initState =
            some { initState with buf := initState.buf + 1, err := EILSEQ } := by
          rw [parseLoop_succ, if_neg (by simp [initState]),
            loopBody_eq _ _ (by simp [initState]) rfl, hw, hd]
        rw [tr_variantParseBenc_of_fuel _ e0 _ _ hp]
        rfl
      · have hd := dispatch_other (c :: w) initState h1 h2 h3 h4 h5
        have hp : parseLoop (c :: w) (0 + 1) initState =
            some { initState with buf := initState.buf + 1 } := by
          rw [parseLoop_succ, if_neg (by simp [initState]),
            loopBody_eq _ _ (by simp [initState]) rfl, hw, hd]
          rfl
        rw [tr_variantParseBenc_of_fuel _ e0 _ _ hp]
        rfl

theorem tr_variantParseBenc_no_top_value_witness :
    (bytes "xle" = [] ∨ ((bytes "xle").headD 0 ≠ 105 ∧ (bytes "xle").headD 0 ≠ 108 ∧
      (bytes "xle").headD 0 ≠ 100 ∧ isdigit ((bytes "xle").headD 0) = false)) ∧
    tr_variantParseBenc (bytes "xle") (some 5) = some ⟨EILSEQ, .unset, some 5⟩ :=
  ⟨Or.inr (by decide),
   (tr_variantParseBenc_no_top_value (bytes "xle") (some 5) (Or.inr (by decide))).1⟩

/-! ## The tree parser: what a failure leaves behind -/

/-- Claim C21: `tr_variantParseBenc` returns on every input, and whenever it
returns a non-zero error the top variant is unset (type 0, the partial tree
freed) and the end position of the caller holds the value it had before the
call; the error is then `EILSEQ`. So it is for `lllee` called with a null end
position, and for `li1e` and `d1:ai1e1:b` called with end position 7; on
`li1e` the loop ends with `*top` a list, still open, which is given up. -/
theorem tr_variantParseBenc_failure_unset (x : Bytes) (e0 : Option Nat) :
    (∃ res, tr_variantParseBenc x e0 = some res ∧
      (res.err ≠ 0 →
        res.err = EILSEQ ∧ res.top.isUnset = true ∧ res.top = .unset ∧ res.setme_end = e0)) ∧
    tr_variantParseBenc (bytes "lllee") none = some ⟨EILSEQ, .unset, none⟩ ∧
    tr_variantParseBenc (bytes "li1e") (some 7) = some ⟨EILSEQ, .unset, some 7⟩ ∧
    tr_variantParseBenc (bytes "d1:ai1e1:b") (some 7) = some ⟨EILSEQ, .unset, some 7⟩ ∧
    parseLoop (bytes "li1e") 5 initState =
      some { buf := 4, stack := [⟨.list [.int 1], Slot.top⟩], key := none, top := .list [],
             err := 0 } := by
  refine ⟨?_, rfl, rfl, rfl, rfl⟩
  obtain ⟨r, hr⟩ := parseLoop_initState x
  have hv := parseLoop_err_values x _ initState r hr (Or.inl rfl)
  rw [tr_variantParseBenc_of_loop x e0 r hr]
  by_cases hc : r.err = 0 ∧ r.top.isUnset = false ∧ r.stack.isEmpty = true
  · rw [if_pos hc]
    exact ⟨_, rfl, fun hne => absurd rfl hne⟩
  · rw [if_neg hc]
    refine ⟨_, rfl, fun _ => ⟨?_, rfl, rfl, rfl⟩⟩
    rcases hv with h0 | hE
    · simp [h0]
    · have hE0 : EILSEQ ≠ 0 := by decide
      simp [hE, hE0]

/-- When a scanner rejects the token at the cursor, the pass leaves the loop
with `EILSEQ`. -/
theorem dispatch_scanner_rejects (w : Bytes) (st : ParseState)
    (hrej : (w.headD 0 = 105 ∧ (tr_bencParseInt w none 0).err ≠ 0) ∨
      (isdigit (w.headD 0) = true ∧ (tr_bencParseStr w none none 0).err ≠ 0)) :
    dispatch w st = ({ st with err := EILSEQ }, true) := by
  rcases hrej with ⟨hc, hne⟩ | ⟨hc, hne⟩
  · have hE : (tr_bencParseInt w none 0).err = EILSEQ := by
      rcases tr_bencParseInt_cases w none 0 with h | ⟨a, r, v, _, _, _, h⟩
      · rw [h]
      · rw [h] at hne
        exact absurd rfl hne
    have hE0 : EILSEQ ≠ 0 := by decide
    simp only [dispatch, hc, if_true, if_pos hne, hE]
    rw [if_pos hE0]
  · have hE : (tr_bencParseStr w none none 0).err = EILSEQ := by
      rcases tr_bencParseStr_cases w none none 0 with h | ⟨a, r, _, _, _, _, _, h⟩
      · rw [h]
      · rw [h] at hne
        exact absurd rfl hne
    have hd := (isdigit_iff _).mp hc
    have h1 : w.headD 0 ≠ 105 := by omega
    have h2 : w.headD 0 ≠ 108 := by omega
    have h3 : w.headD 0 ≠ 100 := by omega
    have h4 : w.headD 0 ≠ 101 := by omega
    have hE0 : EILSEQ ≠ 0 := by decide
    simp only [dispatch, h1, h2, h3, h4, if_false, hc, if_true, if_pos hne, hE]
    rw [if_pos hE0]

/-- Claim C22: when the parser has come, at any nesting depth, to a token
that starts with `i` and `tr_bencParseInt` rejects it, or that starts with a
decimal digit and `tr_bencParseStr` rejects it, `tr_variantParseBenc` returns
`EILSEQ` for the whole input (top unset, end position not written); so it is
for `1:`, `li04ee` and `li64`. -/
theorem tr_variantParseBenc_scanner_rejects (x : Bytes) (e0 : Option Nat) (st : ParseState)
    (hreach : Advance x initState st) (he : st.err = 0) (hlt : st.buf < x.length)
    (hrej : ((x.drop st.buf).headD 0 = 105 ∧ (tr_bencParseInt (x.drop st.buf) none 0).err ≠ 0) ∨
      (isdigit ((x.drop st.buf).headD 0) = true ∧
        (tr_bencParseStr (x.drop st.buf) none none 0).err ≠ 0)) :
    tr_variantParseBenc x e0 = some ⟨EILSEQ, .unset, e0⟩ ∧
    tr_variantParseBenc (bytes "1:") e0 = some ⟨EILSEQ, .unset, e0⟩ ∧
    tr_variantParseBenc (bytes "li04ee") e0 = some ⟨EILSEQ, .unset, e0⟩ ∧
    tr_variantParseBenc (bytes "li64") e0 = some ⟨EILSEQ, .unset, e0⟩ := by
  refine ⟨?_, rfl, rfl, rfl⟩
  have hne : x.drop st.buf ≠ [] := drop_ne_nil x st.buf hlt
  have hd := dispatch_scanner_rejects (x.drop st.buf) st hrej
  exact tr_variantParseBenc_eilseq_of_reach x e0 st hreach (by omega)
    (fun fuel r hr => parseLoop_after_eilseq x fuel st _ r true hne he hd rfl hr)

theorem tr_variantParseBenc_scanner_rejects_witness :
    Advance (bytes "d1:alli04eeee") initState
      { buf := 6, stack := [⟨.list [], Slot.listChild⟩, ⟨.list [], Slot.dictChild [97]⟩,
          ⟨.dict [], Slot.top⟩], key := none, top := .dict [], err := 0 } ∧
    (bytes "d1:alli04eeee").drop 6 = bytes "i04eeee" ∧
    tr_bencParseInt (bytes "i04eeee") none 0 = ⟨EILSEQ, none, 0⟩ ∧
    tr_variantParseBenc (bytes "d1:alli04eeee") none = some ⟨EILSEQ, .unset, none⟩ :=
  ⟨Advance.trans _ _ _ _
      (Advance.step (bytes "d1:alli04eeee") initState
        { buf := 1, stack := [⟨.dict [], Slot.top⟩], key := none, top := .dict [], err := 0 }
        (by decide) rfl rfl)
      (Advance.trans _ _ _ _
        (Advance.step (bytes "d1:alli04eeee")
          { buf := 1, stack := [⟨.dict [], Slot.top⟩], key := none, top := .dict [], err := 0 }
          { buf := 4, stack := [⟨.dict [], Slot.top⟩], key := some [97], top := .dict [],
            err := 0 }
          (by decide) rfl rfl)
        (Advance.trans _ _ _ _
          (Advance.step (bytes "d1:alli04eeee")
            { buf := 4, stack := [⟨.dict [], Slot.top⟩], key := some [97], top := .dict [],
              err := 0 }
            { buf := 5, stack := [⟨.list [], Slot.dictChild [97]⟩, ⟨.dict [], Slot.top⟩],
              key := none, top := .dict [], err := 0 }
            (by decide) rfl rfl)
          (Advance.step (bytes "d1:alli04eeee")
            { buf := 5, stack := [⟨.list [], Slot.dictChild [97]⟩, ⟨.dict [], Slot.top⟩],
              key := none, top := .dict [], err := 0 }
            { buf := 6, stack := [⟨.list [], Slot.listChild⟩, ⟨.list [], Slot.dictChild [97]⟩,
                ⟨.dict [], Slot.top⟩], key := none, top := .dict [], err := 0 }
            (by decide) rfl rfl))),
   rfl, by decide,
   (tr_variantParseBenc_scanner_rejects (bytes "d1:alli04eeee") none
      { buf := 6, stack := [⟨.list [], Slot.listChild⟩, ⟨.list [], Slot.dictChild [97]⟩,
          ⟨.dict [], Slot.top⟩], key := none, top := .dict [], err := 0 }
      (Advance.trans _ _ _ _
        (Advance.step (bytes "d1:alli04eeee") initState
          { buf := 1, stack := [⟨.dict [], Slot.top⟩], key := none, top := .dict [], err := 0 }
          (by decide) rfl rfl)
        (Advance.trans _ _ _ _
          (Advance.step (bytes "d1:alli04eeee")
            { buf := 1, stack := [⟨.dict [], Slot.top⟩], key := none, top := .dict [],
              err := 0 }
            { buf := 4, stack := [⟨.dict [], Slot.top⟩], key := some [97], top := .dict [],
              err := 0 }
            (by decide) rfl rfl)
          (Advance.trans _ _ _ _
            (Advance.step (bytes "d1:alli04eeee")
              { buf := 4, stack := [⟨.dict [], Slot.top⟩], key := some [97], top := .dict [],
                err := 0 }
              { buf := 5, stack := [⟨.list [], Slot.dictChild [97]⟩, ⟨.dict [], Slot.top⟩],
                key := none, top := .dict [], err := 0 }
              (by decide) rfl rfl)
            (Advance.step (bytes "d1:alli04eeee")
              { buf := 5, stack := [⟨.list [], Slot.dictChild [97]⟩, ⟨.dict [], Slot.top⟩],
                key := none, top := .dict [], err := 0 }
              { buf := 6, stack := [⟨.list [], Slot.listChild⟩,
                  ⟨.list [], Slot.dictChild [97]⟩, ⟨.dict [], Slot.top⟩], key := none,
                top := .dict [], err := 0 }
              (by decide) rfl rfl))))
      rfl (by decide) (Or.inl ⟨rfl, by decide⟩)).1⟩

/-! ## The tree parser: the kinds of node it builds -/

mutual
/-- A predicate that holds at every node of a tree still holds at every
node when weakened. -/
theorem allNodes_mono (p q : Variant → Bool) (hpq : ∀ v, p v = true → q v = true) :
    ∀ (t : Variant), t.allNodes p = true → t.allNodes q = true
  | .int i, h => by
    have h1 : p (.int i) = true := by simpa [Variant.allNodes] using h
    simpa [Variant.allNodes] using hpq _ h1
  | .str s, h => by
    have h1 : p (.str s) = true := by simpa [Variant.allNodes] using h
    simpa [Variant.allNodes] using hpq _ h1
  | .unset, h => by
    have h1 : p .unset = true := by simpa [Variant.allNodes] using h
    simpa [Variant.allNodes] using hpq _ h1
  | .bool b, h => by
    have h1 : p (.bool b) = true := by simpa [Variant.allNodes] using h
    simpa [Variant.allNodes] using hpq _ h1
  | .real d, h => by
    have h1 : p (.real d) = true := by simpa [Variant.allNodes] using h
    simpa [Variant.allNodes] using hpq _ h1
  | .list l, h => by
    rw [allNodes_list, Bool.and_eq_true] at h ⊢
    exact ⟨hpq _ h.1, allNodesList_mono p q hpq l h.2⟩
  | .dict l, h => by
    rw [allNodes_dict, Bool.and_eq_true] at h ⊢
    exact ⟨hpq _ h.1, allNodesDict_mono p q hpq l h.2⟩
/-- The elements of a list. -/
theorem allNodesList_mono (p q : Variant → Bool) (hpq : ∀ v, p v = true → q v = true) :
    ∀ (l : List Variant), allNodesList p l = true → allNodesList q l = true
  | [], _ => by simp [allNodesList]
  | v :: vs, h => by
    rw [allNodesList_cons, Bool.and_eq_true] at h ⊢
    exact ⟨allNodes_mono p q hpq v h.1, allNodesList_mono p q hpq vs h.2⟩
/-- The values of a list of entries. -/
theorem allNodesDict_mono (p q : Variant → Bool) (hpq : ∀ v, p v = true → q v = true) :
    ∀ (l : List (Key × Variant)), allNodesDict p l = true → allNodesDict q l = true
  | [], _ => by simp [allNodesDict]
  | (k, v) :: rest, h => by
    rw [allNodesDict_cons, Bool.and_eq_true] at h ⊢
    exact ⟨allNodes_mono p q hpq v h.1, allNodesDict_mono p q hpq rest h.2⟩
end

theorem parsedKind_of_bencNode (v : Variant) (h : bencNode v = true) : parsedKind v = true := by
  cases v <;> simp_all [bencNode, parsedKind]

/-- Claim C23: `tr_variantParseBenc` returns on every input, and when it
succeeds the top and every descendant of the tree is an integer, a string, a
list or a dict: no node is unset, a bool or a real. -/
theorem tr_variantParseBenc_kinds (x : Bytes) (e0 : Option Nat) :
    ∃ res, tr_variantParseBenc x e0 = some res ∧
      (res.err = 0 →
        res.top.allNodes parsedKind = true ∧
        res.top.allNodes (fun v => !v.isUnset) = true ∧
        res.top.allNodes (fun v => match v with
          | .bool _ => false
          | .real _ => false
          | _ => true) = true) := by
  have hE : EILSEQ ≠ 0 := by decide
  obtain ⟨r, hr⟩ := parseLoop_initState x
  have hres := tr_variantParseBenc_of_loop x e0 r hr
  by_cases hc : r.err = 0 ∧ r.top.isUnset = false ∧ r.stack.isEmpty = true
  · rw [if_pos hc] at hres
    refine ⟨_, hres, fun _ => ?_⟩
    have hg : Good r.top := tr_variantParseBenc_good x e0 r.top r.buf hres
    have hk := allNodes_mono bencNode parsedKind parsedKind_of_bencNode r.top hg.1
    refine ⟨hk, ?_, ?_⟩
    · exact allNodes_mono parsedKind _ (fun v hv => by cases v <;> simp_all [parsedKind, Variant.isUnset]) r.top hk
    · exact allNodes_mono parsedKind _ (fun v hv => by cases v <;> simp_all [parsedKind]) r.top hk
  · rw [if_neg hc] at hres
    refine ⟨_, hres, fun h0 => ?_⟩
    exfalso
    by_cases he : r.err = 0
    · rw [if_pos he] at h0
      exact hE h0
    · rw [if_neg he] at h0
      exact he h0

/-! ## The serializer: bools -/

/-- Claim C25: for every bool `b` the serializer emits for a bool node
exactly the bytes it emits for the integer node 1 (when `b` is true) or 0
(when it is false), namely `i1e` or `i0e`; the callback `saveBoolFunc` writes
what `saveIntFunc` writes for that integer. -/
theorem tr_variantToBufBenc_bool (fmt : Nat → Bytes) (b : Bool) :
    tr_variantToBufBenc fmt (.bool b) = tr_variantToBufBenc fmt (.int (if b then 1 else 0)) ∧
    tr_variantToBufBenc fmt (.bool b) = bytes (if b then "i1e" else "i0e") ∧
    saveBoolFunc b = saveIntFunc (if b then 1 else 0) ∧
    tr_variantToBufBenc fmt (.list [.bool true, .bool false]) = bytes "li1ei0ee" := by
  have h0 : printInt 0 = [48] := by decide
  have h1 : printInt 1 = [49] := by decide
  have hb : ∀ s : String, bytes s = s.toList.map Char.toNat := fun _ => rfl
  cases b
  · refine ⟨?_, ?_, ?_, ?_⟩ <;>
      simp [tr_variantToBufBenc, tr_variantWalk, walkList, saveBoolFunc, saveIntFunc,
        saveListBeginFunc, saveContainerEndFunc, h0, h1, hb]
  · refine ⟨?_, ?_, ?_, ?_⟩ <;>
      simp [tr_variantToBufBenc, tr_variantWalk, walkList, saveBoolFunc, saveIntFunc,
        saveListBeginFunc, saveContainerEndFunc, h0, h1, hb]

/-! ## Deep nesting and the plain encoding -/

theorem bencode_nestedLists (n : Nat) :
    bencode (nestedLists n) = List.replicate (n + 1) 108 ++ List.replicate (n + 1) 101 := by
  induction n with
  | zero => rfl
  | succ k ih =>
    have h1 : nestedLists (k + 1) = .list [nestedLists k] := rfl
    rw [h1, bencode_list, bencodeList_cons, ih]
    have h2 : bencodeList [] = [] := rfl
    rw [h2, List.replicate_succ (n := k + 1), List.replicate_succ' (n := k + 1)]
    simp

theorem allNodes_nestedLists (p : Variant → Bool) (hp : ∀ l, p (.list l) = true) (n : Nat) :
    (nestedLists n).allNodes p = true := by
  induction n with
  | zero => simp [nestedLists, Variant.allNodes, allNodesList, hp]
  | succ k ih =>
    have h1 : nestedLists (k + 1) = .list [nestedLists k] := rfl
    rw [h1, allNodes_list, allNodesList_cons, ih]
    simp [allNodesList, hp]

/-- Claim C24: for every `N ≥ 1` the input made of `N` bytes `l` followed by
`N` bytes `e` is accepted with all `2 * N` bytes consumed, the tree is `N`
lists nested in one another, and serializing that tree gives the input back;
no depth is refused. -/
theorem tr_variantParseBenc_nested_lists (N : Nat) (hN : 1 ≤ N) (fmt : Nat → Bytes)
    (e0 : Option Nat) :
    tr_variantParseBenc (List.replicate N 108 ++ List.replicate N 101) e0 =
      some ⟨0, nestedLists (N - 1), some (2 * N)⟩ ∧
    tr_variantToBufBenc fmt (nestedLists (N - 1)) =
      List.replicate N 108 ++ List.replicate N 101 := by
  obtain ⟨n, rfl⟩ : ∃ n, N = n + 1 := ⟨N - 1, by omega⟩
  have hn : n + 1 - 1 = n := by omega
  rw [hn]
  have hb : (nestedLists n).isBenc = true := allNodes_nestedLists bencNode (fun _ => rfl) n
  have hi : (nestedLists n).intsFit = true := allNodes_nestedLists int64Node (fun _ => rfl) n
  have hs : (nestedLists n).keysSorted = true := allNodes_nestedLists sortedNode (fun _ => rfl) n
  have hp := tr_variantParseBenc_bencode (nestedLists n) hb hi [] e0
  rw [List.append_nil, bencode_nestedLists] at hp
  have hl : (List.replicate (n + 1) 108 ++ List.replicate (n + 1) 101 : Bytes).length
      = 2 * (n + 1) := by
    simp
    omega
  rw [hl] at hp
  refine ⟨hp, ?_⟩
  rw [tr_variantToBufBenc_canonical fmt _ hb hs, bencode_nestedLists]

theorem tr_variantParseBenc_nested_lists_witness :
    tr_variantParseBenc (bytes "llleee") none =
      some ⟨0, .list [.list [.list []]], some 6⟩ ∧
    tr_variantToBufBenc (fun _ => []) (.list [.list [.list []]]) = bytes "llleee" :=
  tr_variantParseBenc_nested_lists 3 (by decide) (fun _ => []) none

/-- Claim C29: the parser inverts the plain encoding in storage order. For
every tree `t` built only from integers (an integer node holds an `int64_t`),
strings and keys of at most 128 MiB, lists and dicts, parsing `bencode t`
(integers as `i` decimal `e`, strings as length `:` bytes, lists as `l`
children `e`, dicts as `d`, each key string and its value in storage order,
`e`) succeeds, the end position is the length of the input, and the tree
built is `t` itself, list elements and dict entries in input order. Bytes
after the encoding change nothing. -/
theorem tr_variantParseBenc_inverts_bencode (t : Variant) (hb : t.isBenc = true)
    (hi : t.intsFit = true) (e0 : Option Nat) :
    tr_variantParseBenc (bencode t) e0 = some ⟨0, t, some (bencode t).length⟩ ∧
    ∀ rest, tr_variantParseBenc (bencode t ++ rest) e0 = some ⟨0, t, some (bencode t).length⟩ := by
  have h := tr_variantParseBenc_bencode t hb hi
  refine ⟨?_, fun rest => h rest e0⟩
  have h0 := h [] e0
  rwa [List.append_nil] at h0

theorem tr_variantParseBenc_inverts_bencode_witness :
    bencode (.dict [([98], .int (-3)), ([97], .list [.str [120, 121], .dict []]), ([97], .int 0)])
      = bytes "d1:bi-3e1:al2:xydee1:ai0ee" ∧
    tr_variantParseBenc
      (bencode (.dict [([98], .int (-3)), ([97], .list [.str [120, 121], .dict []]),
        ([97], .int 0)])) none =
      some ⟨0, .dict [([98], .int (-3)), ([97], .list [.str [120, 121], .dict []]),
        ([97], .int 0)],
        some (bencode (.dict [([98], .int (-3)), ([97], .list [.str [120, 121], .dict []]),
          ([97], .int 0)])).length⟩ :=
  ⟨by decide,
   (tr_variantParseBenc_inverts_bencode
      (.dict [([98], .int (-3)), ([97], .list [.str [120, 121], .dict []]), ([97], .int 0)])
      (by decide) (by decide) none).1⟩

/-! ## The parse loop: every state it reaches -/

theorem loopHead_succ (x : Bytes) (n : Nat) (st : ParseState) :
    loopHead x (n + 1) st =
      if st.buf = x.length then none
      else
        match loopBody x st with
        | (st1, false) => loopHead x n st1
        | (_, true) => none := rfl

/-- After `n` passes that stay in the loop the cursor has moved forward by
at least `n` bytes and is inside the window. -/
theorem loopHead_buf (x : Bytes) (n : Nat) (st st2 : ParseState)
    (h : loopHead x n st = some st2) (hle : st.buf ≤ x.length) :
    st.buf + n ≤ st2.buf ∧ st2.buf ≤ x.length := by
  induction n generalizing st with
  | zero =>
    simp only [loopHead, Option.some.injEq] at h
    subst h
    omega
  | succ k ih =>
    rw [loopHead_succ] at h
    by_cases heq : st.buf = x.length
    · rw [if_pos heq] at h
      exact absurd h (by simp)
    · rw [if_neg heq] at h
      cases hb : loopBody x st with
      | mk st1 b =>
        rw [hb] at h
        cases b with
        | true => exact absurd h (by simp)
        | false =>
          have hbuf := loopBody_buf x st st1 false hb (by omega)
          have := ih st1 h hbuf.2.1
          have := hbuf.2.2 (Or.inr rfl)
          omega

/-- The passes counted by `loopHead` are passes of the loop. -/
theorem loopHead_parseLoop (x : Bytes) (n : Nat) (st st2 : ParseState)
    (h : loopHead x n st = some st2) (fuel : Nat) :
    parseLoop x (n + fuel) st = parseLoop x fuel st2 := by
  induction n generalizing st with
  | zero =>
    simp only [loopHead, Option.some.injEq] at h
    subst h
    rw [Nat.zero_add]
  | succ k ih =>
    rw [loopHead_succ] at h
    by_cases heq : st.buf = x.length
    · rw [if_pos heq] at h
      exact absurd h (by simp)
    · rw [if_neg heq] at h
      have hk : k + 1 + fuel = (k + fuel) + 1 := by omega
      rw [hk, parseLoop_succ, if_neg heq]
      cases hb : loopBody x st with
      | mk st1 b =>
        rw [hb] at h
        cases b with
        | true => exact absurd h (by simp)
        | false => exact ih st1 h

/-- A successful parse has moved the cursor. -/
theorem parseLoop_success_pos (x : Bytes) (fuel : Nat) (r : ParseState)
    (h : parseLoop x fuel initState = some r) (he : r.err = 0) (ht : r.top.isUnset = false) :
    0 < r.buf ∧ r.buf ≤ x.length := by
  have hle : initState.buf ≤ x.length := Nat.zero_le _
  refine ⟨?_, (parseLoop_buf x fuel initState r h hle).2⟩
  cases fuel with
  | zero => simp [parseLoop] at h
  | succ f =>
    rw [parseLoop_succ] at h
    by_cases heq : initState.buf = x.length
    · rw [if_pos heq] at h
      simp only [Option.some.injEq] at h
      subst h
      exact absurd ht (by simp [initState, Variant.isUnset])
    · rw [if_neg heq] at h
      have hlt : initState.buf < x.length := by omega
      cases hb : loopBody x initState with
      | mk st1 b =>
        rw [hb] at h
        have hbuf := loopBody_buf x initState st1 b hb hlt
        cases b with
        | true =>
          simp only [Option.some.injEq] at h
          subst h
          have := hbuf.2.2 (Or.inl he)
          omega
        | false =>
          have h1 := hbuf.2.2 (Or.inr rfl)
          have h2 := parseLoop_buf x f st1 r h hbuf.2.1
          omega

/-- Claim C30, amended: every state the loop of `tr_variantParseBenc` reaches
has its cursor inside the buffer (`buf > bufend` never holds); a pass from
such a state never moves the cursor backwards nor past the end of the
buffer, and moves it forward by at least one byte unless it leaves the loop
with an error; the loop is left within as many passes as the input has
bytes, so the parser returns on every input; and an end offset reported on
success is greater than 0 and at most the input length. -/
theorem tr_variantParseBenc_progress (x : Bytes) (e0 : Option Nat) :
    (∀ n st, loopHead x n initState = some st →
      st.buf ≤ x.length ∧
      (st.buf ≠ x.length → ∀ st1 b, loopBody x st = (st1, b) →
        st.buf ≤ st1.buf ∧ st1.buf ≤ x.length ∧
        ((b = false ∨ st1.err = 0) → st.buf + 1 ≤ st1.buf))) ∧
    (∀ n, x.length < n → loopHead x n initState = none) ∧
    (∃ res, tr_variantParseBenc x e0 = some res ∧
      (res.err = 0 → ∃ e, res.setme_end = some e ∧ 0 < e ∧ e ≤ x.length)) := by
  have hE : EILSEQ ≠ 0 := by decide
  have h0 : initState.buf ≤ x.length := Nat.zero_le _
  refine ⟨?_, ?_, ?_⟩
  · intro n st h
    have hb := loopHead_buf x n initState st h h0
    refine ⟨hb.2, fun hne st1 b hl => ?_⟩
    have hbuf := loopBody_buf x st st1 b hl (by omega)
    refine ⟨hbuf.1, hbuf.2.1, fun hc => ?_⟩
    have := hbuf.2.2 (hc.symm)
    omega
  · intro n hn
    cases hl : loopHead x n initState with
    | none => rfl
    | some st =>
      have hb := loopHead_buf x n initState st hl h0
      omega
  · obtain ⟨r, hr⟩ := parseLoop_initState x
    have hres := tr_variantParseBenc_of_loop x e0 r hr
    by_cases hc : r.err = 0 ∧ r.top.isUnset = false ∧ r.stack.isEmpty = true
    · rw [if_pos hc] at hres
      have hp := parseLoop_success_pos x _ r hr hc.1 hc.2.1
      exact ⟨_, hres, fun _ => ⟨r.buf, rfl, hp.1, hp.2⟩⟩
    · rw [if_neg hc] at hres
      refine ⟨_, hres, fun h1 => ?_⟩
      exfalso
      by_cases he : r.err = 0
      · rw [if_pos he] at h1
        exact hE h1
      · rw [if_neg he] at h1
        exact he h1

/-- Claim C30 as stated fails: on the input `i` the first pass of the loop
leaves the cursor at offset 0 (the integer scanner rejects the token and the
loop is left), and on `li64` the second pass leaves it at offset 1. -/
theorem tr_variantParseBenc_progress_counterexample :
    (loopHead (bytes "i") 0 initState = some initState ∧
      initState.buf ≠ (bytes "i").length ∧
      loopBody (bytes "i") initState = ({ initState with err := EILSEQ }, true) ∧
      ¬ (initState.buf + 1 ≤ (loopBody (bytes "i") initState).1.buf)) ∧
    (loopHead (bytes "li64") 1 initState =
        some { buf := 1, stack := [⟨.list [], Slot.top⟩], key := none, top := .list [],
               err := 0 } ∧
      (loopBody (bytes "li64")
        { buf := 1, stack := [⟨.list [], Slot.top⟩], key := none, top := .list [],
          err := 0 }).1.buf = 1) :=
  ⟨⟨rfl, by decide, rfl, by decide⟩, rfl, rfl⟩

/-! ## The parse loop does not depend on where the cursor is -/

theorem initNode_setBuf (b b2 : Nat) (s : List Frame) (k : Option Key) (t : Variant) (e : Nat)
    (slot : Slot) (v : Variant) :
    initNode ⟨b2, s, k, t, e⟩ slot v = { initNode ⟨b, s, k, t, e⟩ slot v with buf := b2 } := by
  cases slot with
  | top => rfl
  | listChild => cases s <;> rfl
  | dictChild k => cases s <;> rfl

theorem placeScalar_setBuf (b b2 : Nat) (s : List Frame) (k : Option Key) (t : Variant) (e : Nat)
    (u : Variant) :
    placeScalar ⟨b2, s, k, t, e⟩ u = { placeScalar ⟨b, s, k, t, e⟩ u with buf := b2 } := by
  simp only [placeScalar]
  rcases hg : get_node s k e with ⟨_ | slot, k2, e2⟩
  · rfl
  · exact initNode_setBuf b b2 s k2 t e2 slot u

theorem openContainer_setBuf (b b2 : Nat) (s : List Frame) (k : Option Key) (t : Variant)
    (e : Nat) (u : Variant) :
    openContainer ⟨b2, s, k, t, e⟩ u = { openContainer ⟨b, s, k, t, e⟩ u with buf := b2 } := by
  simp only [openContainer]
  rcases hg : get_node s k e with ⟨_ | slot, k2, e2⟩
  · rfl
  · cases slot <;> rfl

theorem pop_back_setBuf (b b2 : Nat) (s : List Frame) (k : Option Key) (t : Variant) (e : Nat) :
    pop_back ⟨b2, s, k, t, e⟩ = { pop_back ⟨b, s, k, t, e⟩ with buf := b2 } := by
  cases s with
  | nil => rfl
  | cons f rest => exact initNode_setBuf b b2 rest k t e f.slot f.node

/-- A pass started with the cursor `k` bytes further on the same window
does the same and ends `k` bytes further. -/
theorem dispatch_shift (w : Bytes) (st : ParseState) (k : Nat) :
    dispatch w { st with buf := st.buf + k } =
      ({ (dispatch w st).1 with buf := (dispatch w st).1.buf + k }, (dispatch w st).2) := by
  obtain ⟨buf, stack, key, top, err⟩ := st
  simp only [dispatch]
  split_ifs
  all_goals try rfl
  · generalize (tr_bencParseInt w none 0).setme_end.getD 0 = n
    rw [placeScalar_setBuf (buf + n) (buf + k + n)]
    simp [placeScalar_buf, Nat.add_right_comm]
  · rw [openContainer_setBuf (buf + 1) (buf + k + 1)]
    simp [openContainer_buf, Nat.add_right_comm]
  · rw [openContainer_setBuf (buf + 1) (buf + k + 1)]
    simp [openContainer_buf, Nat.add_right_comm]
  · simp [Nat.add_right_comm]
  · rw [pop_back_setBuf (buf + 1) (buf + k + 1)]
    simp [pop_back_buf, Nat.add_right_comm]
  · simp [Nat.add_right_comm]
  · generalize (tr_bencParseStr w none none 0).setme_end.getD 0 = n
    rw [placeScalar_setBuf (buf + n) (buf + k + n)]
    simp [placeScalar_buf, Nat.add_right_comm]
  · simp [Nat.add_right_comm]

/-- One pass of the loop on an input that holds, `k` bytes further, what
the given input holds at the cursor. -/
theorem loopBody_shift (x y : Bytes) (k : Nat) (st : ParseState) (hle : st.buf ≤ x.length)
    (hlen : y.length = x.length + k) (hd : y.drop (st.buf + k) = x.drop st.buf) :
    loopBody y { st with buf := st.buf + k } =
      ({ (loopBody x st).1 with buf := (loopBody x st).1.buf + k }, (loopBody x st).2) := by
  have h1 : ¬ st.buf > x.length := by omega
  have h2 : ¬ st.buf + k > y.length := by omega
  unfold loopBody
  simp only [h1, h2, if_false]
  by_cases he : st.err = 0
  · have he2 : ¬ st.err ≠ 0 := fun h => h he
    simp only [he2, if_false]
    rw [hd]
    exact dispatch_shift (x.drop st.buf) st k
  · simp only [ne_eq, he, not_false_eq_true, if_true]

/-- The whole loop likewise: the same run, every cursor `k` bytes further. -/
theorem parseLoop_shift (x y : Bytes) (k : Nat) (hlen : y.length = x.length + k) (fuel : Nat)
    (st : ParseState) (hle : st.buf ≤ x.length) (hd : y.drop (st.buf + k) = x.drop st.buf) :
    parseLoop y fuel { st with buf := st.buf + k } =
      (parseLoop x fuel st).map (fun r => { r with buf := r.buf + k }) := by
  induction fuel generalizing st with
  | zero => rfl
  | succ f ih =>
    rw [parseLoop_succ, parseLoop_succ]
    by_cases heq : st.buf = x.length
    · have heq2 : st.buf + k = y.length := by omega
      rw [if_pos heq,
        if_pos (show ({ st with buf := st.buf + k } : ParseState).buf = y.length from heq2)]
      rfl
    · have hne2 : ¬ st.buf + k = y.length := by omega
      rw [if_neg heq,
        if_neg (show ¬ ({ st with buf := st.buf + k } : ParseState).buf = y.length from hne2),
        loopBody_shift x y k st hle hlen hd]
      cases hb : loopBody x st with
      | mk st1 b =>
        have hbuf := loopBody_buf x st st1 b hb (by omega)
        cases b with
        | true => simp only [Option.map_some']
        | false =>
          simp only
          have hd1 : y.drop (st1.buf + k) = x.drop st1.buf := by
            have e1 : st1.buf + k = (st.buf + k) + (st1.buf - st.buf) := by omega
            have e2 : st1.buf = st.buf + (st1.buf - st.buf) := by omega
            rw [e1, ← List.drop_drop, hd, List.drop_drop, ← e2]
          exact ih st1 hbuf.2.1 hd1

/-- A state reached without error comes from states without error. -/
theorem loopHead_err (x : Bytes) (n : Nat) (st st2 : ParseState)
    (h : loopHead x n st = some st2) (he : st2.err = 0) : st.err = 0 := by
  cases n with
  | zero =>
    simp only [loopHead, Option.some.injEq] at h
    subst h
    exact he
  | succ k =>
    rw [loopHead_succ] at h
    by_cases heq : st.buf = x.length
    · rw [if_pos heq] at h
      exact absurd h (by simp)
    · rw [if_neg heq] at h
      by_contra hne
      cases hb : loopBody x st with
      | mk st1 b =>
        rw [hb] at h
        have := (loopBody_err x st st1 b hne hb).2
        subst this
        exact absurd h (by simp)

/-- The passes that lead to a state without error run the same way on any
input that agrees with the given one up to the cursor of that state. -/
theorem loopHead_local (x y : Bytes) (n : Nat) (st st2 : ParseState)
    (h : loopHead x n st = some st2) (he : st2.err = 0) (hle : st.buf ≤ x.length)
    (hag : y.take st2.buf = x.take st2.buf) (hlen : st2.buf ≤ y.length) :
    loopHead y n st = some st2 := by
  induction n generalizing st with
  | zero => exact h
  | succ k ih =>
    have he0 := loopHead_err x (k + 1) st st2 h he
    rw [loopHead_succ] at h ⊢
    by_cases heq : st.buf = x.length
    · rw [if_pos heq] at h
      exact absurd h (by simp)
    · rw [if_neg heq] at h
      have hlt : st.buf < x.length := by omega
      cases hb : loopBody x st with
      | mk st1 b =>
        rw [hb] at h
        cases b with
        | true => exact absurd h (by simp)
        | false =>
          simp only at h
          have hbuf := loopBody_buf x st st1 false hb hlt
          have hadv := hbuf.2.2 (Or.inr rfl)
          have hb2 := loopHead_buf x k st1 st2 h hbuf.2.1
          have he1 := loopHead_err x k st1 st2 h he
          rw [loopBody_eq x st hle he0] at hb
          have hag1 := take_agree_le x y st1.buf st2.buf (by omega) hag
          have hd2 : dispatch (y.drop st.buf) st = (st1, false) :=
            dispatch_local _ _ st st1 false hb (drop_ne_nil x st.buf hlt) he1
              (take_drop_agree x y _ _ hag1)
          have hne : ¬ st.buf = y.length := by omega
          rw [if_neg hne, loopBody_eq y st (by omega) he0, hd2]
          exact ih st1 h hbuf.2.1

/-! ## Stray bytes inside a container -/

/-- Claim C28: while a container is open and no error is recorded, a byte at
the cursor that is none of `i`, `l`, `d`, `e` or a decimal digit is skipped:
the pass moves the cursor by exactly one byte, leaves the stack, the pending
key, the tree and the error as they are, and stays in the loop. Hence, when
the parser run on the input without that byte reaches the same state `st`
at that place, the input with the byte gives the same error and the same
tree, with the end offset one further; `l?i1ee` parses to the tree of
`li1ee`. -/
theorem tr_variantParseBenc_stray_byte (x : Bytes) (st : ParseState) (c : Nat) (w : Bytes)
    (he : st.err = 0) (hs : st.stack ≠ []) (hw : x.drop st.buf = c :: w)
    (hc : c ≠ 105 ∧ c ≠ 108 ∧ c ≠ 100 ∧ c ≠ 101 ∧ isdigit c = false) :
    loopBody x st = ({ st with buf := st.buf + 1 }, false) ∧
    (∀ n e0, loopHead (x.take st.buf ++ w) n initState = some st →
      ∃ res, tr_variantParseBenc (x.take st.buf ++ w) e0 = some res ∧
        tr_variantParseBenc x e0 =
          some ⟨res.err, res.top,
            if res.err = 0 then res.setme_end.map (· + 1) else res.setme_end⟩) ∧
    (∀ e0, tr_variantParseBenc (bytes "li1ee") e0 = some ⟨0, .list [.int 1], some 5⟩) ∧
    (∀ e0, tr_variantParseBenc (bytes "l?i1ee") e0 = some ⟨0, .list [.int 1], some 6⟩) := by
  have hE : EILSEQ ≠ 0 := by decide
  have hne : x.drop st.buf ≠ [] := by
    rw [hw]
    simp
  have hlt := lt_of_drop_ne_nil x st.buf hne
  have hstep : loopBody x st = ({ st with buf := st.buf + 1 }, false) := by
    rw [loopBody_eq x st (by omega) he, hw,
      dispatch_other (c :: w) st hc.1 hc.2.1 hc.2.2.1 hc.2.2.2.1 hc.2.2.2.2]
    cases hst : st.stack with
    | nil => exact absurd hst hs
    | cons f fs => rfl
  refine ⟨hstep, ?_, fun _ => rfl, fun _ => rfl⟩
  intro n e0 hrun
  have hpl : (x.take st.buf).length = st.buf := by
    rw [List.length_take]
    omega
  have hx : x = x.take st.buf ++ c :: w := by
    conv_lhs => rw [← List.take_append_drop st.buf x, hw]
  have hlen0 : (x.take st.buf ++ w).length = st.buf + w.length := by
    rw [List.length_append, hpl]
  have hlen : x.length = (x.take st.buf ++ w).length + 1 := by
    conv_lhs => rw [hx]
    rw [List.length_append, List.length_append, List.length_cons]
    omega
  have hd0 : (x.take st.buf ++ w).drop st.buf = w := drop_append_length _ _ _ hpl
  have hag : x.take st.buf = (x.take st.buf ++ w).take st.buf := by
    have hgen : ∀ (p : Bytes) (k : Nat), p.length = k → p = (p ++ w).take k := by
      intro p k h
      subst h
      simp
    exact hgen _ _ hpl
  have h1 := loopHead_local (x.take st.buf ++ w) x n initState st hrun he (Nat.zero_le _) hag
    (by omega)
  obtain ⟨r, hr⟩ := parseLoop_total (x.take st.buf ++ w) ((x.take st.buf ++ w).length + 1) st
    (by omega) (by omega)
  have hx0 := (loopHead_parseLoop _ n initState st hrun _).trans hr
  have hd1 : x.drop (st.buf + 1) = (x.take st.buf ++ w).drop st.buf := by
    rw [hd0, ← List.drop_drop, hw]
    rfl
  have hsh := parseLoop_shift (x.take st.buf ++ w) x 1 hlen
    ((x.take st.buf ++ w).length + 1) st (by omega) hd1
  rw [hr] at hsh
  have hxr : parseLoop x (n + ((x.take st.buf ++ w).length + 1 + 1)) initState =
      some { r with buf := r.buf + 1 } := by
    rw [loopHead_parseLoop x n initState st h1, parseLoop_succ, if_neg (by omega), hstep]
    exact hsh
  rw [tr_variantParseBenc_of_fuel _ e0 _ r hx0, tr_variantParseBenc_of_fuel x e0 _ _ hxr]
  by_cases hcnd : r.err = 0 ∧ r.top.isUnset = false ∧ r.stack.isEmpty = true
  · refine ⟨_, rfl, ?_⟩
    rw [if_pos hcnd, if_pos hcnd]
    rfl
  · refine ⟨_, rfl, ?_⟩
    rw [if_neg hcnd, if_neg hcnd]
    by_cases he0 : r.err = 0
    · simp [he0, hE]
    · simp [he0]

theorem tr_variantParseBenc_stray_byte_witness :
    (bytes "d1:al?i1eee").drop 5 = 63 :: bytes "i1eee" ∧
    loopBody (bytes "d1:al?i1eee")
      { buf := 5, stack := [⟨.list [], Slot.dictChild [97]⟩, ⟨.dict [], Slot.top⟩],
        key := none, top := .dict [], err := 0 } =
      ({ buf := 6, stack := [⟨.list [], Slot.dictChild [97]⟩, ⟨.dict [], Slot.top⟩],
         key := none, top := .dict [], err := 0 }, false) ∧
    loopHead (bytes "d1:ali1eee") 3 initState =
      some { buf := 5, stack := [⟨.list [], Slot.dictChild [97]⟩, ⟨.dict [], Slot.top⟩],
             key := none, top := .dict [], err := 0 } ∧
    tr_variantParseBenc (bytes "d1:ali1eee") none =
      some ⟨0, .dict [([97], .list [.int 1])], some 10⟩ ∧
    tr_variantParseBenc (bytes "d1:al?i1eee") none =
      some ⟨0, .dict [([97], .list [.int 1])], some 11⟩ :=
  ⟨rfl,
   (tr_variantParseBenc_stray_byte (bytes "d1:al?i1eee")
      { buf := 5, stack := [⟨.list [], Slot.dictChild [97]⟩, ⟨.dict [], Slot.top⟩],
        key := none, top := .dict [], err := 0 }
      63 (bytes "i1eee") rfl (by simp) rfl (by decide)).1,
   rfl, rfl, rfl⟩

/-! ## Lookup in a dict and merge -/

theorem dictFind_cons (k : Key) (v : Variant) (rest : List (Key × Variant)) (key : Key) :
    dictFind ((k, v) :: rest) key = if k = key then some v else dictFind rest key := rfl

theorem dictReplace_cons (k : Key) (old : Variant) (rest : List (Key × Variant)) (key : Key)
    (v : Variant) :
    dictReplace ((k, old) :: rest) key v =
      if k = key then (k, v) :: rest else (k, old) :: dictReplace rest key v := rfl

theorem dictFind_replace_ne (l : List (Key × Variant)) (k k2 : Key) (v : Variant)
    (h : k2 ≠ k) : dictFind (dictReplace l k2 v) k = dictFind l k := by
  induction l with
  | nil => rfl
  | cons e rest ih =>
    obtain ⟨k1, old⟩ := e
    rw [dictReplace_cons]
    by_cases h1 : k1 = k2
    · rw [if_pos h1, dictFind_cons, dictFind_cons]
      have h2 : ¬ k1 = k := by
        rw [h1]
        exact h
      rw [if_neg h2, if_neg h2]
    · rw [if_neg h1, dictFind_cons, dictFind_cons, ih]

theorem dictFind_replace_eq (l : List (Key × Variant)) (k : Key) (v d : Variant)
    (h : dictFind l k = some d) : dictFind (dictReplace l k v) k = some v := by
  induction l with
  | nil => simp [dictFind] at h
  | cons e rest ih =>
    obtain ⟨k1, old⟩ := e
    rw [dictReplace_cons]
    rw [dictFind_cons] at h
    by_cases h1 : k1 = k
    · rw [if_pos h1, dictFind_cons, if_pos h1]
    · rw [if_neg h1] at h
      rw [if_neg h1, dictFind_cons, if_neg h1]
      exact ih h

theorem dictFind_append_none (l m : List (Key × Variant)) (k : Key)
    (h : dictFind l k = none) : dictFind (l ++ m) k = dictFind m k := by
  induction l with
  | nil => rfl
  | cons e rest ih =>
    obtain ⟨k1, old⟩ := e
    rw [dictFind_cons] at h
    rw [List.cons_append, dictFind_cons]
    by_cases h1 : k1 = k
    · rw [if_pos h1] at h
      exact absurd h (by simp)
    · rw [if_neg h1] at h
      rw [if_neg h1]
      exact ih h

theorem dictFind_append_some (l m : List (Key × Variant)) (k : Key) (d : Variant)
    (h : dictFind l k = some d) : dictFind (l ++ m) k = some d := by
  induction l with
  | nil => simp [dictFind] at h
  | cons e rest ih =>
    obtain ⟨k1, old⟩ := e
    rw [dictFind_cons] at h
    rw [List.cons_append, dictFind_cons]
    by_cases h1 : k1 = k
    · rw [if_pos h1] at h
      rw [if_pos h1]
      exact h
    · rw [if_neg h1] at h
      rw [if_neg h1]
      exact ih h

theorem dictFind_isSome_iff (l : List (Key × Variant)) (k : Key) :
    (dictFind l k).isSome = true ↔ ∃ e ∈ l, e.1 = k := by
  induction l with
  | nil => simp [dictFind]
  | cons e rest ih =>
    obtain ⟨k1, old⟩ := e
    rw [dictFind_cons]
    by_cases h1 : k1 = k
    · simp [h1]
    · rw [if_neg h1, ih]
      simp [h1]

theorem mergeEntries_nil (dl : List (Key × Variant)) : mergeEntries [] dl = dl := by
  rw [mergeEntries]

theorem mergeEntries_cons (k : Key) (v : Variant) (rest dl : List (Key × Variant)) :
    mergeEntries ((k, v) :: rest) dl =
      mergeEntries rest
        (match dictFind dl k with
         | some d => dictReplace dl k (mergeOver v d)
         | none => dl ++ [(k, v)]) := by
  rw [mergeEntries]

theorem mergeOver_dict (sl dl : List (Key × Variant)) :
    mergeOver (.dict sl) (.dict dl) = .dict (mergeEntries sl dl) := by
  rw [mergeOver]

theorem mergeOver_replace (s d : Variant)
    (h : ¬ (tr_variantIsDict s = true ∧ tr_variantIsDict d = true)) : mergeOver s d = s := by
  cases s <;> cases d <;> simp_all [mergeOver, tr_variantIsDict]

/-- What one entry of src does to the lookup of a key in dest. -/
theorem dictFind_merge_step (dl : List (Key × Variant)) (k2 : Key) (v : Variant) (k : Key) :
    dictFind
      (match dictFind dl k2 with
       | some d => dictReplace dl k2 (mergeOver v d)
       | none => dl ++ [(k2, v)]) k =
      if k2 = k then
        some (match dictFind dl k with
          | some d => mergeOver v d
          | none => v)
      else dictFind dl k := by
  by_cases h : k2 = k
  · subst h
    rw [if_pos rfl]
    cases hf : dictFind dl k2 with
    | none =>
      simp only []
      rw [dictFind_append_none dl _ k2 hf, dictFind_cons, if_pos rfl]
    | some d =>
      simp only []
      exact dictFind_replace_eq dl k2 _ d hf
  · rw [if_neg h]
    cases hf : dictFind dl k2 with
    | none =>
      simp only []
      cases hk : dictFind dl k with
      | none => rw [dictFind_append_none dl _ k hk, dictFind_cons, if_neg h]; rfl
      | some d => exact dictFind_append_some dl _ k d hk
    | some d =>
      simp only []
      exact dictFind_replace_ne dl k k2 _ h

/-- The lookup of a key after a merge: the values src holds under the key
are laid, in storage order, over what dest held under it. -/
theorem dictFind_mergeEntries (sl dl : List (Key × Variant)) (k : Key) :
    dictFind (mergeEntries sl dl) k =
      (sl.filter (fun e => decide (e.1 = k))).foldl
        (fun acc e => some (match acc with
          | some d => mergeOver e.2 d
          | none => e.2))
        (dictFind dl k) := by
  induction sl generalizing dl with
  | nil => rw [mergeEntries_nil]; rfl
  | cons e rest ih =>
    obtain ⟨k2, v⟩ := e
    rw [mergeEntries_cons, ih, dictFind_merge_step]
    by_cases h : k2 = k
    · rw [if_pos h, List.filter_cons_of_pos (by simpa using h), List.foldl_cons]
    · rw [if_neg h, List.filter_cons_of_neg (by simpa using h)]

theorem filter_key_absent (sl : List (Key × Variant)) (k : Key) (h : ∀ e ∈ sl, e.1 ≠ k) :
    sl.filter (fun e => decide (e.1 = k)) = [] := by
  rw [List.filter_eq_nil_iff]
  intro e he
  simpa using h e he

/-- Claim C26, amended: after `merge(dest, src)` on two dicts, merge has
deleted no key of dest; a key absent from src looks up to what it did
before; every key of src is present in dest; a key src holds once looks up
to the value of src laid over what dest held, which is src's value itself
unless both are dicts, in which case it is the recursive merge of the two;
in general the values src holds under a key are laid over dest's one after
the other. The dicts of the test `merge` give the lookups the test
expects. -/
theorem tr_variantMergeDicts_lookup (dl sl : List (Key × Variant)) :
    (∀ k, (tr_variantDictFind (.dict dl) k).isSome = true →
      (tr_variantDictFind (tr_variantMergeDicts (.dict dl) (.dict sl)) k).isSome = true) ∧
    (∀ k, tr_variantDictFind (.dict sl) k = none →
      tr_variantDictFind (tr_variantMergeDicts (.dict dl) (.dict sl)) k =
        tr_variantDictFind (.dict dl) k) ∧
    (∀ k, (tr_variantDictFind (.dict sl) k).isSome = true →
      (tr_variantDictFind (tr_variantMergeDicts (.dict dl) (.dict sl)) k).isSome = true) ∧
    (∀ s1 k v s2, sl = s1 ++ (k, v) :: s2 → (∀ e ∈ s1, e.1 ≠ k) → (∀ e ∈ s2, e.1 ≠ k) →
      tr_variantDictFind (tr_variantMergeDicts (.dict dl) (.dict sl)) k =
        some (match tr_variantDictFind (.dict dl) k with
          | some d => mergeOver v d
          | none => v) ∧
      (¬ (tr_variantIsDict v = true ∧
          ∃ d, tr_variantDictFind (.dict dl) k = some d ∧ tr_variantIsDict d = true) →
        tr_variantDictFind (tr_variantMergeDicts (.dict dl) (.dict sl)) k = some v)) ∧
    (∀ k, tr_variantDictFind (tr_variantMergeDicts (.dict dl) (.dict sl)) k =
      (sl.filter (fun e => decide (e.1 = k))).foldl
        (fun acc e => some (match acc with
          | some d => mergeOver e.2 d
          | none => e.2))
        (tr_variantDictFind (.dict dl) k)) ∧
    (tr_variantDictFindInt (tr_variantMergeDicts mergeTestDest mergeTestSrc) (bytes "i1") 0
        = (true, 1) ∧
      tr_variantDictFindInt (tr_variantMergeDicts mergeTestDest mergeTestSrc) (bytes "i2") 0
        = (true, 4) ∧
      tr_variantDictFindInt (tr_variantMergeDicts mergeTestDest mergeTestSrc) (bytes "i3") 0
        = (true, 3) ∧
      tr_variantDictFindInt (tr_variantMergeDicts mergeTestDest mergeTestSrc) (bytes "i4") 0
        = (true, -35) ∧
      tr_variantDictFind (tr_variantMergeDicts mergeTestDest mergeTestSrc) (bytes "s5")
        = some (.str (bytes "abc")) ∧
      tr_variantDictFind (tr_variantMergeDicts mergeTestDest mergeTestSrc) (bytes "s6")
        = some (.str (bytes "xyz")) ∧
      tr_variantDictFind (tr_variantMergeDicts mergeTestDest mergeTestSrc) (bytes "s7")
        = some (.str (bytes "127.0.0.1")) ∧
      tr_variantDictFind (tr_variantMergeDicts mergeTestDest mergeTestSrc) (bytes "s8")
        = some (.str (bytes "ghi"))) := by
  have hm : tr_variantMergeDicts (.dict dl) (.dict sl) = .dict (mergeEntries sl dl) := rfl
  have hf : ∀ (l : List (Key × Variant)) k, tr_variantDictFind (.dict l) k = dictFind l k :=
    fun _ _ => rfl
  have hall := dictFind_mergeEntries sl dl
  have hstay : ∀ (l : List (Key × Variant)) (a : Option Variant), a.isSome = true →
      (l.foldl (fun acc e => some (match acc with
          | some d => mergeOver e.2 d
          | none => e.2)) a).isSome = true := by
    intro l
    induction l with
    | nil => exact fun a ha => ha
    | cons e rest ih => exact fun a _ => ih _ rfl
  have honce : ∀ s1 k v s2, sl = s1 ++ (k, v) :: s2 → (∀ e ∈ s1, e.1 ≠ k) →
      (∀ e ∈ s2, e.1 ≠ k) →
      dictFind (mergeEntries sl dl) k =
        some (match dictFind dl k with
          | some d => mergeOver v d
          | none => v) := by
    intro s1 k v s2 hsl h1 h2
    rw [hall k, hsl, List.filter_append, filter_key_absent s1 k h1, List.nil_append,
      List.filter_cons_of_pos (by simp), filter_key_absent s2 k h2]
    rfl
  rw [hm]
  simp only [hf]
  refine ⟨?_, ?_, ?_, ?_, hall, rfl, rfl, rfl, rfl, rfl, rfl, rfl, rfl⟩
  · intro k hk
    rw [hall k]
    exact hstay _ _ hk
  · intro k hk
    have habs : ∀ e ∈ sl, e.1 ≠ k := by
      intro e he hek
      have : (dictFind sl k).isSome = true := (dictFind_isSome_iff sl k).mpr ⟨e, he, hek⟩
      rw [hk] at this
      exact absurd this (by simp)
    rw [hall k, filter_key_absent sl k habs]
    rfl
  · intro k hk
    obtain ⟨e, he, hek⟩ := (dictFind_isSome_iff sl k).mp hk
    obtain ⟨s1, s2, hsl⟩ := List.append_of_mem he
    rw [hall k, hsl, List.filter_append, List.foldl_append,
      List.filter_cons_of_pos (by simpa using hek), List.foldl_cons]
    exact hstay _ _ rfl
  · intro s1 k v s2 hsl h1 h2
    refine ⟨honce s1 k v s2 hsl h1 h2, fun hnd => ?_⟩
    rw [honce s1 k v s2 hsl h1 h2]
    cases hd : dictFind dl k with
    | none => rfl
    | some d =>
      simp only []
      rw [mergeOver_replace v d (fun h => hnd ⟨h.1, d, hd, h.2⟩)]

/-- Claim C26 as stated fails when a dict goes over a dict: the key `a` of
src, whose value in src is the dict with the one key `y`, looks up in dest
after the merge to the dict with the keys `x` and `y`. It fails also when
src holds a key twice: the lookup in src gives the first value, dest ends
with the last. -/
theorem tr_variantMergeDicts_lookup_counterexample :
    (tr_variantDictFind (.dict [([97], .dict [([121], .int 2)])]) [97] =
        some (.dict [([121], .int 2)]) ∧
      tr_variantDictFind
        (tr_variantMergeDicts (.dict [([97], .dict [([120], .int 1)])])
          (.dict [([97], .dict [([121], .int 2)])])) [97] =
        some (.dict [([120], .int 1), ([121], .int 2)]) ∧
      Variant.dict [([120], .int 1), ([121], .int 2)] ≠ .dict [([121], .int 2)]) ∧
    (tr_variantDictFind (.dict [([97], .int 1), ([97], .int 2)]) [97] = some (.int 1) ∧
      tr_variantDictFind
        (tr_variantMergeDicts (.dict []) (.dict [([97], .int 1), ([97], .int 2)])) [97] =
        some (.int 2) ∧
      Variant.int 2 ≠ .int 1) :=
  ⟨⟨rfl, rfl, by simp⟩, rfl, rfl, by simp⟩

/-! ## Typed lookups: bools and ints -/

/-- Claim C27, amended: `find_int` on a bool-valued entry succeeds and
returns 1 for true and 0 for false; `find_bool` on an int-valued entry whose
int is 0 or 1 succeeds and returns false for 0 and true for 1. On the int
1234 `find_bool` fails and leaves the out-parameter as it was, as the test
`dictFindType` expects; the expectations of that test and of
`boolAndIntRecast` on bools and ints hold. -/
theorem tr_variantDictFindInt_bool_symmetry (l : List (Key × Variant)) (key : Key) (b b0 : Bool)
    (i i0 : Int) :
    (tr_variantDictFind (.dict l) key = some (.bool b) →
      tr_variantDictFindInt (.dict l) key i0 = (true, if b then 1 else 0)) ∧
    (tr_variantDictFind (.dict l) key = some (.int i) → i = 0 ∨ i = 1 →
      tr_variantDictFindBool (.dict l) key b0 = (true, decide (i ≠ 0))) ∧
    (tr_variantDictFindBool boolAndIntRecastTop (bytes "key1") b0 = (true, false) ∧
      tr_variantDictFindBool boolAndIntRecastTop (bytes "key2") b0 = (true, false) ∧
      tr_variantDictFindBool boolAndIntRecastTop (bytes "key3") b0 = (true, true) ∧
      tr_variantDictFindBool boolAndIntRecastTop (bytes "key4") b0 = (true, true) ∧
      tr_variantDictFindInt boolAndIntRecastTop (bytes "key1") i0 = (true, 0) ∧
      tr_variantDictFindInt boolAndIntRecastTop (bytes "key2") i0 = (true, 0) ∧
      tr_variantDictFindInt boolAndIntRecastTop (bytes "key3") i0 = (true, 1) ∧
      tr_variantDictFindInt boolAndIntRecastTop (bytes "key4") i0 = (true, 1)) ∧
    (tr_variantDictFindBool dictFindTypeTop (bytes "this-is-an-int") b0 = (false, b0) ∧
      tr_variantDictFindBool dictFindTypeTop (bytes "this-is-a-real") b0 = (false, b0) ∧
      tr_variantDictFindBool dictFindTypeTop (bytes "this-is-a-string") b0 = (false, b0) ∧
      tr_variantDictFindBool dictFindTypeTop (bytes "this-is-a-bool") b0 = (true, true) ∧
      tr_variantDictFindInt dictFindTypeTop (bytes "this-is-a-bool") i0 = (true, 1) ∧
      tr_variantDictFindInt dictFindTypeTop (bytes "this-is-a-real") i0 = (false, i0) ∧
      tr_variantDictFindInt dictFindTypeTop (bytes "this-is-a-string") i0 = (false, i0) ∧
      tr_variantDictFindInt dictFindTypeTop (bytes "this-is-an-int") i0 = (true, 1234)) := by
  refine ⟨?_, ?_, ⟨rfl, rfl, rfl, rfl, rfl, rfl, rfl, rfl⟩,
    ⟨rfl, rfl, rfl, rfl, rfl, rfl, rfl, rfl⟩⟩
  · intro h
    simp only [tr_variantDictFindInt, h, tr_variantGetInt]
  · intro h hi
    rcases hi with hi | hi
    · subst hi
      simp only [tr_variantDictFindBool, h, tr_variantGetBool]
      rfl
    · subst hi
      simp only [tr_variantDictFindBool, h, tr_variantGetBool]
      rfl

/-- Claim C27 as stated fails on the int 1234: the entry `this-is-an-int`
of the dict of the test `dictFindType` holds the non-zero int 1234, and
`find_bool` on it does not succeed. -/
theorem tr_variantDictFindInt_bool_symmetry_counterexample :
    tr_variantDictFind dictFindTypeTop (bytes "this-is-an-int") = some (.int 1234) ∧
    tr_variantDictFindBool dictFindTypeTop (bytes "this-is-an-int") false = (false, false) ∧
    tr_variantDictFindBool dictFindTypeTop (bytes "this-is-an-int") true = (false, true) :=
  ⟨rfl, rfl, rfl⟩

end Benc
